import Mathlib

/-!
# cvzi/play: the LRU cache (`lru/lru.go`) and the placeholder engine (`main.go`)

Shallow embedding of the Go sources.

* `lru.cache` follows `lru/lru.go`: a map from keys to `*list.Element` (the index) next to a
  `container/list` doubly linked list whose elements carry a `*listData` payload.  A pointer to
  a list element is modelled by the address of the element, a natural number handed out by an
  allocation counter; the linked list is the Lean list of its elements, front first.
* `playshields` follows `main.go` (module `github.com/cvzi/playshields`): Go strings are byte
  sequences, `GoString` is `List (Fin 256)`; an `error` is `nil` or a message; a resolver is a
  function that may read and change the state of the process, which the engine threads through.
  The functions of the Go standard library that the engine calls (`strings.Contains`,
  `strings.ReplaceAll`, `strings.Join`) are given by their documented behaviour.
* The locking of `lru.cache` is a step relation on the `sync.RWMutex` and the goroutines inside
  `Get` and `Set`.
* `cachedGetBody`, `cachedGetJson` and the resolvers run in a `World` of the two caches and the
  network; a panic is the outcome `none`.  `replacePlaceHoldersOrPanic` is `replacePlaceHolders`
  for resolvers that may panic, as those of `playStorePlaceHolders` do.  The `/play` handler
  takes the map `playStorePlaceHolders` as the list of its entries, once for each of its two
  `range` loops, since every loop over a Go map has its own order;
  `regExpAppID.FindStringIndex` is a backtracking matcher with the leftmost-first preference of
  the package `regexp`.

Definitions come first, for both packages, then the lemmas, then the contract theorems.
-/

namespace lru

section defs
variable {K V : Type} [DecidableEq K]

/-- Payload of a list element: `listData` of `lru.go`. -/
structure listData (K V : Type) where
  key : K
  value : V

/-- One `list.Element`: `addr` is its identity (what a `*list.Element` points to), `Value` its
payload. -/
structure Element (K V : Type) where
  addr : Nat
  Value : listData K V

/-- The `cache` struct of `lru.go`.  `index` is the Go map `map[interface{}]*list.Element`, kept
as an association list with at most one entry per key; `list` is the embedded `*list.List`, front
(most recently used) first; `fresh` is the next address the allocator hands out.  The keys are
values of one comparable Go type whose `==` is an equivalence (strings in this repository), and
`max` is a Go `int`.  The mutex is left out: calls are taken one after the other. -/
structure cache (K V : Type) where
  max : Int
  index : List (K × Nat)
  list : List (Element K V)
  fresh : Nat

/-- Go map read `m[k]` with the comma-ok form. -/
def mapGet (m : List (K × Nat)) (k : K) : Option Nat :=
  (m.find? (fun p => decide (p.1 = k))).map (fun p => p.2)

/-- Go builtin `delete(m, k)`. -/
def mapDelete (m : List (K × Nat)) (k : K) : List (K × Nat) :=
  m.filter (fun p => !decide (p.1 = k))

/-- Go map write `m[k] = e`. -/
def mapSet (m : List (K × Nat)) (k : K) (e : Nat) : List (K × Nat) :=
  (k, e) :: mapDelete m k

/-- The element of the list a pointer refers to, if it is linked in the list. -/
def elemAt (l : List (Element K V)) (e : Nat) : Option (Element K V) :=
  l.find? (fun x => decide (x.addr = e))

/-- `(*List).Remove(e)`: unlink `e` if it is an element of the list. -/
def Remove (l : List (Element K V)) (e : Nat) : List (Element K V) :=
  l.eraseP (fun x => decide (x.addr = e))

/-- `(*List).MoveToFront(e)`: no change when `e` is not an element of the list (or is already
the front), otherwise `e` is unlinked and relinked at the front. -/
def MoveToFront (l : List (Element K V)) (e : Nat) : List (Element K V) :=
  match elemAt l e with
  | some x => x :: Remove l e
  | none => l

/-- The assignment `listElement.Value.(*listData).value = value` seen from the list. -/
def setValue (l : List (Element K V)) (e : Nat) (value : V) : List (Element K V) :=
  l.map (fun x => if x.addr = e then { x with Value := { x.Value with value := value } } else x)

/-- `New(max)`: empty index, empty list. -/
def New (max : Int) : cache K V :=
  { max := max, index := [], list := [], fresh := 0 }

/-- `(*List).Len()` through the embedded list. -/
def cache.Len (c : cache K V) : Nat := c.list.length

/-- `cache.Get` of `lru.go` (lines 36-45): the cache afterwards, the returned value (`none` is
Go `nil`) and the `ok` flag.  The value is read through the pointer found in the index, which
always points to an element linked in the list (`Inv`, `Inv_run`). -/
def cache.Get (c : cache K V) (key : K) : cache K V × Option V × Bool :=
  match mapGet c.index key with
  | some listElement =>
    ({ c with list := MoveToFront c.list listElement },
      (elemAt c.list listElement).map (fun x => x.Value.value), true)
  | none => (c, none, false)

/-- `cache.Set` of `lru.go` (lines 49-68). -/
def cache.Set (c : cache K V) (key : K) (value : V) : cache K V :=
  match mapGet c.index key with
  | some listElement =>
    { c with list := setValue (MoveToFront c.list listElement) listElement value }
  | none =>
    let listElement : Element K V := { addr := c.fresh, Value := { key := key, value := value } }
    let l := listElement :: c.list
    let index := mapSet c.index key listElement.addr
    if c.max ≠ 0 ∧ (l.length : Int) > c.max then
      let lastElement := l.getLast (List.cons_ne_nil listElement c.list)
      let lastKey := lastElement.Value.key
      { max := c.max, index := mapDelete index lastKey, list := Remove l lastElement.addr,
        fresh := c.fresh + 1 }
    else
      { max := c.max, index := index, list := l, fresh := c.fresh + 1 }

/-- A call on the cache. -/
inductive Op (K V : Type) where
  | set (key : K) (value : V)
  | get (key : K)

/-- One call, keeping only the cache it leaves behind. -/
def step (c : cache K V) : Op K V → cache K V
  | Op.set k v => c.Set k v
  | Op.get k => (c.Get k).1

/-- A finite sequence of calls, in order. -/
def run (c : cache K V) (ops : List (Op K V)) : cache K V :=
  ops.foldl step c

/-- The entries of the list, front first, as key/value pairs. -/
def entries (c : cache K V) : List (K × V) :=
  c.list.map (fun x => (x.Value.key, x.Value.value))

/-- The keys of the list, front first. -/
def keys (c : cache K V) : List K :=
  c.list.map (fun x => x.Value.key)

/-- Consistency of the index with the list: element addresses and keys are pairwise distinct,
the index maps exactly the keys of the list, each to the element carrying it, and the allocator
has not yet handed out the address `fresh`. -/
structure Inv (c : cache K V) : Prop where
  addrNodup : (c.list.map (fun x => x.addr)).Nodup
  keyNodup : (keys c).Nodup
  indexSound : ∀ k a, mapGet c.index k = some a → ∃ x ∈ c.list, x.addr = a ∧ x.Value.key = k
  indexComplete : ∀ x ∈ c.list, mapGet c.index x.Value.key = some x.addr
  freshBound : ∀ x ∈ c.list, x.addr < c.fresh

/-- Moving the entry of `k` to the front with value `v`; the others keep their order. -/
def touched (l : List (K × V)) (k : K) (v : V) : List (K × V) :=
  (k, v) :: l.filter (fun p => !decide (p.1 = k))

/-- The elements of the list other than the one carrying key `k`, in their order. -/
def others (l : List (Element K V)) (k : K) : List (Element K V) :=
  l.filter (fun y => !decide (y.Value.key = k))

/-- The cache right after `PushFront` and the index write of `Set`, before the capacity check. -/
def pushed (c : cache K V) (key : K) (value : V) : cache K V :=
  { max := c.max, index := mapSet c.index key c.fresh,
    list := { addr := c.fresh, Value := { key := key, value := value } } :: c.list,
    fresh := c.fresh + 1 }

/-- The cache after the eviction branch of `Set`: the back element is unlinked and its key is
deleted from the index. -/
def evicted (c : cache K V) (hl : c.list ≠ []) : cache K V :=
  { max := c.max, index := mapDelete c.index (c.list.getLast hl).Value.key,
    list := c.list.dropLast, fresh := c.fresh }

/-- Keys touched by a sequence of calls started on `c`, oldest first: every `Set` touches its
key, a `Get` touches its key exactly when it finds it. -/
def touches (c : cache K V) : List (Op K V) → List K
  | [] => []
  | Op.set k v :: ops => k :: touches (c.Set k v) ops
  | Op.get k :: ops =>
    if (c.Get k).2.2 then k :: touches (c.Get k).1 ops else touches (c.Get k).1 ops

/-- The keys given to `Set` in a sequence of calls, oldest first. -/
def setKeys : List (Op K V) → List K
  | [] => []
  | Op.set k _ :: ops => k :: setKeys ops
  | Op.get _ :: ops => setKeys ops

/-- The value given by the most recent `Set` on `k` in a sequence of calls. -/
def lastSet (ops : List (Op K V)) (k : K) : Option V :=
  ops.foldl (fun r op =>
    match op with
    | Op.set k' v => if k' = k then some v else r
    | Op.get _ => r) none

/-- Time of the last touch of `k` in a list of touches, oldest first: the position (from 1) of
its last occurrence, and 0 when `k` was never touched. -/
def lastTouch (ts : List K) (k : K) : Nat :=
  ts.length - ts.reverse.indexOf k

/-- The distinct keys of a list of touches, most recently touched first. -/
def recency (ts : List K) : List K :=
  ts.dedup.reverse

/-- What a lookup of `k` in a list of entries yields, in the shape of the results of `Get`. -/
def lookupEntry (l : List (K × V)) (k : K) : Option V × Bool :=
  match l.find? (fun p => decide (p.1 = k)) with
  | some p => (some p.2, true)
  | none => (none, false)

/-- The two methods of `cache` that take the embedded `sync.RWMutex`. -/
inductive Method where
  | Get
  | Set
deriving DecidableEq

/-- Where a goroutine stands in a call of `Get` or `Set`: before taking the lock, between taking
and releasing it (lines 39-44 of `Get`, lines 53-67 of `Set`: the index lookup and the change of
the list), or after the deferred unlock. -/
inductive Pc where
  | start
  | critical
  | finished
deriving DecidableEq

/-- A goroutine running one call on the cache. -/
structure Goroutine where
  method : Method
  pc : Pc
deriving DecidableEq

/-- State of a `sync.RWMutex`: the number of read locks held and whether the write lock is
held. -/
structure RWMutex where
  readers : Nat
  writer : Bool
deriving DecidableEq

/-- The goroutines calling into one cache, and its mutex. -/
structure Sched where
  mutex : RWMutex
  goroutines : List Goroutine
deriving DecidableEq

/-- The next step of a goroutine, if it can take one.  `Get` takes the lock with `c.RLock()` and
releases it with `c.RUnlock()` (lines 37-38); `Set` takes it with `c.Lock()` and releases it with
`c.Unlock()` (lines 50-51).  `RLock` waits while the write lock is held; `Lock` waits while any
lock is held. -/
def advance (mu : RWMutex) (g : Goroutine) : Option (RWMutex × Goroutine) :=
  match g.method, g.pc with
  | Method.Get, Pc.start =>
    if mu.writer then none
    else some ({ mu with readers := mu.readers + 1 }, { g with pc := Pc.critical })
  | Method.Get, Pc.critical =>
    some ({ mu with readers := mu.readers - 1 }, { g with pc := Pc.finished })
  | Method.Set, Pc.start =>
    if mu.writer ∨ mu.readers ≠ 0 then none
    else some ({ mu with writer := true }, { g with pc := Pc.critical })
  | Method.Set, Pc.critical =>
    some ({ mu with writer := false }, { g with pc := Pc.finished })
  | _, Pc.finished => none

/-- Goroutine `i` takes its next step, if there is such a goroutine and it does not wait. -/
def stepAt (s : Sched) (i : Nat) : Option Sched :=
  match s.goroutines[i]? with
  | none => none
  | some g =>
    match advance s.mutex g with
    | none => none
    | some r => some { mutex := r.1, goroutines := s.goroutines.set i r.2 }

/-- An interleaving: the goroutines named in the list take one step each, in this order. -/
def schedule (s : Sched) : List Nat → Option Sched
  | [] => some s
  | i :: rest =>
    match stepAt s i with
    | none => none
    | some s1 => schedule s1 rest

/-- Calls of the given methods, none started yet, on a cache whose mutex is free. -/
def initial (methods : List Method) : Sched :=
  { mutex := { readers := 0, writer := false },
    goroutines := methods.map (fun m => { method := m, pc := Pc.start }) }

/-- Number of goroutines inside `Get`, between `RLock` and `RUnlock`. -/
def readersIn (s : Sched) : Nat :=
  s.goroutines.countP (fun g => decide (g.method = Method.Get ∧ g.pc = Pc.critical))

/-- Number of goroutines inside `Set`, between `Lock` and `Unlock`. -/
def writersIn (s : Sched) : Nat :=
  s.goroutines.countP (fun g => decide (g.method = Method.Set ∧ g.pc = Pc.critical))

/-- What the mutex guarantees in every interleaving: it counts the goroutines inside `Get`, and
its write flag says whether a goroutine is inside `Set`, which then is alone. -/
structure MutexInv (s : Sched) : Prop where
  readers : readersIn s = s.mutex.readers
  writers : writersIn s = if s.mutex.writer then 1 else 0
  exclusive : s.mutex.writer = true → s.mutex.readers = 0

end defs

end lru

/-! ## `main.go`: the placeholder engine -/

namespace playshields

/-- A Go string: a sequence of bytes. -/
abbrev GoString := List (Fin 256)

/-- A Go `error` value, known by its `Error()` message; `none` is `nil`. -/
abbrev error := Option GoString

/-- The bytes of an ASCII literal. -/
def ascii (s : String) : GoString :=
  s.toList.map (fun c => Fin.ofNat c.toNat)

/-- Width in bytes of the first UTF-8 sequence of a string as `utf8.DecodeRuneInString` reports
it: 0 for the empty string, 1 for an ASCII byte and for an invalid or truncated sequence. -/
def runeWidth : GoString → Nat
  | [] => 0
  | s0 :: rest =>
    if s0.val < 0xC2 then 1
    else if s0.val < 0xE0 then
      match rest with
      | s1 :: _ => if 0x80 ≤ s1.val ∧ s1.val ≤ 0xBF then 2 else 1
      | _ => 1
    else if s0.val < 0xF0 then
      match rest with
      | s1 :: s2 :: _ =>
        if (if s0.val = 0xE0 then 0xA0 else 0x80) ≤ s1.val ∧
            s1.val ≤ (if s0.val = 0xED then 0x9F else 0xBF) ∧
            0x80 ≤ s2.val ∧ s2.val ≤ 0xBF then 3 else 1
      | _ => 1
    else if s0.val < 0xF5 then
      match rest with
      | s1 :: s2 :: s3 :: _ =>
        if (if s0.val = 0xF0 then 0x90 else 0x80) ≤ s1.val ∧
            s1.val ≤ (if s0.val = 0xF4 then 0x8F else 0xBF) ∧
            0x80 ≤ s2.val ∧ s2.val ≤ 0xBF ∧ 0x80 ≤ s3.val ∧ s3.val ≤ 0xBF then 4 else 1
      | _ => 1
    else 1

/-- Scan of `utf8.RuneCountInString`; the first argument counts the bytes of the current
sequence that are still to be passed. -/
def runeCountFrom : Nat → GoString → Nat
  | _, [] => 0
  | 0, b :: t => 1 + runeCountFrom (runeWidth (b :: t) - 1) t
  | k + 1, _ :: t => runeCountFrom k t

/-- `utf8.RuneCountInString`: the number of characters (runes) of a string. -/
def RuneCountInString (s : GoString) : Nat :=
  runeCountFrom 0 s

/-- `strings.Contains(s, substr)`. -/
def Contains (s substr : GoString) : Bool :=
  decide (substr <:+: s)

/-- `strings.ReplaceAll` for a non-empty `old`: the non-overlapping instances of `old` are
replaced from left to right; the first argument counts the bytes of the instance just replaced
that are still to be skipped. -/
def replaceNonEmpty (old new : GoString) : Nat → GoString → GoString
  | _, [] => []
  | k + 1, _ :: t => replaceNonEmpty old new k t
  | 0, b :: t =>
    if old <+: b :: t then new ++ replaceNonEmpty old new (old.length - 1) t
    else b :: replaceNonEmpty old new 0 t

/-- `strings.ReplaceAll` for an empty `old`, after the first insertion: `new` is inserted after
each UTF-8 sequence; the first argument counts the bytes of the current sequence still to be
copied (0 at the start of a sequence). -/
def replaceEmpty (new : GoString) : Nat → GoString → GoString
  | _, [] => []
  | k, b :: t =>
    if (if k = 0 then runeWidth (b :: t) else k) - 1 = 0 then b :: (new ++ replaceEmpty new 0 t)
    else b :: replaceEmpty new ((if k = 0 then runeWidth (b :: t) else k) - 1) t

/-- `strings.ReplaceAll(s, old, new)`: a copy of `s` with all non-overlapping instances of `old`
replaced by `new`; an empty `old` matches at the beginning of the string and after each UTF-8
sequence. -/
def ReplaceAll (s old new : GoString) : GoString :=
  if old = new then s
  else if old = [] then new ++ replaceEmpty new 0 s
  else replaceNonEmpty old new 0 s

/-- `strings.Join(elems, sep)`. -/
def Join (elems : List GoString) (sep : GoString) : GoString :=
  sep.intercalate elems

/-- The literal `"$$"`. -/
def dollarDollar : GoString := [0x24, 0x24]

/-- The constant `escapeDollar` of `main.go`: the bytes `\xf0\x9f\x92\xb2` twice. -/
def escapeDollar : GoString := [0xf0, 0x9f, 0x92, 0xb2, 0xf0, 0x9f, 0x92, 0xb2]

/-- A token of the form of the keys of `playStorePlaceHolders`: a `$`, then bytes other than
`$`. -/
def IsToken (t : GoString) : Prop :=
  ∃ body, t = 0x24 :: body ∧ (0x24 : Fin 256) ∉ body

/-- A piece of the working string after the round of the token `t` whose resolver returned `r`:
the piece `t` has become the value, cut to 1000 bytes, when the resolver succeeded. -/
def pieceAfter (t : GoString) (r : GoString × error) (p : GoString) : GoString :=
  if p = t ∧ r.2 = none then (if r.1.length > 1000 then r.1.take 1000 else r.1) else p

section engine
variable {σ : Type}

/-- The type `placeHolderGetter`: a Go function `func(string, []string) (string, error)`.  It may
read and change the state `σ` of the process (the caches, the network). -/
abbrev placeHolderGetter (σ : Type) := GoString → List GoString → σ → (GoString × error) × σ

/-- The struct `placeHolder`. -/
structure placeHolder (σ : Type) where
  placeHolderGetter : placeHolderGetter σ
  description : GoString

/-- `replacePlaceHolder` of `main.go` (lines 294-307): the returned string, the error slice
behind `errorArr` afterwards, and the state afterwards. -/
def replacePlaceHolder (errorArr : List error) (s : GoString) (placeHolderName : GoString)
    (f : placeHolderGetter σ) (placeHolderGetterParams : List GoString) (w : σ) :
    (GoString × List error) × σ :=
  if Contains s placeHolderName then
    match f placeHolderName placeHolderGetterParams w with
    | ((value, err), w1) =>
      if err ≠ none then ((s, errorArr ++ [err]), w1)
      else
        ((ReplaceAll s placeHolderName (if value.length > 1000 then value.take 1000 else value),
          errorArr), w1)
  else ((s, errorArr), w)

/-- `combineErrors` of `main.go` (lines 324-336). -/
def combineErrors (errorArr : List error) : Bool × error :=
  if errorArr.length = 0 then (true, none)
  else (false, some (Join (errorArr.filterMap id) [0x2c]))

/-- `replacePlaceHolders` of `main.go` (lines 310-321).  The map `placeHolderNames` is given as
the list of its entries in the order in which the `range` loop visits them. -/
def replacePlaceHolders (s : GoString) (placeHolderNames : List (GoString × placeHolder σ))
    (placeHolderGetterParams : List GoString) (w : σ) : (GoString × error) × σ :=
  match placeHolderNames.foldl
      (fun acc kv =>
        replacePlaceHolder acc.1.2 acc.1.1 kv.1 kv.2.placeHolderGetter placeHolderGetterParams
          acc.2)
      ((ReplaceAll s dollarDollar escapeDollar, []), w) with
  | ((s1, errorArr), w1) =>
    ((ReplaceAll s1 escapeDollar dollarDollar, (combineErrors errorArr).2), w1)

/-- A Go function of the type `placeHolderGetter` together with the panic it may end in: `none`
is the panic, next to the state that the call leaves behind. -/
abbrev getterOrPanic (σ : Type) := GoString → List GoString → σ → Option (GoString × error) × σ

/-- The struct `placeHolder` around a function that may panic. -/
structure placeHolderOrPanic (σ : Type) where
  placeHolderGetter : getterOrPanic σ
  description : GoString

/-- `replacePlaceHolder` of `main.go` (lines 294-307) with a function that may panic: `none`
when the call of the function panics, else the returned string and the error slice behind
`errorArr` afterwards; and the state afterwards. -/
def replacePlaceHolderOrPanic (errorArr : List error) (s : GoString) (placeHolderName : GoString)
    (f : getterOrPanic σ) (placeHolderGetterParams : List GoString) (w : σ) :
    Option (GoString × List error) × σ :=
  if Contains s placeHolderName then
    match f placeHolderName placeHolderGetterParams w with
    | (none, w1) => (none, w1)
    | (some (value, err), w1) =>
      if err ≠ none then (some (s, errorArr ++ [err]), w1)
      else
        (some (ReplaceAll s placeHolderName
          (if value.length > 1000 then value.take 1000 else value), errorArr), w1)
  else (some (s, errorArr), w)

/-- The `range` loop of `replacePlaceHolders` (lines 314-316) over the entries of the map in the
order in which this run of the loop visits them, on the working string and the error slice; a
panic ends the loop. -/
def rangeOrPanic (placeHolderGetterParams : List GoString) :
    List (GoString × placeHolderOrPanic σ) → GoString × List error → σ →
      Option (GoString × List error) × σ
  | [], acc, w => (some acc, w)
  | kv :: rest, acc, w =>
    match replacePlaceHolderOrPanic acc.2 acc.1 kv.1 kv.2.placeHolderGetter
        placeHolderGetterParams w with
    | (none, w1) => (none, w1)
    | (some acc1, w1) => rangeOrPanic placeHolderGetterParams rest acc1 w1

/-- `replacePlaceHolders` of `main.go` (lines 310-321) with functions that may panic.  The map
`placeHolderNames` is given as the list of its entries in the order in which the `range` loop of
this call visits them; the result is `none` when a function panics. -/
def replacePlaceHoldersOrPanic (s : GoString)
    (placeHolderNames : List (GoString × placeHolderOrPanic σ))
    (placeHolderGetterParams : List GoString) (w : σ) : Option (GoString × error) × σ :=
  match rangeOrPanic placeHolderGetterParams placeHolderNames
      (ReplaceAll s dollarDollar escapeDollar, []) w with
  | (none, w1) => (none, w1)
  | (some (s1, errorArr), w1) =>
    (some (ReplaceAll s1 escapeDollar dollarDollar, (combineErrors errorArr).2), w1)

/-- A function that returns, among those that may panic. -/
def returning (ph : placeHolder σ) : placeHolderOrPanic σ :=
  { placeHolderGetter := fun name params w =>
      (some (ph.placeHolderGetter name params w).1, (ph.placeHolderGetter name params w).2),
    description := ph.description }

/-- Independence of the resolvers of a registry on the states of `S`: when a resolver returns
from a state of `S`, it leaves a state of `S` in which every resolver of another token answers
what it answered before. -/
def Independent (S : σ → Prop) (params : List GoString)
    (reg : List (GoString × placeHolderOrPanic σ)) : Prop :=
  ∀ b ∈ reg, ∀ w r w1, S w → b.2.placeHolderGetter b.1 params w = (some r, w1) →
    S w1 ∧ ∀ a ∈ reg, a.1 ≠ b.1 →
      (a.2.placeHolderGetter a.1 params w1).1 = (a.2.placeHolderGetter a.1 params w).1

/-- The pieces of the working string after the rounds of the entries of `l`, each with the
answer `o` of its resolver: a piece that is the token of an entry whose resolver succeeded has
become the value. -/
def piecesAfter (o : GoString × placeHolderOrPanic σ → Option (GoString × error))
    (l : List (GoString × placeHolderOrPanic σ)) (W : List GoString) : List GoString :=
  l.foldl (fun W kv => W.map (pieceAfter kv.1 ((o kv).getD ([], none)))) W

/-- A resolver instrumented with a call counter next to the state. -/
def counted (f : placeHolderGetter σ) : placeHolderGetter (σ × Nat) :=
  fun name params w => ((f name params w.1).1, ((f name params w.1).2, w.2 + 1))

/-- A registry with every resolver instrumented by the same call counter. -/
def countedRegistry (reg : List (GoString × placeHolder σ)) :
    List (GoString × placeHolder (σ × Nat)) :=
  reg.map (fun kv => (kv.1, { placeHolderGetter := counted kv.2.placeHolderGetter,
                               description := kv.2.description }))

end engine

/-- The character U+1F4B2 in UTF-8; `escapeDollar` is this character twice. -/
def heavyDollar : GoString := [0xf0, 0x9f, 0x92, 0xb2]

/-- The record of one resolver call: the token, the value and the error it returned. -/
structure Call where
  token : GoString
  value : GoString
  err : error
deriving DecidableEq

section trace
variable {σ : Type}

/-- The resolver calls made by the loop of `replacePlaceHolders` on the working string `s`, in
the order of the loop: a resolver is called when its token occurs in the working string at its
turn, and a successful call changes the working string. -/
def calls (params : List GoString) : List (GoString × placeHolder σ) → GoString → σ → List Call
  | [], _, _ => []
  | kv :: rest, s, w =>
    if kv.1 <:+: s then
      { token := kv.1, value := (kv.2.placeHolderGetter kv.1 params w).1.1,
        err := (kv.2.placeHolderGetter kv.1 params w).1.2 } ::
        calls params rest
          (if (kv.2.placeHolderGetter kv.1 params w).1.2 = none then
            ReplaceAll s kv.1
              (if (kv.2.placeHolderGetter kv.1 params w).1.1.length > 1000 then
                (kv.2.placeHolderGetter kv.1 params w).1.1.take 1000
              else (kv.2.placeHolderGetter kv.1 params w).1.1)
          else s)
          (kv.2.placeHolderGetter kv.1 params w).2
    else calls params rest s w

/-- The working string after the substitutions of the successful calls of a list of calls. -/
def substituted (s : GoString) (cs : List Call) : GoString :=
  cs.foldl (fun s c =>
    if c.err = none then
      ReplaceAll s c.token (if c.value.length > 1000 then c.value.take 1000 else c.value)
    else s) s

end trace

/-- A resolver that always succeeds with the value `v`. -/
def constResolver (v : GoString) : placeHolder Unit :=
  { placeHolderGetter := fun _ _ w => ((v, none), w), description := [] }

/-- A resolver that always fails with the message `m`. -/
def failResolver (m : GoString) : placeHolder Unit :=
  { placeHolderGetter := fun _ _ w => (([], some m), w), description := [] }

/-- The two-byte character `é` (`\xc3\xa9`) repeated `n` times. -/
def eAcute : Nat → GoString
  | 0 => []
  | n + 1 => 0xc3 :: 0xa9 :: eAcute n

end playshields

/-! ## `main.go`: the fetchers, the resolvers and the `/play` handler -/

namespace playshields

/-- Text before and after the first instance of `sep` in a string, if `sep` occurs in it. -/
def Cut (sep : GoString) : GoString → Option (GoString × GoString)
  | [] => if sep = [] then some ([], []) else none
  | b :: t =>
    if sep <+: b :: t then some ([], (b :: t).drop sep.length)
    else (Cut sep t).map (fun r => (b :: r.1, r.2))

/-- `strings.SplitN(s, sep, 2)` for a non-empty `sep` (every separator of `main.go` is a
non-empty constant): the text before and the text after the first instance of `sep`, or `s`
alone when `sep` does not occur. -/
def SplitN2 (s sep : GoString) : List GoString :=
  match Cut sep s with
  | some r => [r.1, r.2]
  | none => [s]

/-- Scan of `strings.Split` for a non-empty `sep`; the first argument counts the bytes of the
instance of `sep` just found that are still to be skipped. -/
def splitFrom (sep : GoString) : Nat → GoString → List GoString
  | _, [] => [[]]
  | k + 1, _ :: t => splitFrom sep k t
  | 0, b :: t =>
    if sep <+: b :: t then [] :: splitFrom sep (sep.length - 1) t
    else
      match splitFrom sep 0 t with
      | p :: ps => (b :: p) :: ps
      | [] => [[b]]

/-- `strings.Split(s, sep)` for a non-empty `sep`: the pieces of `s` between the non-overlapping
instances of `sep`, from left to right; there is always a first piece. -/
def Split (s sep : GoString) : List GoString :=
  splitFrom sep 0 s

/-- The white space of `unicode.IsSpace` below U+0080. -/
def isAsciiSpace (b : Fin 256) : Bool :=
  b = 0x09 ∨ b = 0x0a ∨ b = 0x0b ∨ b = 0x0c ∨ b = 0x0d ∨ b = 0x20

/-- The two-byte white space of `unicode.IsSpace`: U+0085 and U+00A0. -/
def isSpace2 (a b : Fin 256) : Bool :=
  a = 0xc2 ∧ (b = 0x85 ∨ b = 0xa0)

/-- The three-byte white space of `unicode.IsSpace`: U+1680, U+2000 to U+200A, U+2028, U+2029,
U+202F, U+205F and U+3000. -/
def isSpace3 (a b c : Fin 256) : Bool :=
  (a = 0xe1 ∧ b = 0x9a ∧ c = 0x80) ∨
  (a = 0xe2 ∧ b = 0x80 ∧ ((0x80 ≤ c.val ∧ c.val ≤ 0x8a) ∨ c = 0xa8 ∨ c = 0xa9 ∨ c = 0xaf)) ∨
  (a = 0xe2 ∧ b = 0x81 ∧ c = 0x9f) ∨
  (a = 0xe3 ∧ b = 0x80 ∧ c = 0x80)

/-- `strings.TrimLeftFunc(s, unicode.IsSpace)`. -/
def trimLeftSpace : GoString → GoString
  | [] => []
  | a :: t =>
    if isAsciiSpace a then trimLeftSpace t
    else
      match t with
      | [] => [a]
      | b :: t2 =>
        if isSpace2 a b then trimLeftSpace t2
        else
          match t2 with
          | [] => [a, b]
          | c :: t3 => if isSpace3 a b c then trimLeftSpace t3 else a :: b :: c :: t3

/-- `strings.TrimRightFunc(s, unicode.IsSpace)` on the reversed string. -/
def trimRightSpaceRev : GoString → GoString
  | [] => []
  | a :: t =>
    if isAsciiSpace a then trimRightSpaceRev t
    else
      match t with
      | [] => [a]
      | b :: t2 =>
        if isSpace2 b a then trimRightSpaceRev t2
        else
          match t2 with
          | [] => [a, b]
          | c :: t3 => if isSpace3 c b a then trimRightSpaceRev t3 else a :: b :: c :: t3

/-- `strings.TrimSpace(s)`: `s` without leading and trailing white space, as defined by
Unicode. -/
def TrimSpace (s : GoString) : GoString :=
  (trimRightSpaceRev (trimLeftSpace s).reverse).reverse

/-- An upper-case hexadecimal digit. -/
def hexDigit (n : Nat) : Fin 256 :=
  if n < 10 then Fin.ofNat (0x30 + n) else Fin.ofNat (0x41 + (n - 10))

/-- The bytes that `url.QueryEscape` leaves as they are: letters, digits, `-`, `_`, `.`, `~`. -/
def isUnreserved (b : Fin 256) : Bool :=
  (0x41 ≤ b.val ∧ b.val ≤ 0x5a) ∨ (0x61 ≤ b.val ∧ b.val ≤ 0x7a) ∨ (0x30 ≤ b.val ∧ b.val ≤ 0x39) ∨
    b = 0x2d ∨ b = 0x5f ∨ b = 0x2e ∨ b = 0x7e

/-- `url.QueryEscape(s)`. -/
def QueryEscape : GoString → GoString
  | [] => []
  | b :: t =>
    if isUnreserved b then b :: QueryEscape t
    else if b = 0x20 then 0x2b :: QueryEscape t
    else 0x25 :: hexDigit (b.val / 16) :: hexDigit (b.val % 16) :: QueryEscape t

/-- The constant `playstoreAppURL`. -/
def playstoreAppURL : GoString := ascii "https://play.google.com/store/apps/details?hl=en_US&id="

/-- The struct `htmlCacheEntry`. -/
structure htmlCacheEntry where
  content : GoString
  ok : Bool
  errorStr : GoString
deriving DecidableEq

/-- The fields of an `*http.Response` that `cachedGetBody` reads; `Body` is what
`ioutil.ReadAll(resp.Body)` returns. -/
structure Response where
  StatusCode : Int
  Status : GoString
  Body : GoString × error
deriving DecidableEq

/-- A document of `simplejson`: the value held by a `*simplejson.Json`.  A number is kept as its
literal (`json.Number`). -/
inductive Json where
  | null
  | bool (b : Bool)
  | number (literal : GoString)
  | string (s : GoString)
  | array (elems : List Json)
  | object (fields : List (GoString × Json))

/-- What the fetchers take from outside the repository: the network behind `http.Get`, with its
state `ν`, and the parser `simplejson.NewJson`.  `httpGet` returns the error of `http.Get` or its
response. -/
structure Env (ν : Type) where
  httpGet : GoString → ν → Except GoString Response × ν
  NewJson : GoString → Except GoString Json

/-- The package variables `htmlCache` and `jsCache`, and the state of the network. -/
structure World (ν : Type) where
  htmlCache : lru.cache GoString htmlCacheEntry
  jsCache : lru.cache GoString Json
  net : ν

section fetch
variable {ν : Type}

/-- `cachedGetBody` of `main.go` (lines 264-291).  The result is `none` when the call panics,
else the error or the content returned. -/
def cachedGetBody (env : Env ν) (url : GoString) (w : World ν) :
    Option (Except GoString GoString) × World ν :=
  match w.htmlCache.Get url with
  | (c1, some cacheEntry, true) =>
    if cacheEntry.ok then (some (Except.ok cacheEntry.content), { w with htmlCache := c1 })
    else (some (Except.error cacheEntry.errorStr), { w with htmlCache := c1 })
  | (c1, none, true) => (none, { w with htmlCache := c1 })
  | (c1, _, false) =>
    match env.httpGet url w.net with
    | (Except.error err, n1) =>
      (some (Except.error err),
        { htmlCache := c1.Set url { errorStr := err, ok := false, content := [] },
          jsCache := w.jsCache, net := n1 })
    | (Except.ok resp, n1) =>
      if resp.StatusCode ≠ 200 then
        (some (Except.error resp.Status),
          { htmlCache := c1.Set url { errorStr := resp.Status, ok := false, content := [] },
            jsCache := w.jsCache, net := n1 })
      else
        match resp.Body with
        | (_, some err) =>
          (some (Except.error err),
            { htmlCache := c1.Set url { errorStr := err, ok := false, content := [] },
              jsCache := w.jsCache, net := n1 })
        | (data, none) =>
          match (SplitN2 data (ascii "</head>"))[1]? with
          | none => (none, { htmlCache := c1, jsCache := w.jsCache, net := n1 })
          | some content =>
            (some (Except.ok content),
              { htmlCache := c1.Set url { content := content, ok := true, errorStr := [] },
                jsCache := w.jsCache, net := n1 })

/-- The body of the loop of `cachedGetJson` for an element that contains the literal of the app
id (lines 249-251); `none` when an index or a slice bound is out of range. -/
def extractPayload (element : GoString) : Option GoString :=
  match (SplitN2 (TrimSpace ((Split element (ascii "</script>")).headD [])) (ascii "data:"))[1]? with
  | none => none
  | some d =>
    if (TrimSpace ((Split d (ascii "sideChannel:")).headD [])).length = 0 then none
    else
      some ((TrimSpace ((Split d (ascii "sideChannel:")).headD [])).take
        ((TrimSpace ((Split d (ascii "sideChannel:")).headD [])).length - 1))

/-- The loop of `cachedGetJson` (lines 246-253); `none` when it panics. -/
def findPayload (appid : GoString) (parts : List GoString) : Option GoString :=
  parts.foldl
    (fun acc element =>
      match acc with
      | none => none
      | some arrString =>
        if Contains element (ascii "[\"" ++ appid ++ ascii "\"],") then extractPayload element
        else some arrString)
    (some [])

/-- `cachedGetJson` of `main.go` (lines 232-261).  The result is `none` when the call panics,
else the error or the document returned. -/
def cachedGetJson (env : Env ν) (placeHolderGetterParams : List GoString) (w : World ν) :
    Option (Except GoString Json) × World ν :=
  match placeHolderGetterParams with
  | [] => (none, w)
  | appid :: _ =>
    match w.jsCache.Get appid with
    | (c1, some cacheEntry, true) => (some (Except.ok cacheEntry), { w with jsCache := c1 })
    | (c1, none, true) => (none, { w with jsCache := c1 })
    | (c1, _, false) =>
      match cachedGetBody env (playstoreAppURL ++ QueryEscape appid) { w with jsCache := c1 } with
      | (none, w1) => (none, w1)
      | (some (Except.error err), w1) => (some (Except.error err), w1)
      | (some (Except.ok content), w1) =>
        match findPayload appid ((Split content (ascii "AF_initDataCallback(\x7b")).drop 1) with
        | none => (none, w1)
        | some arrString =>
          match env.NewJson arrString with
          | Except.error err => (some (Except.error err), w1)
          | Except.ok js => (some (Except.ok js), { w1 with jsCache := w1.jsCache.Set appid js })

end fetch

/-- What `cachedGetBody` returns for an entry found in `htmlCache` (lines 266-270). -/
def served (e : htmlCacheEntry) : Except GoString GoString :=
  if e.ok then Except.ok e.content else Except.error e.errorStr

/-- The entry that `cachedGetBody` stores in `htmlCache` next to the error or the content it
returns on a miss (lines 274, 277, 283, 288). -/
def stored (r : Except GoString GoString) : htmlCacheEntry :=
  match r with
  | Except.error err => { errorStr := err, ok := false, content := [] }
  | Except.ok content => { content := content, ok := true, errorStr := [] }

section resolvers
variable {ν : Type}

/-- The calls `cachedGetBody(url)` for a list of URLs, one after the other. -/
def runBody (env : Env ν) (urls : List GoString) (w : World ν) : World ν :=
  urls.foldl (fun w u => (cachedGetBody env u w).2) w

/-- `(*Json).GetIndex(index)` of `simplejson` for an index that is not negative: the element of
an array at the index, and a document holding `nil` when the document is not an array or the
index is out of range. -/
def GetIndex (j : Json) (index : Nat) : Json :=
  match j with
  | Json.array elems => elems.getD index Json.null
  | _ => Json.null

/-- A chain of `GetIndex` calls. -/
def getPath (j : Json) (indices : List Nat) : Json :=
  indices.foldl GetIndex j

/-- `(*Json).MustString()` of `simplejson`: the string held, and `""` when the document does not
hold a string. -/
def MustString (j : Json) : GoString :=
  match j with
  | Json.string s => s
  | _ => []

/-- The value of a non-empty sequence of decimal digits. -/
def digitsValue : GoString → Option Nat
  | [] => none
  | b :: t =>
    (b :: t).foldl
      (fun acc c =>
        match acc with
        | none => none
        | some n => if 0x30 ≤ c.val ∧ c.val ≤ 0x39 then some (10 * n + (c.val - 0x30)) else none)
      (some 0)

/-- `strconv.ParseInt(s, 10, 64)`, `none` for its errors (bad syntax, out of range). -/
def ParseInt (s : GoString) : Option Int :=
  match s with
  | [] => none
  | c :: t =>
    if c = 0x2d then
      match digitsValue t with
      | some n => if n ≤ 2 ^ 63 then some (-(n : Int)) else none
      | none => none
    else
      match digitsValue (if c = 0x2b then t else c :: t) with
      | some n => if n < 2 ^ 63 then some (n : Int) else none
      | none => none

/-- `(*Json).MustInt()` of `simplejson` on a document made by `NewJson`: the value of a number
whose literal is an integer in the range of `int64`, and 0 otherwise. -/
def MustInt (j : Json) : Int :=
  match j with
  | Json.number literal => (ParseInt literal).getD 0
  | _ => 0

/-- `fmt.Sprint` of an `int`. -/
def Sprint (i : Int) : GoString :=
  ascii (toString i)

/-- `playStoreGetInstalls` of `main.go` (lines 119-127); `none` when the call panics. -/
def playStoreGetInstalls (env : Env ν) (_placeHolderName : GoString)
    (placeHolderGetterParams : List GoString) (w : World ν) :
    Option (GoString × error) × World ν :=
  match cachedGetJson env placeHolderGetterParams w with
  | (none, w1) => (none, w1)
  | (some (Except.error err), w1) => (some ([], some (ascii "app unavailable: " ++ err)), w1)
  | (some (Except.ok js), w1) => (some (MustString (getPath js [1, 2, 13, 3]), none), w1)

/-- `playStoreGetVersion` of `main.go` (lines 130-141); `none` when the call panics. -/
def playStoreGetVersion (env : Env ν) (_placeHolderName : GoString)
    (placeHolderGetterParams : List GoString) (w : World ν) :
    Option (GoString × error) × World ν :=
  match cachedGetJson env placeHolderGetterParams w with
  | (none, w1) => (none, w1)
  | (some (Except.error err), w1) => (some ([], some (ascii "app unavailable: " ++ err)), w1)
  | (some (Except.ok js), w1) =>
    if TrimSpace (MustString (getPath js [1, 2, 140, 0, 0, 0])) = [] then
      (some (ascii "Varies with device", none), w1)
    else (some (MustString (getPath js [1, 2, 140, 0, 0, 0]), none), w1)

/-- `playStoreGetTargetSdk` of `main.go` (lines 183-191); `none` when the call panics. -/
def playStoreGetTargetSdk (env : Env ν) (_placeHolderName : GoString)
    (placeHolderGetterParams : List GoString) (w : World ν) :
    Option (GoString × error) × World ν :=
  match cachedGetJson env placeHolderGetterParams w with
  | (none, w1) => (none, w1)
  | (some (Except.error err), w1) => (some ([], some (ascii "app unavailable: " ++ err)), w1)
  | (some (Except.ok js), w1) =>
    (some (Sprint (MustInt (getPath js [1, 2, 140, 1, 0, 0, 0])), none), w1)

/-- The entries of `playStorePlaceHolders` (lines 56-70) for the three resolvers above. -/
def modelledPlaceHolders (env : Env ν) : List (GoString × placeHolderOrPanic (World ν)) :=
  [(ascii "$version",
      { placeHolderGetter := playStoreGetVersion env, description := ascii "App version" }),
    (ascii "$installs",
      { placeHolderGetter := playStoreGetInstalls env, description := ascii "Installs" }),
    (ascii "$targetsdk",
      { placeHolderGetter := playStoreGetTargetSdk env, description := ascii "Target SDK" })]

/-- The worlds that the process reaches: both caches well formed, with their capacity not
negative. -/
def GoodWorld (w : World ν) : Prop :=
  lru.Inv w.htmlCache ∧ 0 ≤ w.htmlCache.max ∧ lru.Inv w.jsCache ∧ 0 ≤ w.jsCache.max

end resolvers

/-- Regular expressions, as far as `appIDPattern` needs them: a class of bytes, a sequence, a
greedy repetition. -/
inductive Re where
  | cls (p : Fin 256 → Bool)
  | seq (a b : Re)
  | star (a : Re)

/-- The greedy `a+`. -/
def Re.plus (a : Re) : Re :=
  Re.seq a (Re.star a)

/-- The strings that a regular expression matches from its first to its last byte: the match
anchored at both ends. -/
inductive Matches : Re → GoString → Prop where
  | cls (p : Fin 256 → Bool) (b : Fin 256) : p b = true → Matches (Re.cls p) [b]
  | seq (a b : Re) (s1 s2 : GoString) :
      Matches a s1 → Matches b s2 → Matches (Re.seq a b) (s1 ++ s2)
  | starNil (a : Re) : Matches (Re.star a) []
  | starCons (a : Re) (s1 s2 : GoString) :
      Matches a s1 → Matches (Re.star a) s2 → Matches (Re.star a) (s1 ++ s2)

/-- The loop of a greedy repetition in a backtracking matcher: one more round of `ma` is tried
first, and the continuation `k` on what is left only when that fails; a round has to consume
input.  The first argument bounds the number of rounds by the length of the input. -/
def starLoop (ma : GoString → (GoString → Option GoString) → Option GoString) :
    Nat → GoString → (GoString → Option GoString) → Option GoString
  | 0, s, k => k s
  | n + 1, s, k =>
    match ma s (fun r => if r.length < s.length then starLoop ma n r k else none) with
    | some x => some x
    | none => k s

/-- A backtracking matcher: the match of `re` at the start of `s` that is found first, followed
by the continuation `k` on the rest of the input.  This is the leftmost-first preference of the
package `regexp`. -/
def matchRe : Re → GoString → (GoString → Option GoString) → Option GoString
  | Re.cls p, s, k =>
    match s with
    | b :: t => if p b then k t else none
    | [] => none
  | Re.seq a b, s, k => matchRe a s (fun r => matchRe b r k)
  | Re.star a, s, k => starLoop (matchRe a) s.length s k

/-- Search of `(*Regexp).FindStringIndex` from the byte offset `i`, the input from there on being
`s`: the first offset at which `re` matches, with the end of the match found first there. -/
def findFrom (re : Re) : Nat → GoString → Option (Nat × Nat)
  | i, [] =>
    match matchRe re [] some with
    | some r => some (i, i + (0 - r.length))
    | none => none
  | i, b :: t =>
    match matchRe re (b :: t) some with
    | some r => some (i, i + ((b :: t).length - r.length))
    | none => findFrom re (i + 1) t

/-- `(*Regexp).FindStringIndex(s)`: `none` is the `nil` slice, else the two indices of the
leftmost match. -/
def FindStringIndex (re : Re) (s : GoString) : Option (Nat × Nat) :=
  findFrom re 0 s

/-- The class `[a-zA-Z0-9_]`. -/
def isWord (b : Fin 256) : Bool :=
  (0x61 ≤ b.val ∧ b.val ≤ 0x7a) ∨ (0x41 ≤ b.val ∧ b.val ≤ 0x5a) ∨ (0x30 ≤ b.val ∧ b.val ≤ 0x39) ∨
    b = 0x5f

/-- The escaped dot `\.`. -/
def isDot (b : Fin 256) : Bool :=
  b = 0x2e

/-- The compiled `appIDPattern`, `[a-zA-Z0-9_]+\.[a-zA-Z0-9_]+(\.[a-zA-Z0-9_]+)*`: the package
variable `regExpAppID`. -/
def regExpAppID : Re :=
  Re.seq (Re.plus (Re.cls isWord))
    (Re.seq (Re.cls isDot)
      (Re.seq (Re.plus (Re.cls isWord))
        (Re.star (Re.seq (Re.cls isDot) (Re.plus (Re.cls isWord))))))

/-- A value in a `gin.H` of the handlers. -/
inductive JVal where
  | num (n : Int)
  | str (s : GoString)
  | bool (b : Bool)
deriving DecidableEq

/-- A `gin.H`: a JSON object, as the list of its keys and values. -/
abbrev H := List (GoString × JVal)

/-- What the `/play` handler reads of a request: the path and the raw query of the URL, and the
first value of each key of the parsed query. -/
structure Request where
  Path : GoString
  RawQuery : GoString
  Query : GoString → Option GoString

/-- `c.DefaultQuery(key, defaultValue)`. -/
def Request.DefaultQuery (req : Request) (key defaultValue : GoString) : GoString :=
  (req.Query key).getD defaultValue

/-- A response written with `c.JSON`: the status code, the `Cache-Control` header and the body;
the body `none` is the JSON `null`. -/
structure Reply where
  status : Nat
  cacheControl : GoString
  body : Option H
deriving DecidableEq

/-- The response of `errorJSON(c, message)` (line 340), under the header set at line 369. -/
def errorJSON (message : GoString) : Reply :=
  { status := 200, cacheControl := ascii "max-age=10000",
    body := some [(ascii "schemaVersion", JVal.num 1), (ascii "label", JVal.str (ascii "error")),
      (ascii "message", JVal.str message), (ascii "isError", JVal.bool true)] }

section handler
variable {σ : Type}

/-- The label template of a request, lines 385 and 388-390: the parameter `l`, else `label`,
else `play`, cut to 1000 bytes. -/
def labelTemplate (req : Request) : GoString :=
  if (req.DefaultQuery (ascii "l") (req.DefaultQuery (ascii "label") (ascii "play"))).length > 1000
  then (req.DefaultQuery (ascii "l") (req.DefaultQuery (ascii "label") (ascii "play"))).take 1000
  else req.DefaultQuery (ascii "l") (req.DefaultQuery (ascii "label") (ascii "play"))

/-- The message template of a request, lines 386 and 391-393: the parameter `m`, else `message`,
else `$version`, cut to 1000 bytes. -/
def messageTemplate (req : Request) : GoString :=
  if (req.DefaultQuery (ascii "m") (req.DefaultQuery (ascii "message") (ascii "$version"))).length
      > 1000
  then (req.DefaultQuery (ascii "m")
    (req.DefaultQuery (ascii "message") (ascii "$version"))).take 1000
  else req.DefaultQuery (ascii "m") (req.DefaultQuery (ascii "message") (ascii "$version"))

/-- The response of line 407, under the header set at line 369. -/
def badgeJSON (label message : GoString) : Reply :=
  { status := 200, cacheControl := ascii "max-age=10000",
    body := some [(ascii "schemaVersion", JVal.num 1), (ascii "label", JVal.str label),
      (ascii "message", JVal.str message), (ascii "cacheSeconds", JVal.num 3600)] }

/-- Lines 385-408 of the `/play` handler: the substitution pipeline for a valid app id.  The map
`playStorePlaceHolders` is given twice, as the list of its entries in the order of the `range`
loop of the call for the message and in the order of the loop of the call for the label.  The
response is `none` when a resolver panics: nothing is written then. -/
def renderBadge (orderMessage orderLabel : List (GoString × placeHolderOrPanic σ)) (req : Request)
    (cacheKey appid : GoString) (jsonCache : lru.cache GoString H) (w : σ) :
    Option Reply × lru.cache GoString H × σ :=
  match replacePlaceHoldersOrPanic (messageTemplate req) orderMessage [appid] w with
  | (none, w1) => (none, jsonCache, w1)
  | (some (_, some err), w1) => (some (errorJSON err), jsonCache, w1)
  | (some (message, none), w1) =>
    match replacePlaceHoldersOrPanic (labelTemplate req) orderLabel [appid] w1 with
    | (none, w2) => (none, jsonCache, w2)
    | (some (_, some err), w2) => (some (errorJSON err), jsonCache, w2)
    | (some (label, none), w2) =>
      (some (badgeJSON label message),
        jsonCache.Set cacheKey
          [(ascii "schemaVersion", JVal.num 1), (ascii "label", JVal.str label),
            (ascii "message", JVal.str message), (ascii "cacheSeconds", JVal.num 3600)],
        w2)

/-- The `/play` handler of `setupRouter` (lines 368-410): the response, `none` when a resolver
panics, `jsonCache` afterwards and the state afterwards. -/
def playHandler (orderMessage orderLabel : List (GoString × placeHolderOrPanic σ)) (req : Request)
    (jsonCache : lru.cache GoString H) (w : σ) : Option Reply × lru.cache GoString H × σ :=
  match jsonCache.Get (req.Path ++ req.RawQuery) with
  | (c1, cacheEntry, true) =>
    (some { status := 200, cacheControl := ascii "max-age=10000", body := cacheEntry }, c1, w)
  | (c1, _, false) =>
    if req.DefaultQuery (ascii "i") (req.DefaultQuery (ascii "id") []) = [] then
      (some (errorJSON (ascii "missing app id")), c1, w)
    else
      match FindStringIndex regExpAppID
          (req.DefaultQuery (ascii "i") (req.DefaultQuery (ascii "id") [])) with
      | none => (some (errorJSON (ascii "invalid app id format")), c1, w)
      | some indices =>
        if indices.1 > 0 ∨ indices.2 <
            (req.DefaultQuery (ascii "i") (req.DefaultQuery (ascii "id") [])).length then
          (some (errorJSON (ascii "invalid app id format")), c1, w)
        else
          renderBadge orderMessage orderLabel req (req.Path ++ req.RawQuery)
            (req.DefaultQuery (ascii "i") (req.DefaultQuery (ascii "id") [])) c1 w

/-- A request as the handler serves it: the request and the two orders in which the `range`
loops of its two calls of `replacePlaceHolders` visit the map. -/
structure Served (σ : Type) where
  request : Request
  orderMessage : List (GoString × placeHolderOrPanic σ)
  orderLabel : List (GoString × placeHolderOrPanic σ)

/-- The requests of a list served one after the other: the responses, in order, `jsonCache` and
the state at the end. -/
def servePlay :
    List (Served σ) → lru.cache GoString H → σ →
      List (Option Reply) × lru.cache GoString H × σ
  | [], c, w => ([], c, w)
  | x :: rest, c, w =>
    ((playHandler x.orderMessage x.orderLabel x.request c w).1 ::
        (servePlay rest (playHandler x.orderMessage x.orderLabel x.request c w).2.1
          (playHandler x.orderMessage x.orderLabel x.request c w).2.2).1,
      (servePlay rest (playHandler x.orderMessage x.orderLabel x.request c w).2.1
        (playHandler x.orderMessage x.orderLabel x.request c w).2.2).2)

/-- The body of a successful render: `schemaVersion`, `label`, `message`, `cacheSeconds`. -/
def isSuccessBody (h : H) : Prop :=
  ∃ label message, h = [(ascii "schemaVersion", JVal.num 1), (ascii "label", JVal.str label),
    (ascii "message", JVal.str message), (ascii "cacheSeconds", JVal.num 3600)]

/-- The body of a failure: `schemaVersion`, `label`, `message`, `isError`. -/
def isFailureBody (h : H) : Prop :=
  ∃ message, h = [(ascii "schemaVersion", JVal.num 1), (ascii "label", JVal.str (ascii "error")),
    (ascii "message", JVal.str message), (ascii "isError", JVal.bool true)]

/-- What `jsonCache` holds at any time: bodies of successful renders, in a well-formed cache. -/
def SuccessCache (c : lru.cache GoString H) : Prop :=
  lru.Inv c ∧ ∀ p ∈ lru.entries c, isSuccessBody p.2

/-- What every response of the `/play` handler looks like. -/
def BadgeShape (r : Reply) : Prop :=
  r.status = 200 ∧ ∃ h, r.body = some h ∧ (isSuccessBody h ∨ isFailureBody h)

end handler

/-- A request for `/play` with the one query parameter `i`. -/
def playRequest (i : GoString) : Request :=
  { Path := ascii "/play", RawQuery := ascii "i=" ++ i,
    Query := fun key => if key = ascii "i" then some i else none }

/-- A network that answers every request in the same way and counts the requests. -/
def fixedNet (answer : Except GoString Response) : GoString → Nat → Except GoString Response × Nat :=
  fun _ n => (answer, n + 1)

/-- The answer `200 OK` with a body that is read without error. -/
def okResponse (body : GoString) : Except GoString Response :=
  Except.ok { StatusCode := 200, Status := ascii "200 OK", Body := (body, none) }

/-- The caches before any request, but for the document `js` held by `jsCache` for `appid`. -/
def worldWithDoc (appid : GoString) (js : Json) : World Nat :=
  { htmlCache := lru.New 500, jsCache := (lru.New 500).Set appid js, net := 0 }

/-- A document with the version at the index path 1, 2, 140, 0, 0, 0 and the installs at the
index path 1, 2, 13, 3, and nothing at the path of the target SDK. -/
def storeDoc (version installs : GoString) : Json :=
  Json.array [Json.null,
    Json.array [Json.null, Json.null,
      Json.array (List.replicate 13 Json.null ++
        [Json.array [Json.null, Json.null, Json.null, Json.string installs]] ++
        List.replicate 126 Json.null ++
        [Json.array [Json.array [Json.array [Json.string version]]]])]]

/-- A stand-in for the parser in examples: it fails on the empty text and returns any other text
as a string document. -/
def stubJson (s : GoString) : Except GoString Json :=
  if s = [] then Except.error (ascii "EOF") else Except.ok (Json.string s)

/-- The environment of the examples. -/
def fixedEnv (answer : Except GoString Response) : Env Nat :=
  { httpGet := fixedNet answer, NewJson := stubJson }

/-- The caches as `main.go` creates them, before any request. -/
def freshWorld : World Nat :=
  { htmlCache := lru.New 500, jsCache := lru.New 500, net := 0 }

end playshields

namespace lru

section lemmas
variable {K V : Type} [DecidableEq K]
set_option linter.unusedSectionVars false

theorem mapGet_mapDelete (m : List (K × Nat)) (k k' : K) :
    mapGet (mapDelete m k) k' = if k' = k then none else mapGet m k' := by
  induction m with
  | nil => simp [mapGet, mapDelete]
  | cons p m ih =>
    by_cases h1 : p.1 = k <;> by_cases h2 : k' = k <;> by_cases h3 : p.1 = k' <;>
      simp_all [mapGet, mapDelete, List.filter_cons, List.find?_cons]

theorem mapGet_mapSet (m : List (K × Nat)) (k k' : K) (e : Nat) :
    mapGet (mapSet m k e) k' = if k' = k then some e else mapGet m k' := by
  by_cases h : k' = k
  · simp [mapSet, mapGet, List.find?_cons, h]
  · have h2 : ¬ k = k' := fun h3 => h h3.symm
    have := mapGet_mapDelete m k k'
    simp only [h, if_false] at this
    simp only [mapSet, h, if_false, ← this]
    simp [mapGet, List.find?_cons, h2]

theorem elemAt_of_mem (l : List (Element K V)) (x : Element K V) (hx : x ∈ l)
    (hn : (l.map (fun x => x.addr)).Nodup) : elemAt l x.addr = some x := by
  induction l with
  | nil => cases hx
  | cons y l ih =>
    simp only [List.map_cons, List.nodup_cons, List.mem_map, not_exists, not_and] at hn
    rcases List.mem_cons.1 hx with h | h
    · subst h; simp [elemAt, List.find?_cons]
    · have hne : ¬ y.addr = x.addr := fun e => hn.1 x h e.symm
      have := ih h hn.2
      simpa [elemAt, List.find?_cons, hne] using this

theorem elemAt_none (l : List (Element K V)) (a : Nat)
    (h : ∀ x ∈ l, x.addr ≠ a) : elemAt l a = none := by
  simp only [elemAt, List.find?_eq_none]
  intro x hx; simpa using h x hx

theorem addr_inj (l : List (Element K V)) (hn : (l.map (fun x => x.addr)).Nodup)
    (x y : Element K V) (hx : x ∈ l) (hy : y ∈ l) (h : x.addr = y.addr) : x = y :=
  List.inj_on_of_nodup_map hn hx hy h

theorem key_inj (l : List (Element K V)) (hn : (l.map (fun x => x.Value.key)).Nodup)
    (x y : Element K V) (hx : x ∈ l) (hy : y ∈ l) (h : x.Value.key = y.Value.key) : x = y :=
  List.inj_on_of_nodup_map hn hx hy h

theorem mem_others (l : List (Element K V)) (k : K) (y : Element K V) :
    y ∈ others l k ↔ y ∈ l ∧ y.Value.key ≠ k := by
  simp [others, List.mem_filter]

theorem Remove_eq_others (l : List (Element K V)) (x : Element K V) (hx : x ∈ l)
    (ha : (l.map (fun x => x.addr)).Nodup) (hk : (l.map (fun x => x.Value.key)).Nodup) :
    Remove l x.addr = others l x.Value.key := by
  induction l with
  | nil => cases hx
  | cons y l ih =>
    simp only [List.map_cons, List.nodup_cons, List.mem_map, not_exists, not_and] at ha hk
    rcases List.mem_cons.1 hx with h | h
    · subst h
      have : others l x.Value.key = l := by
        apply List.filter_eq_self.2
        intro z hz
        have := hk.1 z hz
        simpa using this
      have e1 : Remove (x :: l) x.addr = l := by simp [Remove]
      have e2 : others (x :: l) x.Value.key = others l x.Value.key := by
        simp [others, List.filter_cons]
      rw [e1, e2, this]
    · have hne : ¬ y.addr = x.addr := fun e => ha.1 x h e.symm
      have hne2 : ¬ y.Value.key = x.Value.key := fun e => hk.1 x h e.symm
      have := ih h ha.2 hk.2
      simp [Remove, others, List.filter_cons, hne, hne2, List.eraseP_cons] at this ⊢
      exact this

theorem entries_others (l : List (Element K V)) (k : K) :
    (others l k).map (fun x => (x.Value.key, x.Value.value)) =
      (l.map (fun x => (x.Value.key, x.Value.value))).filter (fun p => !decide (p.1 = k)) := by
  induction l with
  | nil => rfl
  | cons y l ih =>
    by_cases h : y.Value.key = k <;> simp_all [others, List.filter_cons]

theorem setValue_front (l : List (Element K V)) (x : Element K V) (v : V)
    (h : ∀ y ∈ l, y.addr ≠ x.addr) :
    setValue (x :: l) x.addr v = { x with Value := { x.Value with value := v } } :: l := by
  simp only [setValue, List.map_cons, if_true, List.cons.injEq, true_and]
  conv_rhs => rw [← List.map_id l]
  apply List.map_congr_left
  intro y hy
  simp [h y hy]

/-- Relinking the element that carries `k` at the front (possibly with a new value) keeps the
index and the list consistent. -/
theorem Inv_front (c : cache K V) (h : Inv c) (x x' : Element K V) (hx : x ∈ c.list)
    (ha : x'.addr = x.addr) (hk : x'.Value.key = x.Value.key) :
    Inv { c with list := x' :: others c.list x.Value.key } := by
  have hsub : List.Sublist (others c.list x.Value.key) c.list := List.filter_sublist _
  refine ⟨?_, ?_, ?_, ?_, ?_⟩
  · simp only [List.map_cons, List.nodup_cons, List.mem_map, not_exists, not_and]
    refine ⟨?_, (h.addrNodup).sublist (hsub.map _)⟩
    intro y hy e
    rw [mem_others] at hy
    exact hy.2 (congrArg (fun z => z.Value.key) (addr_inj _ h.addrNodup y x hy.1 hx (e.trans ha)))
  · simp only [keys, List.map_cons, List.nodup_cons, List.mem_map, not_exists, not_and]
    refine ⟨?_, (h.keyNodup).sublist (hsub.map _)⟩
    intro y hy e
    rw [mem_others] at hy
    exact hy.2 (e.trans hk)
  · intro k a hka
    obtain ⟨y, hy, hya, hyk⟩ := h.indexSound k a hka
    by_cases hkk : k = x.Value.key
    · have : y = x := key_inj _ h.keyNodup y x hy hx (hyk.trans hkk)
      subst this
      exact ⟨x', List.mem_cons_self _ _, ha.trans hya, hk.trans hyk⟩
    · refine ⟨y, List.mem_cons_of_mem _ ((mem_others _ _ _).2 ⟨hy, ?_⟩), hya, hyk⟩
      rw [hyk]; exact hkk
  · intro y hy
    rcases List.mem_cons.1 hy with e | hy
    · subst e; rw [hk, ha]; exact h.indexComplete x hx
    · exact h.indexComplete y ((mem_others _ _ _).1 hy).1
  · intro y hy
    rcases List.mem_cons.1 hy with e | hy
    · subst e; rw [ha]; exact h.freshBound x hx
    · exact h.freshBound y ((mem_others _ _ _).1 hy).1

theorem mem_keys (c : cache K V) (k : K) :
    k ∈ keys c ↔ ∃ x ∈ c.list, x.Value.key = k := by
  simp [keys]

theorem mapGet_eq_none (c : cache K V) (h : Inv c) (k : K) :
    mapGet c.index k = none ↔ k ∉ keys c := by
  constructor
  · intro hn hk
    obtain ⟨x, hx, rfl⟩ := (mem_keys c k).1 hk
    rw [h.indexComplete x hx] at hn
    cases hn
  · intro hk
    cases hg : mapGet c.index k with
    | none => rfl
    | some a =>
      obtain ⟨x, hx, _, hxk⟩ := h.indexSound k a hg
      exact absurd ((mem_keys c k).2 ⟨x, hx, hxk⟩) hk

/-- A hit of `Get`: the element carrying the key is relinked at the front, the others keep
their order, and its value is returned. -/
theorem Get_hit (c : cache K V) (h : Inv c) (x : Element K V) (hx : x ∈ c.list) :
    c.Get x.Value.key =
      ({ c with list := x :: others c.list x.Value.key }, some x.Value.value, true) := by
  have h1 := h.indexComplete x hx
  have h2 := elemAt_of_mem c.list x hx h.addrNodup
  have h3 := Remove_eq_others c.list x hx h.addrNodup h.keyNodup
  simp only [cache.Get, h1, MoveToFront, h2, h3, Option.map_some']

/-- A miss of `Get` changes nothing. -/
theorem Get_miss (c : cache K V) (h : Inv c) (k : K) (hk : k ∉ keys c) :
    c.Get k = (c, none, false) := by
  simp only [cache.Get, (mapGet_eq_none c h k).2 hk]

/-- `Set` on a key of the cache: its element is relinked at the front with the new value. -/
theorem Set_hit (c : cache K V) (h : Inv c) (x : Element K V) (hx : x ∈ c.list) (v : V) :
    c.Set x.Value.key v =
      { c with list := { x with Value := { x.Value with value := v } } ::
          others c.list x.Value.key } := by
  have h1 := h.indexComplete x hx
  have h2 := elemAt_of_mem c.list x hx h.addrNodup
  have h3 := Remove_eq_others c.list x hx h.addrNodup h.keyNodup
  have h4 : ∀ y ∈ others c.list x.Value.key, y.addr ≠ x.addr := by
    intro y hy e
    rw [mem_others] at hy
    exact hy.2 (congrArg (fun z => z.Value.key) (addr_inj _ h.addrNodup y x hy.1 hx e))
  simp only [cache.Set, h1, MoveToFront, h2, h3, setValue_front _ x v h4]

theorem Remove_getLast (l : List (Element K V)) (hl : l ≠ [])
    (ha : (l.map (fun x => x.addr)).Nodup) : Remove l (l.getLast hl).addr = l.dropLast := by
  obtain ⟨d, z, e⟩ : ∃ d z, l = d ++ [z] :=
    ⟨l.dropLast, l.getLast hl, (List.dropLast_append_getLast hl).symm⟩
  subst e
  have hz : ∀ b ∈ d, ¬ (decide (b.addr = z.addr) = true) := by
    intro b hb
    simp only [List.map_append, List.map_cons, List.map_nil] at ha
    have := (List.nodup_append.1 ha).2.2
    simp only [decide_eq_true_eq]
    intro e
    exact this (List.mem_map_of_mem (fun x => x.addr) hb) (by simp [e])
  simp only [List.getLast_append_singleton, List.dropLast_concat, Remove]
  rw [List.eraseP_append_right _ hz]
  simp

theorem pushed_ne_nil (c : cache K V) (k : K) (v : V) : (pushed c k v).list ≠ [] := by
  simp [pushed]

theorem Set_miss (c : cache K V) (h : Inv c) (k : K) (v : V) (hk : k ∉ keys c) :
    c.Set k v =
      if c.max ≠ 0 ∧ ((c.list.length + 1 : Nat) : Int) > c.max then
        evicted (pushed c k v) (pushed_ne_nil c k v)
      else pushed c k v := by
  have h1 := (mapGet_eq_none c h k).2 hk
  have ha : (((pushed c k v).list).map (fun x => x.addr)).Nodup := by
    simp only [pushed, List.map_cons, List.nodup_cons, List.mem_map, not_exists, not_and]
    refine ⟨?_, h.addrNodup⟩
    intro y hy e
    have := h.freshBound y hy
    omega
  have h2 := Remove_getLast (pushed c k v).list (pushed_ne_nil c k v) ha
  simp only [pushed] at h2
  simp only [cache.Set, h1, List.length_cons, h2]
  rfl

theorem Inv_pushed (c : cache K V) (h : Inv c) (k : K) (v : V) (hk : k ∉ keys c) :
    Inv (pushed c k v) := by
  refine ⟨?_, ?_, ?_, ?_, ?_⟩
  · simp only [pushed, List.map_cons, List.nodup_cons, List.mem_map, not_exists, not_and]
    refine ⟨?_, h.addrNodup⟩
    intro y hy e
    have := h.freshBound y hy
    omega
  · simp only [keys, pushed, List.map_cons, List.nodup_cons]
    exact ⟨hk, h.keyNodup⟩
  · intro k' a hka
    simp only [pushed, mapGet_mapSet] at hka
    by_cases e : k' = k
    · simp only [e, if_true, Option.some.injEq] at hka
      exact ⟨_, List.mem_cons_self _ _, hka, e.symm⟩
    · simp only [e, if_false] at hka
      obtain ⟨y, hy, hya, hyk⟩ := h.indexSound k' a hka
      exact ⟨y, List.mem_cons_of_mem _ hy, hya, hyk⟩
  · intro y hy
    simp only [pushed] at hy ⊢
    rw [mapGet_mapSet]
    rcases List.mem_cons.1 hy with e | hy
    · subst e; simp
    · have : ¬ y.Value.key = k := fun e => hk ((mem_keys c k).2 ⟨y, hy, e⟩)
      simp only [this, if_false]
      exact h.indexComplete y hy
  · intro y hy
    simp only [pushed] at hy ⊢
    rcases List.mem_cons.1 hy with e | hy
    · subst e; simp
    · have := h.freshBound y hy
      omega

theorem Inv_evicted (c : cache K V) (h : Inv c) (hl : c.list ≠ []) : Inv (evicted c hl) := by
  obtain ⟨d, z, e⟩ : ∃ d z, c.list = d ++ [z] :=
    ⟨c.list.dropLast, c.list.getLast hl, (List.dropLast_append_getLast hl).symm⟩
  have hz : c.list.getLast hl = z := by simp [e]
  have hd : c.list.dropLast = d := by simp [e]
  have hsub : List.Sublist d c.list := by rw [← hd]; exact List.dropLast_sublist _
  have hkz : ∀ y ∈ d, y.Value.key ≠ z.Value.key := by
    intro y hy e2
    have hn := h.keyNodup
    simp only [keys, e, List.map_append, List.map_cons, List.map_nil] at hn
    exact (List.nodup_append.1 hn).2.2 (List.mem_map_of_mem (fun x => x.Value.key) hy)
      (by simp [e2])
  refine ⟨?_, ?_, ?_, ?_, ?_⟩
  · simp only [evicted, hd]
    exact (h.addrNodup).sublist (hsub.map _)
  · simp only [evicted, hd, keys]
    exact (h.keyNodup).sublist (hsub.map _)
  · intro k a hka
    simp only [evicted, hz, hd, mapGet_mapDelete] at hka ⊢
    by_cases e2 : k = z.Value.key
    · simp [e2] at hka
    · simp only [e2, if_false] at hka
      obtain ⟨y, hy, hya, hyk⟩ := h.indexSound k a hka
      rw [e] at hy
      rcases List.mem_append.1 hy with hy | hy
      · exact ⟨y, hy, hya, hyk⟩
      · simp only [List.mem_singleton] at hy
        subst hy
        exact absurd hyk.symm e2
  · intro y hy
    simp only [evicted, hz, hd, mapGet_mapDelete] at hy ⊢
    simp only [hkz y hy, if_false]
    exact h.indexComplete y (hsub.subset hy)
  · intro y hy
    simp only [evicted, hd] at hy ⊢
    exact h.freshBound y (hsub.subset hy)

theorem Inv_New (max : Int) : Inv (New max : cache K V) := by
  refine ⟨?_, ?_, ?_, ?_, ?_⟩ <;> simp [New, keys, mapGet]

theorem Inv_Set (c : cache K V) (h : Inv c) (k : K) (v : V) : Inv (c.Set k v) := by
  by_cases hk : k ∈ keys c
  · obtain ⟨x, hx, rfl⟩ := (mem_keys c k).1 hk
    rw [Set_hit c h x hx v]
    exact Inv_front c h x _ hx rfl rfl
  · rw [Set_miss c h k v hk]
    split
    · exact Inv_evicted _ (Inv_pushed c h k v hk) _
    · exact Inv_pushed c h k v hk

theorem Inv_Get (c : cache K V) (h : Inv c) (k : K) : Inv (c.Get k).1 := by
  by_cases hk : k ∈ keys c
  · obtain ⟨x, hx, rfl⟩ := (mem_keys c k).1 hk
    rw [Get_hit c h x hx]
    exact Inv_front c h x x hx rfl rfl
  · rw [Get_miss c h k hk]
    exact h

theorem Inv_step (c : cache K V) (h : Inv c) (op : Op K V) : Inv (step c op) := by
  cases op with
  | set k v => exact Inv_Set c h k v
  | get k => exact Inv_Get c h k

theorem Inv_run (c : cache K V) (h : Inv c) (ops : List (Op K V)) : Inv (run c ops) := by
  induction ops generalizing c with
  | nil => exact h
  | cons op ops ih => exact ih (step c op) (Inv_step c h op)

theorem run_append (c : cache K V) (ops : List (Op K V)) (op : Op K V) :
    run c (ops ++ [op]) = step (run c ops) op := by
  simp [run, List.foldl_append]

theorem keys_eq (c : cache K V) : keys c = (entries c).map Prod.fst := by
  simp [keys, entries, List.map_map, Function.comp_def]

theorem Len_eq (c : cache K V) : c.Len = (keys c).length := by
  simp [cache.Len, keys]

theorem max_Set (c : cache K V) (k : K) (v : V) : (c.Set k v).max = c.max := by
  unfold cache.Set
  split
  · rfl
  · dsimp only
    split <;> rfl

theorem max_Get (c : cache K V) (k : K) : (c.Get k).1.max = c.max := by
  unfold cache.Get
  split <;> rfl

theorem max_step (c : cache K V) (op : Op K V) : (step c op).max = c.max := by
  cases op with
  | set k v => exact max_Set c k v
  | get k => exact max_Get c k

theorem max_run (c : cache K V) (ops : List (Op K V)) : (run c ops).max = c.max := by
  induction ops generalizing c with
  | nil => rfl
  | cons op ops ih => exact (ih (step c op)).trans (max_step c op)

theorem entries_Set_hit (c : cache K V) (h : Inv c) (k : K) (v : V) (hk : k ∈ keys c) :
    entries (c.Set k v) = touched (entries c) k v := by
  obtain ⟨x, hx, rfl⟩ := (mem_keys c k).1 hk
  rw [Set_hit c h x hx v]
  simp only [entries, List.map_cons, touched, entries_others]

theorem entries_Set_miss (c : cache K V) (h : Inv c) (k : K) (v : V) (hk : k ∉ keys c) :
    entries (c.Set k v) =
      if c.max ≠ 0 ∧ (((entries c).length + 1 : Nat) : Int) > c.max then
        ((k, v) :: entries c).dropLast
      else (k, v) :: entries c := by
  rw [Set_miss c h k v hk]
  simp only [entries, List.length_map]
  split
  · simp only [evicted, pushed, List.map_dropLast, List.map_cons]
  · simp only [pushed, List.map_cons]

theorem entries_Get_hit (c : cache K V) (h : Inv c) (k : K) (hk : k ∈ keys c) :
    ∃ v, (k, v) ∈ entries c ∧ (c.Get k).2 = (some v, true) ∧
      entries (c.Get k).1 = touched (entries c) k v := by
  obtain ⟨x, hx, rfl⟩ := (mem_keys c k).1 hk
  refine ⟨x.Value.value, ?_, ?_, ?_⟩
  · exact List.mem_map_of_mem (fun x => (x.Value.key, x.Value.value)) hx
  · rw [Get_hit c h x hx]
  · rw [Get_hit c h x hx]
    simp only [entries, List.map_cons, touched, entries_others]

theorem Get_found_iff (c : cache K V) (h : Inv c) (k : K) :
    (c.Get k).2.2 = true ↔ k ∈ keys c := by
  by_cases hk : k ∈ keys c
  · obtain ⟨v, _, hv, _⟩ := entries_Get_hit c h k hk
    simp [hv, hk]
  · simp [Get_miss c h k hk, hk]

theorem keys_touched (l : List (K × V)) (k : K) (v : V) :
    (touched l k v).map Prod.fst = k :: (l.map Prod.fst).filter (fun a => !decide (a = k)) := by
  simp only [touched, List.map_cons, List.filter_map, Function.comp_def]

/-- The keys after a hit of `Set` or `Get`, and after a miss of `Set`. -/
theorem keys_Set (c : cache K V) (h : Inv c) (k : K) (v : V) :
    keys (c.Set k v) =
      if k ∈ keys c then k :: (keys c).filter (fun a => !decide (a = k))
      else if c.max ≠ 0 ∧ (((keys c).length + 1 : Nat) : Int) > c.max then
        (k :: keys c).dropLast
      else k :: keys c := by
  by_cases hk : k ∈ keys c
  · simp only [hk, if_true]
    rw [keys_eq, entries_Set_hit c h k v hk, keys_touched, ← keys_eq]
  · simp only [hk, if_false]
    rw [keys_eq, entries_Set_miss c h k v hk, keys_eq c, List.length_map]
    split
    · simp only [List.map_dropLast, List.map_cons]
    · simp only [List.map_cons]

theorem keys_Get (c : cache K V) (h : Inv c) (k : K) :
    keys (c.Get k).1 =
      if k ∈ keys c then k :: (keys c).filter (fun a => !decide (a = k)) else keys c := by
  by_cases hk : k ∈ keys c
  · obtain ⟨v, _, _, hv⟩ := entries_Get_hit c h k hk
    simp only [hk, if_true]
    rw [keys_eq, hv, keys_touched, ← keys_eq]
  · simp only [hk, if_false, Get_miss c h k hk]

/-- The touch, if any, made by one call on cache `c`. -/
theorem touches_append (c : cache K V) (ops : List (Op K V)) (op : Op K V) :
    touches c (ops ++ [op]) = touches c ops ++ touches (run c ops) [op] := by
  induction ops generalizing c with
  | nil => simp [touches, run]
  | cons o ops ih =>
    cases o with
    | set k v =>
      have e := ih (c.Set k v)
      simp only [List.cons_append, touches, List.cons.injEq, true_and]
      exact e
    | get k =>
      have e := ih (c.Get k).1
      simp only [List.cons_append, touches]
      split
      · simp only [List.cons_append, List.cons.injEq, true_and]
        exact e
      · exact e

theorem lastTouch_append (ts : List K) (a k : K) :
    lastTouch (ts ++ [a]) k = if a = k then ts.length + 1 else lastTouch ts k := by
  simp only [lastTouch, List.reverse_append, List.reverse_cons, List.reverse_nil, List.nil_append,
    List.singleton_append, List.length_append, List.length_singleton, List.indexOf_cons]
  by_cases h : a = k
  · simp [h]
  · have : (a == k) = false := by simpa using h
    simp only [this, h, if_false, cond_false]
    omega

theorem lastTouch_le (ts : List K) (k : K) : lastTouch ts k ≤ ts.length := by
  simp only [lastTouch]; omega

theorem lastTouch_pos (ts : List K) (k : K) (h : k ∈ ts) : 0 < lastTouch ts k := by
  have : ts.reverse.indexOf k < ts.reverse.length := List.indexOf_lt_length.2 (by simpa using h)
  simp only [lastTouch]
  simp only [List.length_reverse] at this
  omega

theorem dedup_concat (ts : List K) (k : K) :
    (ts ++ [k]).dedup = ts.dedup.filter (fun a => !decide (a = k)) ++ [k] := by
  induction ts with
  | nil => simp
  | cons a ts ih =>
    by_cases h1 : a ∈ ts
    · have h2 : a ∈ ts ++ [k] := List.mem_append_left _ h1
      rw [List.cons_append, List.dedup_cons_of_mem h2, List.dedup_cons_of_mem h1, ih]
    · by_cases h3 : a = k
      · subst h3
        have h2 : a ∈ ts ++ [a] := by simp
        rw [List.cons_append, List.dedup_cons_of_mem h2, List.dedup_cons_of_not_mem h1, ih]
        simp [List.filter_cons]
      · have h2 : a ∉ ts ++ [k] := by simp [h1, h3]
        rw [List.cons_append, List.dedup_cons_of_not_mem h2, List.dedup_cons_of_not_mem h1, ih]
        simp [List.filter_cons, h3]

theorem recency_concat (ts : List K) (k : K) :
    recency (ts ++ [k]) = k :: (recency ts).filter (fun a => !decide (a = k)) := by
  simp only [recency, dedup_concat, List.reverse_append, List.reverse_cons, List.reverse_nil,
    List.nil_append, List.singleton_append, List.filter_reverse]

theorem recency_nodup (ts : List K) : (recency ts).Nodup := by
  simp only [recency, List.nodup_reverse]
  exact List.nodup_dedup ts

theorem mem_recency (ts : List K) (k : K) : k ∈ recency ts ↔ k ∈ ts := by
  simp [recency]

theorem setKeys_append (ops : List (Op K V)) (op : Op K V) :
    setKeys (ops ++ [op]) = setKeys ops ++ setKeys [op] := by
  induction ops with
  | nil => simp [setKeys]
  | cons o ops ih => cases o <;> simp [setKeys, ih]

theorem lastSet_append (ops : List (Op K V)) (op : Op K V) (k : K) :
    lastSet (ops ++ [op]) k =
      match op with
      | Op.set k' v => if k' = k then some v else lastSet ops k
      | Op.get _ => lastSet ops k := by
  cases op <;> simp [lastSet, List.foldl_append]

theorem take_filter_of_mem (R : List K) (k : K) (n : Nat) (hn : R.Nodup)
    (hk : k ∈ R.take (n + 1)) :
    (R.filter (fun a => !decide (a = k))).take n =
      (R.take (n + 1)).filter (fun a => !decide (a = k)) := by
  induction R generalizing n with
  | nil => simp at hk
  | cons a R ih =>
    have ha := (List.nodup_cons.1 hn).1
    have hR := (List.nodup_cons.1 hn).2
    by_cases e : a = k
    · subst e
      have h1 : R.filter (fun b => !decide (b = a)) = R := by
        apply List.filter_eq_self.2
        intro b hb
        have : b ≠ a := fun e => ha (e ▸ hb)
        simpa using this
      have h2 : (R.take n).filter (fun b => !decide (b = a)) = R.take n := by
        apply List.filter_eq_self.2
        intro b hb
        have : b ≠ a := fun e => ha (e ▸ (List.mem_of_mem_take hb))
        simpa using this
      simp [List.filter_cons, h1, h2]
    · have hk2 : k ∈ R.take n := by
        simp only [List.take_succ_cons, List.mem_cons] at hk
        rcases hk with hk | hk
        · exact absurd hk.symm e
        · exact hk
      cases n with
      | zero => simp at hk2
      | succ m =>
        have := ih m hR hk2
        simp only [List.filter_cons, e, decide_False, Bool.not_false, if_true,
          List.take_succ_cons, this]

theorem take_filter_of_not_mem (R : List K) (k : K) (n : Nat) (hk : k ∉ R.take n) :
    (R.filter (fun a => !decide (a = k))).take n = R.take n := by
  induction R generalizing n with
  | nil => simp
  | cons a R ih =>
    cases n with
    | zero => simp
    | succ m =>
      simp only [List.take_succ_cons, List.mem_cons, not_or] at hk
      have e : ¬ a = k := fun e => hk.1 e.symm
      simp only [List.filter_cons, e, decide_False, Bool.not_false, if_true, List.take_succ_cons,
        ih m hk.2]

/-- With a positive capacity that the list does not exceed, `Set` on a new key keeps the first
`N` keys of the list with the new key in front. -/
theorem keys_Set_cap (c : cache K V) (h : Inv c) (N : Nat) (hN : 0 < N) (hmax : c.max = (N : Int))
    (hlen : (keys c).length ≤ N) (k : K) (v : V) :
    keys (c.Set k v) =
      if k ∈ keys c then k :: (keys c).filter (fun a => !decide (a = k))
      else (k :: keys c).take N := by
  rw [keys_Set c h k v]
  by_cases hk : k ∈ keys c
  · simp only [hk, if_true]
  · simp only [hk, if_false, hmax]
    by_cases hc : (keys c).length + 1 > N
    · have hc2 : ((N : Int) ≠ 0 ∧ (((keys c).length + 1 : Nat) : Int) > (N : Int)) := by
        constructor <;> omega
      rw [if_pos hc2, List.dropLast_eq_take]
      congr 1
      simp only [List.length_cons]
      omega
    · have hc2 : ¬ ((N : Int) ≠ 0 ∧ (((keys c).length + 1 : Nat) : Int) > (N : Int)) := by
        intro hh; omega
      rw [if_neg hc2, List.take_of_length_le]
      simp only [List.length_cons]
      omega

theorem length_keys_step_cap (c : cache K V) (h : Inv c) (N : Nat) (hN : 0 < N)
    (hmax : c.max = (N : Int)) (hlen : (keys c).length ≤ N) (op : Op K V) :
    (keys (step c op)).length ≤ N := by
  have hf : ∀ k, k ∈ keys c →
      (k :: (keys c).filter (fun a => !decide (a = k))).length ≤ N := by
    intro k hk
    have : ((keys c).filter (fun a => !decide (a = k))).length < (keys c).length :=
      List.length_filter_lt_length_iff_exists.2 ⟨k, hk, by simp⟩
    simp only [List.length_cons]
    omega
  cases op with
  | set k v =>
    simp only [step, keys_Set_cap c h N hN hmax hlen k v]
    split
    · exact hf k (by assumption)
    · simp only [List.length_take]; omega
  | get k =>
    simp only [step, keys_Get c h k]
    split
    · exact hf k (by assumption)
    · exact hlen

theorem length_keys_run_cap (N : Nat) (hN : 0 < N) (ops : List (Op K V)) :
    (keys (run (New (N : Int) : cache K V) ops)).length ≤ N := by
  induction ops using List.reverseRecOn with
  | nil => simp [run, New, keys]
  | append_singleton ops op ih =>
    rw [run_append]
    exact length_keys_step_cap _ (Inv_run _ (Inv_New _) ops) N hN
      ((max_run _ ops).trans rfl) ih op

/-- With a positive capacity `N` the keys of the list are the first `N` distinct keys in order
of their last touch, most recent first. -/
theorem keys_run_cap (N : Nat) (hN : 0 < N) (ops : List (Op K V)) :
    keys (run (New (N : Int) : cache K V) ops) =
      (recency (touches (New (N : Int) : cache K V) ops)).take N := by
  obtain ⟨n, rfl⟩ : ∃ n, N = n + 1 := ⟨N - 1, by omega⟩
  induction ops using List.reverseRecOn with
  | nil => simp [run, New, keys, touches, recency]
  | append_singleton ops op ih =>
    have hI := Inv_run _ (Inv_New ((n + 1 : Nat) : Int) : Inv (New _ : cache K V)) ops
    have hmax : (run (New ((n + 1 : Nat) : Int) : cache K V) ops).max = ((n + 1 : Nat) : Int) :=
      (max_run _ ops).trans rfl
    have hlen := length_keys_run_cap (n + 1) hN ops (K := K) (V := V)
    have hnd := recency_nodup (touches (New ((n + 1 : Nat) : Int) : cache K V) ops)
    have hit : ∀ k, k ∈ keys (run (New ((n + 1 : Nat) : Int) : cache K V) ops) →
        k :: (keys (run (New ((n + 1 : Nat) : Int) : cache K V) ops)).filter
            (fun a => !decide (a = k)) =
          (recency (touches (New ((n + 1 : Nat) : Int) : cache K V) ops ++ [k])).take (n + 1) := by
      intro k hk
      rw [recency_concat, List.take_succ_cons, ih]
      rw [ih] at hk
      rw [take_filter_of_mem _ k n hnd hk]
    rw [run_append, touches_append]
    cases op with
    | set k v =>
      simp only [step, touches, List.append_nil]
      rw [keys_Set_cap _ hI (n + 1) hN hmax hlen k v]
      split
      · exact hit k (by assumption)
      · rename_i hk
        rw [ih] at hk ⊢
        have hk2 : k ∉ (recency (touches (New ((n + 1 : Nat) : Int) : cache K V) ops)).take n :=
          fun hh => hk (List.take_subset_take_left _ (Nat.le_succ n) hh)
        rw [recency_concat, List.take_succ_cons, List.take_succ_cons,
          take_filter_of_not_mem _ k n hk2, List.take_take]
        simp
    | get k =>
      simp only [step, touches]
      rw [keys_Get _ hI k]
      by_cases hk : k ∈ keys (run (New ((n + 1 : Nat) : Int) : cache K V) ops)
      · rw [if_pos hk, if_pos ((Get_found_iff _ hI k).2 hk)]
        exact hit k hk
      · rw [if_neg hk, if_neg (fun hh => hk ((Get_found_iff _ hI k).1 hh)), List.append_nil]
        exact ih

theorem mem_keys_step (c : cache K V) (h : Inv c) (op : Op K V) (k : K)
    (hk : k ∈ keys (step c op)) : k ∈ keys c ∨ k ∈ setKeys [op] := by
  cases op with
  | set k' v =>
    simp only [step, keys_Set c h k' v] at hk
    simp only [setKeys, List.mem_singleton]
    split at hk
    · rcases List.mem_cons.1 hk with e | hk
      · exact Or.inr e
      · exact Or.inl (List.mem_of_mem_filter hk)
    · split at hk
      · rcases List.mem_cons.1 (List.mem_of_mem_dropLast hk) with e | hk
        · exact Or.inr e
        · exact Or.inl hk
      · rcases List.mem_cons.1 hk with e | hk
        · exact Or.inr e
        · exact Or.inl hk
  | get k' =>
    simp only [step, keys_Get c h k'] at hk
    left
    split at hk
    · rcases List.mem_cons.1 hk with e | hk
      · rw [e]; assumption
      · exact List.mem_of_mem_filter hk
    · exact hk

theorem keys_subset_setKeys (N : Int) (ops : List (Op K V)) (k : K)
    (hk : k ∈ keys (run (New N : cache K V) ops)) : k ∈ setKeys ops := by
  induction ops using List.reverseRecOn with
  | nil => simp [run, New, keys] at hk
  | append_singleton ops op ih =>
    rw [run_append] at hk
    rw [setKeys_append]
    rcases mem_keys_step _ (Inv_run _ (Inv_New N) ops) op k hk with h | h
    · exact List.mem_append_left _ (ih h)
    · exact List.mem_append_right _ h

theorem mem_touches (N : Int) (ops : List (Op K V)) (k : K) :
    k ∈ touches (New N : cache K V) ops ↔ k ∈ setKeys ops := by
  induction ops using List.reverseRecOn with
  | nil => simp [touches, setKeys]
  | append_singleton ops op ih =>
    rw [touches_append, setKeys_append, List.mem_append, List.mem_append, ih]
    have hI := Inv_run _ (Inv_New N : Inv (New N : cache K V)) ops
    cases op with
    | set k' v => simp [touches, setKeys]
    | get k' =>
      simp only [touches, setKeys, List.not_mem_nil, or_false]
      constructor
      · rintro (h | h)
        · exact h
        · split at h
          · simp only [List.mem_singleton] at h
            subst h
            rename_i hf
            exact keys_subset_setKeys N ops k ((Get_found_iff _ hI k).1 hf)
          · simp at h
      · exact Or.inl

theorem length_recency_touches (N : Int) (ops : List (Op K V)) :
    (recency (touches (New N : cache K V) ops)).length = (setKeys ops).dedup.length := by
  simp only [recency, List.length_reverse]
  rw [← List.card_toFinset, ← List.card_toFinset]
  congr 1
  exact List.toFinset.ext (mem_touches N ops)

theorem take_min_length (l : List K) (n : Nat) : l.take (min n l.length) = l.take n := by
  rcases Nat.le_total n l.length with h | h
  · rw [Nat.min_eq_left h]
  · rw [Nat.min_eq_right h, List.take_length, List.take_of_length_le h]

theorem find_entries_of_mem (l : List (Element K V)) (x : Element K V) (hx : x ∈ l)
    (hn : (l.map (fun x => x.Value.key)).Nodup) :
    (l.map (fun x => (x.Value.key, x.Value.value))).find? (fun p => decide (p.1 = x.Value.key)) =
      some (x.Value.key, x.Value.value) := by
  induction l with
  | nil => cases hx
  | cons y l ih =>
    simp only [List.map_cons, List.nodup_cons, List.mem_map, not_exists, not_and] at hn
    rcases List.mem_cons.1 hx with h | h
    · subst h; simp [List.find?_cons]
    · have hne : ¬ y.Value.key = x.Value.key := fun e => hn.1 x h e.symm
      have := ih h hn.2
      simpa [List.find?_cons, hne] using this

/-- The results of `Get` are those of a lookup in the entries of the list. -/
theorem Get_result (c : cache K V) (h : Inv c) (k : K) :
    (c.Get k).2 = lookupEntry (entries c) k := by
  by_cases hk : k ∈ keys c
  · obtain ⟨x, hx, rfl⟩ := (mem_keys c k).1 hk
    rw [Get_hit c h x hx]
    simp only [lookupEntry, entries, find_entries_of_mem c.list x hx h.keyNodup]
  · rw [Get_miss c h k hk]
    have : (entries c).find? (fun p => decide (p.1 = k)) = none := by
      simp only [List.find?_eq_none, decide_eq_true_eq]
      intro p hp e
      rw [keys_eq] at hk
      exact hk (e ▸ List.mem_map_of_mem Prod.fst hp)
    simp only [lookupEntry, this]

theorem lookupEntry_of_mem (l : List (K × V)) (hn : (l.map Prod.fst).Nodup) (k : K) (v : V)
    (h : (k, v) ∈ l) : lookupEntry l k = (some v, true) := by
  induction l with
  | nil => cases h
  | cons p l ih =>
    simp only [List.map_cons, List.nodup_cons, List.mem_map, not_exists, not_and] at hn
    rcases List.mem_cons.1 h with e | h
    · subst e; simp [lookupEntry, List.find?_cons]
    · have hne : ¬ p.1 = k := fun e => hn.1 (k, v) h e.symm
      have := ih hn.2 h
      simpa [lookupEntry, List.find?_cons, hne] using this

theorem lookupEntry_of_not_mem (l : List (K × V)) (k : K) (h : k ∉ l.map Prod.fst) :
    lookupEntry l k = (none, false) := by
  have : l.find? (fun p => decide (p.1 = k)) = none := by
    simp only [List.find?_eq_none, decide_eq_true_eq]
    intro p hp e
    exact h (e ▸ List.mem_map_of_mem Prod.fst hp)
  simp only [lookupEntry, this]

theorem entries_nodup (c : cache K V) (h : Inv c) : ((entries c).map Prod.fst).Nodup := by
  rw [← keys_eq]; exact h.keyNodup

/-- The distinct touched keys are strictly ordered by the time of their last touch. -/
theorem recency_pairwise (ts : List K) :
    (recency ts).Pairwise (fun a b => lastTouch ts b < lastTouch ts a) := by
  induction ts using List.reverseRecOn with
  | nil => simp [recency]
  | append_singleton ts k ih =>
    rw [recency_concat, List.pairwise_cons]
    constructor
    · intro b hb
      have hbk : ¬ k = b := by
        intro e
        have := (List.mem_filter.1 hb).2
        simp [e] at this
      rw [lastTouch_append, lastTouch_append, if_neg hbk, if_pos rfl]
      have := lastTouch_le ts b
      omega
    · refine (ih.filter _).imp_of_mem ?_
      intro a b ha hb hab
      have hak : ¬ k = a := by
        intro e
        have := (List.mem_filter.1 ha).2
        simp [e] at this
      have hbk : ¬ k = b := by
        intro e
        have := (List.mem_filter.1 hb).2
        simp [e] at this
      rw [lastTouch_append, lastTouch_append, if_neg hbk, if_neg hak]
      exact hab

theorem keys_pairwise (N : Nat) (hN : 0 < N) (ops : List (Op K V)) :
    (keys (run (New (N : Int) : cache K V) ops)).Pairwise
      (fun a b => lastTouch (touches (New (N : Int) : cache K V) ops) b <
        lastTouch (touches (New (N : Int) : cache K V) ops) a) := by
  rw [keys_run_cap N hN ops]
  exact (recency_pairwise _).sublist (List.take_sublist _ _)

/-- `Set` of a new key on a full cache of positive capacity: the back entry, the one whose last
touch is the oldest, is the only one removed. -/
theorem Set_full (N : Nat) (hN : 0 < N) (ops : List (Op K V)) (k : K) (v : V)
    (hlen : (run (New (N : Int) : cache K V) ops).Len = N)
    (hk : ((run (New (N : Int) : cache K V) ops).Get k).2.2 = false) :
    ∃ victim, victim ∈ keys (run (New (N : Int) : cache K V) ops) ∧
      (∀ k' ∈ keys (run (New (N : Int) : cache K V) ops), k' ≠ victim →
        lastTouch (touches (New (N : Int) : cache K V) ops) victim <
          lastTouch (touches (New (N : Int) : cache K V) ops) k') ∧
      (((run (New (N : Int) : cache K V) ops).Set k v).Get victim).2 = (none, false) ∧
      (∀ k', k' ≠ victim → k' ≠ k →
        (((run (New (N : Int) : cache K V) ops).Set k v).Get k').2 =
          ((run (New (N : Int) : cache K V) ops).Get k').2) ∧
      (∀ k' ∈ keys (run (New (N : Int) : cache K V) ops), k' ≠ victim →
        (((run (New (N : Int) : cache K V) ops).Set k v).Get k').2.2 = true) ∧
      (((run (New (N : Int) : cache K V) ops).Set k v).Get k).2 = (some v, true) ∧
      ((run (New (N : Int) : cache K V) ops).Set k v).Len = N := by
  have hpw := keys_pairwise N hN ops (K := K) (V := V)
  generalize touches (New (N : Int) : cache K V) ops = ts at hpw ⊢
  have hI := Inv_run _ (Inv_New (N : Int) : Inv (New _ : cache K V)) ops
  have hmax : (run (New (N : Int) : cache K V) ops).max = (N : Int) := (max_run _ ops).trans rfl
  generalize run (New (N : Int) : cache K V) ops = c at hlen hk hpw hI hmax ⊢
  have hk' : k ∉ keys c := by
    intro hh
    rw [(Get_found_iff c hI k).2 hh] at hk
    cases hk
  have hlen2 : (entries c).length = N := by
    rw [Len_eq, keys_eq, List.length_map] at hlen; exact hlen
  have hne : entries c ≠ [] := by
    intro e; rw [e] at hlen2; simp at hlen2; omega
  obtain ⟨E, p, hE⟩ : ∃ E p, entries c = E ++ [p] :=
    ⟨(entries c).dropLast, (entries c).getLast hne, (List.dropLast_append_getLast hne).symm⟩
  have hkeys : keys c = E.map Prod.fst ++ [p.1] := by rw [keys_eq, hE]; simp
  have hnd := hI.keyNodup
  rw [hkeys] at hnd hpw hk'
  have hpE : p.1 ∉ E.map Prod.fst := fun hh =>
    (List.nodup_append.1 hnd).2.2 hh (List.mem_singleton_self _)
  have hpk : p.1 ≠ k := fun e => hk' (by simp [e])
  have hkE : k ∉ E.map Prod.fst := fun hh => hk' (List.mem_append_left _ hh)
  have hent : entries (c.Set k v) = (k, v) :: E := by
    rw [keys_eq] at hkeys
    have hk0 : k ∉ keys c := by rw [keys_eq, hkeys]; exact hk'
    rw [entries_Set_miss c hI k v hk0, hmax, hlen2]
    have hc : ((N : Int) ≠ 0 ∧ ((N + 1 : Nat) : Int) > (N : Int)) := by constructor <;> omega
    rw [if_pos hc, hE, ← List.cons_append, List.dropLast_concat]
  have hI' := Inv_Set c hI k v
  have hkeys' : keys (c.Set k v) = k :: E.map Prod.fst := by rw [keys_eq, hent]; rfl
  have hmemE : ∀ k', k' ∈ keys c → k' ≠ p.1 → k' ∈ E.map Prod.fst := by
    intro k' h1 h2
    rw [hkeys] at h1
    rcases List.mem_append.1 h1 with h | h
    · exact h
    · exact absurd (List.mem_singleton.1 h) h2
  refine ⟨p.1, by rw [hkeys]; simp, ?_, ?_, ?_, ?_, ?_, ?_⟩
  · intro k' h1 h2
    exact (List.pairwise_append.1 hpw).2.2 k' (hmemE k' h1 h2) p.1 (List.mem_singleton_self _)
  · rw [Get_result _ hI', hent]
    apply lookupEntry_of_not_mem
    simp only [List.map_cons, List.mem_cons, not_or]
    exact ⟨hpk, hpE⟩
  · intro k' h1 h2
    have h3 : ¬ k = k' := fun e => h2 e.symm
    have h4 : ¬ p.1 = k' := fun e => h1 e.symm
    rw [Get_result _ hI', Get_result _ hI, hent, hE]
    simp only [lookupEntry, List.find?_cons, List.find?_append, h3, h4, decide_False,
      List.find?_nil, Option.or_none]
  · intro k' h1 h2
    rw [Get_found_iff _ hI', hkeys']
    exact List.mem_cons_of_mem _ (hmemE k' h1 h2)
  · rw [Get_result _ hI']
    exact lookupEntry_of_mem _ (entries_nodup _ hI') k v (by rw [hent]; simp)
  · rw [Len_eq, hkeys', ← hlen2, hE]
    simp

theorem mem_entries_Set (c : cache K V) (h : Inv c) (k : K) (v : V) (p : K × V)
    (hp : p ∈ entries (c.Set k v)) : p = (k, v) ∨ (p ∈ entries c ∧ p.1 ≠ k) := by
  by_cases hk : k ∈ keys c
  · rw [entries_Set_hit c h k v hk, touched] at hp
    rcases List.mem_cons.1 hp with e | hp
    · exact Or.inl e
    · have := List.mem_filter.1 hp
      exact Or.inr ⟨this.1, by simpa using this.2⟩
  · have hne : p ∈ entries c → p.1 ≠ k := by
      intro h1 e
      rw [keys_eq] at hk
      exact hk (e ▸ List.mem_map_of_mem Prod.fst h1)
    rw [entries_Set_miss c h k v hk] at hp
    split at hp
    · rcases List.mem_cons.1 (List.mem_of_mem_dropLast hp) with e | hp
      · exact Or.inl e
      · exact Or.inr ⟨hp, hne hp⟩
    · rcases List.mem_cons.1 hp with e | hp
      · exact Or.inl e
      · exact Or.inr ⟨hp, hne hp⟩

theorem mem_entries_Get (c : cache K V) (h : Inv c) (k : K) (p : K × V)
    (hp : p ∈ entries (c.Get k).1) : p ∈ entries c := by
  by_cases hk : k ∈ keys c
  · obtain ⟨v, hv, _, he⟩ := entries_Get_hit c h k hk
    rw [he, touched] at hp
    rcases List.mem_cons.1 hp with e | hp
    · rw [e]; exact hv
    · exact (List.mem_filter.1 hp).1
  · rw [Get_miss c h k hk] at hp
    exact hp

/-- Every entry of the list carries the value of the most recent `Set` on its key. -/
theorem entries_lastSet (N : Int) (ops : List (Op K V)) (k : K) (v : V)
    (hp : (k, v) ∈ entries (run (New N : cache K V) ops)) : lastSet ops k = some v := by
  induction ops using List.reverseRecOn generalizing k v with
  | nil => simp [run, New, entries] at hp
  | append_singleton ops op ih =>
    have hI := Inv_run _ (Inv_New N : Inv (New N : cache K V)) ops
    rw [run_append] at hp
    rw [lastSet_append]
    cases op with
    | set k' v' =>
      simp only [step] at hp
      rcases mem_entries_Set _ hI k' v' (k, v) hp with e | ⟨h1, h2⟩
      · simp only [Prod.mk.injEq] at e
        simp [e.1, e.2]
      · have : ¬ k' = k := fun e => h2 e.symm
        simp only [this, if_false]
        exact ih k v h1
    | get k' =>
      simp only [step] at hp
      exact ih k v (mem_entries_Get _ hI k' (k, v) hp)

theorem mem_keys_iff_entries (c : cache K V) (k : K) :
    k ∈ keys c ↔ ∃ v, (k, v) ∈ entries c := by
  rw [keys_eq]
  simp

/-- A hit of `Get` after any sequence of calls: the value of the most recent `Set`, the entry at
the front, the other entries in their previous order. -/
theorem Get_hit_run (N : Int) (ops : List (Op K V)) (k : K)
    (hk : k ∈ keys (run (New N : cache K V) ops)) :
    ∃ v, lastSet ops k = some v ∧
      ((run (New N : cache K V) ops).Get k).2 = (some v, true) ∧
      entries ((run (New N : cache K V) ops).Get k).1 =
        (k, v) :: (entries (run (New N : cache K V) ops)).filter
          (fun p => !decide (p.1 = k)) := by
  have hI := Inv_run _ (Inv_New N : Inv (New N : cache K V)) ops
  obtain ⟨v, hv, hr, he⟩ := entries_Get_hit _ hI k hk
  exact ⟨v, entries_lastSet N ops k v hv, hr, he⟩

theorem lastSet_of_mem_setKeys (ops : List (Op K V)) (k : K) (hk : k ∈ setKeys ops) :
    ∃ v, lastSet ops k = some v := by
  induction ops using List.reverseRecOn with
  | nil => simp [setKeys] at hk
  | append_singleton ops op ih =>
    rw [setKeys_append, List.mem_append] at hk
    rw [lastSet_append]
    cases op with
    | set k' v' =>
      by_cases e : k' = k
      · exact ⟨v', by simp [e]⟩
      · simp only [e, if_false]
        rcases hk with hk | hk
        · exact ih hk
        · simp only [setKeys, List.mem_singleton] at hk
          exact absurd hk.symm e
    | get k' =>
      rcases hk with hk | hk
      · exact ih hk
      · simp [setKeys] at hk

/-- With capacity 0 a call removes no key. -/
theorem mem_keys_step_unbounded (c : cache K V) (h : Inv c) (hmax : c.max = 0) (op : Op K V)
    (k : K) (hk : k ∈ keys c) : k ∈ keys (step c op) := by
  have hf : ∀ k', k ∈ k' :: (keys c).filter (fun a => !decide (a = k')) := by
    intro k'
    by_cases e : k = k'
    · simp [e]
    · exact List.mem_cons_of_mem _ (List.mem_filter.2 ⟨hk, by simpa using e⟩)
  cases op with
  | set k' v =>
    simp only [step, keys_Set c h k' v, hmax]
    split
    · exact hf k'
    · simp only [ne_eq, not_true_eq_false, false_and, if_false]
      exact List.mem_cons_of_mem _ hk
  | get k' =>
    simp only [step, keys_Get c h k']
    split
    · exact hf k'
    · exact hk

theorem mem_keys_Set_self (c : cache K V) (h : Inv c) (hmax : c.max = 0) (k : K) (v : V) :
    k ∈ keys (c.Set k v) := by
  simp only [keys_Set c h k v, hmax]
  split
  · exact List.mem_cons_self _ _
  · simp only [ne_eq, not_true_eq_false, false_and, if_false]
    exact List.mem_cons_self _ _

theorem setKeys_subset_keys_unbounded (ops : List (Op K V)) (k : K) (hk : k ∈ setKeys ops) :
    k ∈ keys (run (New 0 : cache K V) ops) := by
  induction ops using List.reverseRecOn with
  | nil => simp [setKeys] at hk
  | append_singleton ops op ih =>
    have hI := Inv_run _ (Inv_New 0 : Inv (New 0 : cache K V)) ops
    have hmax : (run (New 0 : cache K V) ops).max = 0 := (max_run _ ops).trans rfl
    rw [setKeys_append, List.mem_append] at hk
    rw [run_append]
    rcases hk with hk | hk
    · exact mem_keys_step_unbounded _ hI hmax op k (ih hk)
    · cases op with
      | set k' v =>
        simp only [setKeys, List.mem_singleton] at hk
        subst hk
        exact mem_keys_Set_self _ hI hmax k v
      | get k' => simp [setKeys] at hk

theorem Len_unbounded (ops : List (Op K V)) :
    (run (New 0 : cache K V) ops).Len = (setKeys ops).dedup.length := by
  have hI := Inv_run _ (Inv_New 0 : Inv (New 0 : cache K V)) ops
  rw [Len_eq, ← List.card_toFinset, ← List.toFinset_card_of_nodup hI.keyNodup]
  congr 1
  apply List.toFinset.ext
  intro k
  exact ⟨keys_subset_setKeys 0 ops k, setKeys_subset_keys_unbounded ops k⟩

theorem Get_unbounded (ops : List (Op K V)) (k : K) (hk : k ∈ setKeys ops) :
    ∃ v, lastSet ops k = some v ∧
      ((run (New 0 : cache K V) ops).Get k).2 = (some v, true) := by
  obtain ⟨v, hv, hr, _⟩ := Get_hit_run 0 ops k (setKeys_subset_keys_unbounded ops k hk)
  exact ⟨v, hv, hr⟩

theorem mapDelete_keys_nodup (m : List (K × Nat)) (k : K) (h : (m.map Prod.fst).Nodup) :
    ((mapDelete m k).map Prod.fst).Nodup :=
  h.sublist ((List.filter_sublist m).map Prod.fst)

theorem not_mem_mapDelete_keys (m : List (K × Nat)) (k : K) :
    k ∉ (mapDelete m k).map Prod.fst := by
  intro h
  obtain ⟨p, hp, e⟩ := List.mem_map.1 h
  have := (List.mem_filter.1 hp).2
  simp [e] at this

theorem mapSet_keys_nodup (m : List (K × Nat)) (k : K) (e : Nat) (h : (m.map Prod.fst).Nodup) :
    ((mapSet m k e).map Prod.fst).Nodup := by
  simp only [mapSet, List.map_cons, List.nodup_cons]
  exact ⟨not_mem_mapDelete_keys m k, mapDelete_keys_nodup m k h⟩

/-- The index never holds a key twice. -/
theorem index_nodup_Set (c : cache K V) (k : K) (v : V) (h : (c.index.map Prod.fst).Nodup) :
    ((c.Set k v).index.map Prod.fst).Nodup := by
  unfold cache.Set
  split
  · exact h
  · dsimp only
    split
    · exact mapDelete_keys_nodup _ _ (mapSet_keys_nodup _ _ _ h)
    · exact mapSet_keys_nodup _ _ _ h

theorem index_Get (c : cache K V) (k : K) : (c.Get k).1.index = c.index := by
  unfold cache.Get
  split <;> rfl

theorem index_nodup_run (N : Int) (ops : List (Op K V)) :
    ((run (New N : cache K V) ops).index.map Prod.fst).Nodup := by
  induction ops using List.reverseRecOn with
  | nil => simp [run, New]
  | append_singleton ops op ih =>
    rw [run_append]
    cases op with
    | set k v => exact index_nodup_Set _ k v ih
    | get k => simp only [step, index_Get]; exact ih

theorem mem_index_keys_iff (m : List (K × Nat)) (k : K) :
    k ∈ m.map Prod.fst ↔ ∃ a, mapGet m k = some a := by
  induction m with
  | nil => simp [mapGet]
  | cons p m ih =>
    by_cases h : p.1 = k
    · simp [mapGet, List.find?_cons, h]
    · have h2 : ¬ k = p.1 := fun e => h e.symm
      simp only [List.map_cons, List.mem_cons, h2, false_or, ih]
      simp [mapGet, List.find?_cons, h]

/-- Under the consistency of index and list the index has as many entries as the list has
elements. -/
theorem index_length (c : cache K V) (h : Inv c) (hn : (c.index.map Prod.fst).Nodup) :
    c.index.length = c.Len := by
  have hp : (c.index.map Prod.fst).Perm (keys c) := by
    rw [List.perm_ext_iff_of_nodup hn h.keyNodup]
    intro k
    rw [mem_index_keys_iff]
    constructor
    · rintro ⟨a, ha⟩
      obtain ⟨x, hx, _, hk⟩ := h.indexSound k a ha
      exact (mem_keys c k).2 ⟨x, hx, hk⟩
    · intro hk
      obtain ⟨x, hx, e⟩ := (mem_keys c k).1 hk
      exact ⟨x.addr, e ▸ h.indexComplete x hx⟩
  have := hp.length_eq
  simpa [keys, cache.Len] using this

theorem MutexInv_initial (methods : List Method) : MutexInv (initial methods) := by
  have h : ∀ (q : Method) (l : List Method),
      (l.map (fun m => ({ method := m, pc := Pc.start } : Goroutine))).countP
        (fun g => decide (g.method = q ∧ g.pc = Pc.critical)) = 0 := by
    intro q l
    induction l with
    | nil => rfl
    | cons m l ih => simp [List.countP_cons, ih]
  refine ⟨?_, ?_, ?_⟩
  · simp only [readersIn, initial]; exact h _ _
  · simp only [writersIn, initial]; exact h _ _
  · intro hw; simp [initial] at hw

theorem countP_set_step (p : Goroutine → Bool) (l : List Goroutine) (i : Nat)
    (g g1 : Goroutine) (hi : i < l.length) (hg : l[i] = g) :
    (l.set i g1).countP p + (if p g = true then 1 else 0) =
      l.countP p + (if p g1 = true then 1 else 0) := by
  have h1 := List.countP_set p l i g1 hi
  have h2 := List.boole_getElem_le_countP p l i hi
  rw [hg] at h1 h2
  omega

theorem MutexInv_stepAt (s s1 : Sched) (i : Nat) (h : MutexInv s) (hs : stepAt s i = some s1) :
    MutexInv s1 := by
  obtain ⟨hr, hw, hx⟩ := h
  unfold stepAt at hs
  cases hg : s.goroutines[i]? with
  | none => rw [hg] at hs; cases hs
  | some g =>
    rw [hg] at hs
    dsimp only at hs
    obtain ⟨hi, hgi⟩ := List.getElem?_eq_some.1 hg
    simp only [readersIn, writersIn] at hr hw
    have cR := fun g1 => countP_set_step
      (fun g => decide (g.method = Method.Get ∧ g.pc = Pc.critical)) s.goroutines i g g1 hi hgi
    have cW := fun g1 => countP_set_step
      (fun g => decide (g.method = Method.Set ∧ g.pc = Pc.critical)) s.goroutines i g g1 hi hgi
    cases ha : advance s.mutex g with
    | none => rw [ha] at hs; cases hs
    | some r =>
      rw [ha] at hs
      dsimp only at hs
      simp only [Option.some.injEq] at hs
      subst hs
      obtain ⟨m, pc⟩ := g
      cases m <;> cases pc <;> simp only [advance] at ha
      · -- `Get` takes the read lock
        by_cases hwr : s.mutex.writer = true
        · rw [if_pos hwr] at ha; cases ha
        · rw [if_neg hwr] at ha
          simp only [Option.some.injEq] at ha
          subst ha
          have c1 := cR { method := Method.Get, pc := Pc.critical }
          have c2 := cW { method := Method.Get, pc := Pc.critical }
          simp only [decide_eq_true_eq] at c1 c2
          simp only [reduceCtorEq, and_false, false_and, and_self, if_false, if_true] at c1 c2
          refine ⟨?_, ?_, ?_⟩
          · simp only [readersIn]; omega
          · simp only [writersIn]; omega
          · intro h2; exact absurd h2 hwr
      · -- `Get` releases the read lock
        simp only [Option.some.injEq] at ha
        subst ha
        have c1 := cR { method := Method.Get, pc := Pc.finished }
        have c2 := cW { method := Method.Get, pc := Pc.finished }
        simp only [decide_eq_true_eq] at c1 c2
        simp only [reduceCtorEq, and_false, false_and, and_self, if_false, if_true] at c1 c2
        refine ⟨?_, ?_, ?_⟩
        · simp only [readersIn]; omega
        · simp only [writersIn]; omega
        · intro h2
          have := hx h2
          omega
      · cases ha
      · -- `Set` takes the write lock
        by_cases hc : s.mutex.writer = true ∨ s.mutex.readers ≠ 0
        · rw [if_pos hc] at ha; cases ha
        · rw [if_neg hc] at ha
          simp only [Option.some.injEq] at ha
          subst ha
          have hwr : ¬ s.mutex.writer = true := fun e => hc (Or.inl e)
          have hrd : s.mutex.readers = 0 := by
            by_contra e; exact hc (Or.inr e)
          rw [if_neg hwr] at hw
          have c1 := cR { method := Method.Set, pc := Pc.critical }
          have c2 := cW { method := Method.Set, pc := Pc.critical }
          simp only [decide_eq_true_eq] at c1 c2
          simp only [reduceCtorEq, and_false, false_and, and_self, if_false, if_true] at c1 c2
          refine ⟨?_, ?_, ?_⟩
          · simp only [readersIn]; omega
          · simp only [writersIn, if_true]; omega
          · intro _; exact hrd
      · -- `Set` releases the write lock
        simp only [Option.some.injEq] at ha
        subst ha
        have c1 := cR { method := Method.Set, pc := Pc.finished }
        have c2 := cW { method := Method.Set, pc := Pc.finished }
        simp only [decide_eq_true_eq] at c1 c2
        simp only [reduceCtorEq, and_false, false_and, and_self, if_false, if_true] at c1 c2
        have hw1 : s.mutex.writer = true := by
          by_contra e
          rw [if_neg e] at hw
          omega
        rw [if_pos hw1] at hw
        refine ⟨?_, ?_, ?_⟩
        · simp only [readersIn]; omega
        · simp only [writersIn, Bool.false_eq_true, if_false]; omega
        · intro h2; cases h2
      · cases ha

theorem MutexInv_schedule (s s1 : Sched) (is : List Nat) (h : MutexInv s)
    (hs : schedule s is = some s1) : MutexInv s1 := by
  induction is generalizing s with
  | nil =>
    simp only [schedule, Option.some.injEq] at hs
    exact hs ▸ h
  | cons i is ih =>
    simp only [schedule] at hs
    cases h1 : stepAt s i with
    | none => simp [h1] at hs
    | some s2 =>
      rw [h1] at hs
      exact ih s2 (MutexInv_stepAt s s2 i h h1) hs

/-- In every interleaving at most one goroutine is inside `Set`, and then none is inside
`Get`. -/
theorem Set_is_exclusive (methods : List Method) (is : List Nat) (s : Sched)
    (hs : schedule (initial methods) is = some s) :
    writersIn s ≤ 1 ∧ (0 < writersIn s → readersIn s = 0) := by
  obtain ⟨hr, hw, hx⟩ := MutexInv_schedule _ s is (MutexInv_initial methods) hs
  rw [hw, hr]
  by_cases h : s.mutex.writer = true
  · simp [h, hx h]
  · simp [h]

theorem Get_not_ok (c : cache K V) (k : K) (h : (c.Get k).2.2 = false) :
    c.Get k = (c, none, false) := by
  unfold cache.Get at h ⊢
  split
  · rename_i e
    rw [e] at h
    cases h
  · rfl

theorem Get_ok (c : cache K V) (hI : Inv c) (k : K) (h : (c.Get k).2.2 = true) :
    ∃ v, (k, v) ∈ entries c ∧ (c.Get k).2 = (some v, true) := by
  obtain ⟨v, hv, hr, _⟩ := entries_Get_hit c hI k ((Get_found_iff c hI k).1 h)
  exact ⟨v, hv, hr⟩

theorem Get_of_mem_entries (c : cache K V) (hI : Inv c) (k : K) (v : V)
    (h : (k, v) ∈ entries c) : (c.Get k).2 = (some v, true) := by
  rw [Get_result c hI k]
  exact lookupEntry_of_mem _ (entries_nodup c hI) k v h

theorem entry_unique (c : cache K V) (hI : Inv c) (k : K) (v v1 : V)
    (h : (k, v) ∈ entries c) (h1 : (k, v1) ∈ entries c) : v = v1 := by
  have e := Get_of_mem_entries c hI k v h
  rw [Get_of_mem_entries c hI k v1 h1] at e
  simp only [Prod.mk.injEq, Option.some.injEq, and_true] at e
  exact e.symm

/-- An entry that is still in the list after a `Get` is unchanged. -/
theorem mem_entries_after_Get (c : cache K V) (hI : Inv c) (k k1 : K) (v : V)
    (h : (k1, v) ∈ entries c) : (k1, v) ∈ entries (c.Get k).1 := by
  by_cases hk : k ∈ keys c
  · obtain ⟨v0, hv0, _, he⟩ := entries_Get_hit c hI k hk
    rw [he, touched]
    by_cases e : k1 = k
    · subst e
      rw [entry_unique c hI k1 v v0 h hv0]
      exact List.mem_cons_self _ _
    · exact List.mem_cons_of_mem _ (List.mem_filter.2 ⟨h, by simpa using e⟩)
  · rw [Get_miss c hI k hk]
    exact h

/-- A key that is still in the list after a `Set` of another key has its entry unchanged. -/
theorem mem_entries_after_Set (c : cache K V) (hI : Inv c) (k k1 : K) (x v : V)
    (h : (k1, v) ∈ entries c) (hne : k1 ≠ k) (hk : k1 ∈ keys (c.Set k x)) :
    (k1, v) ∈ entries (c.Set k x) := by
  obtain ⟨y, hy⟩ := (mem_keys_iff_entries _ k1).1 hk
  rcases mem_entries_Set c hI k x (k1, y) hy with e | ⟨h1, _⟩
  · simp only [Prod.mk.injEq] at e
    exact absurd e.1 hne
  · rw [entry_unique c hI k1 v y h h1]
    exact hy

/-- After `Set(k, v)` on a cache whose capacity is not negative, `Get(k)` finds `v`. -/
theorem Get_after_Set (c : cache K V) (hI : Inv c) (hmax : 0 ≤ c.max) (k : K) (v : V) :
    ((c.Set k v).Get k).2 = (some v, true) := by
  apply Get_of_mem_entries _ (Inv_Set c hI k v)
  by_cases hk : k ∈ keys c
  · rw [entries_Set_hit c hI k v hk, touched]
    exact List.mem_cons_self _ _
  · rw [entries_Set_miss c hI k v hk]
    split
    · rename_i hc
      cases he : entries c with
      | nil =>
        rw [he] at hc
        simp only [List.length_nil] at hc
        omega
      | cons p l =>
        simp only [List.dropLast_cons₂]
        exact List.mem_cons_self _ _
    · exact List.mem_cons_self _ _

end lemmas

end lru

namespace playshields

section strings

theorem replaceNonEmpty_skip (old new : GoString) (k : Nat) (s : GoString) :
    replaceNonEmpty old new k s = replaceNonEmpty old new 0 (s.drop k) := by
  induction s generalizing k with
  | nil => simp [replaceNonEmpty]
  | cons b t ih =>
    cases k with
    | zero => rfl
    | succ k => simp only [replaceNonEmpty, List.drop_succ_cons]; exact ih k

theorem replaceNonEmpty_at_instance (old new s : GoString) (hold : old ≠ []) (h : old <+: s) :
    replaceNonEmpty old new 0 s = new ++ replaceNonEmpty old new 0 (s.drop old.length) := by
  cases s with
  | nil => exact absurd (List.prefix_nil.1 h) hold
  | cons b t =>
    have hl : 0 < old.length := List.length_pos.2 hold
    have e : List.drop old.length (b :: t) = List.drop (old.length - 1) t := by
      obtain ⟨m, hm⟩ : ∃ m, old.length = m + 1 := ⟨old.length - 1, by omega⟩
      rw [hm]; simp
    simp only [replaceNonEmpty, h, if_true]
    rw [replaceNonEmpty_skip old new (old.length - 1) t, e]

theorem replaceNonEmpty_cons (old new : GoString) (b : Fin 256) (t : GoString)
    (h : ¬ old <+: b :: t) :
    replaceNonEmpty old new 0 (b :: t) = b :: replaceNonEmpty old new 0 t := by
  simp only [replaceNonEmpty, h, if_false]

theorem ReplaceAll_nonEmpty (s old new : GoString) (hold : old ≠ []) (hne : old ≠ new) :
    ReplaceAll s old new = replaceNonEmpty old new 0 s := by
  simp only [ReplaceAll, hne, hold, if_false]

theorem replaceNonEmpty_of_not_infix (old new s : GoString) (h : ¬ old <:+: s) :
    replaceNonEmpty old new 0 s = s := by
  induction s with
  | nil => rfl
  | cons b t ih =>
    have h1 : ¬ old <+: b :: t := fun hp => h hp.isInfix
    have h2 : ¬ old <:+: t := fun hi => h (List.infix_cons_iff.2 (Or.inr hi))
    rw [replaceNonEmpty_cons old new b t h1, ih h2]

/-- `ReplaceAll` returns the string itself when `old` does not occur in it. -/
theorem ReplaceAll_of_not_infix (s old new : GoString) (h : ¬ old <:+: s) :
    ReplaceAll s old new = s := by
  have hold : old ≠ [] := by
    intro e; exact h (e ▸ List.nil_infix)
  by_cases hne : old = new
  · simp only [ReplaceAll, hne, if_true]
  · rw [ReplaceAll_nonEmpty s old new hold hne, replaceNonEmpty_of_not_infix old new s h]

/-- Unfolding of `ReplaceAll` at an instance of `old`. -/
theorem ReplaceAll_at_instance (old new s : GoString) (hold : old ≠ []) :
    ReplaceAll (old ++ s) old new = new ++ ReplaceAll s old new := by
  by_cases hne : old = new
  · simp only [ReplaceAll, hne, if_true]
  · rw [ReplaceAll_nonEmpty _ old new hold hne, ReplaceAll_nonEmpty _ old new hold hne,
      replaceNonEmpty_at_instance old new _ hold (List.prefix_append old s)]
    simp

/-- Unfolding of `ReplaceAll` at a byte where no instance of `old` starts. -/
theorem ReplaceAll_cons (old new : GoString) (b : Fin 256) (t : GoString) (hold : old ≠ [])
    (h : ¬ old <+: b :: t) : ReplaceAll (b :: t) old new = b :: ReplaceAll t old new := by
  by_cases hne : old = new
  · simp only [ReplaceAll, hne, if_true]
  · rw [ReplaceAll_nonEmpty _ old new hold hne, ReplaceAll_nonEmpty _ old new hold hne,
      replaceNonEmpty_cons old new b t h]

theorem ReplaceAll_nil (old new : GoString) (hold : old ≠ []) : ReplaceAll [] old new = [] := by
  by_cases hne : old = new
  · simp only [ReplaceAll, hne, if_true]
  · rw [ReplaceAll_nonEmpty _ old new hold hne]; rfl

theorem intercalate_cons_of_ne_nil (sep x : GoString) (ps : List GoString) (h : ps ≠ []) :
    sep.intercalate (x :: ps) = x ++ (sep ++ sep.intercalate ps) := by
  cases ps with
  | nil => exact absurd rfl h
  | cons y l => simp [List.intercalate, List.intersperse]

theorem intercalate_cons_cons (sep : GoString) (b : Fin 256) (p : GoString)
    (ps : List GoString) : sep.intercalate ((b :: p) :: ps) = b :: sep.intercalate (p :: ps) := by
  cases ps with
  | nil => simp [List.intercalate, List.intersperse]
  | cons y l => simp [List.intercalate, List.intersperse]

theorem head_prefix_intercalate (sep p : GoString) (ps : List GoString) :
    p <+: sep.intercalate (p :: ps) := by
  cases ps with
  | nil => simp [List.intercalate, List.intersperse]
  | cons y l =>
    rw [intercalate_cons_of_ne_nil sep p (y :: l) (List.cons_ne_nil _ _)]
    exact List.prefix_append _ _

theorem not_infix_dropLast (old : GoString) (hold : old ≠ []) : ¬ old <:+: old.dropLast := by
  intro h
  have h1 := h.length_le
  have hl : 0 < old.length := List.length_pos.2 hold
  rw [List.length_dropLast] at h1
  omega

/-- `ReplaceAll` with a non-empty `old` cuts the string at the instances of `old` found by a
left-to-right non-overlapping scan and joins the pieces with `new`: the pieces are free of `old`,
and in a piece followed by an instance no earlier instance starts. -/
theorem ReplaceAll_pieces (old new : GoString) (hold : old ≠ []) (s : GoString) :
    ∃ ps : List GoString, ps ≠ [] ∧ s = Join ps old ∧ (∀ q ∈ ps, ¬ old <:+: q) ∧
      (∀ q ∈ ps.dropLast, ¬ old <:+: q ++ old.dropLast) ∧
      ReplaceAll s old new = Join ps new := by
  suffices H : ∀ n (s : GoString), s.length ≤ n →
      ∃ ps : List GoString, ps ≠ [] ∧ s = Join ps old ∧ (∀ q ∈ ps, ¬ old <:+: q) ∧
        (∀ q ∈ ps.dropLast, ¬ old <:+: q ++ old.dropLast) ∧
        ReplaceAll s old new = Join ps new from H s.length s (Nat.le_refl _)
  intro n
  induction n with
  | zero =>
    intro s hs
    have : s = [] := List.length_eq_zero.1 (Nat.le_zero.1 hs)
    subst this
    refine ⟨[[]], by simp, by simp [Join, List.intercalate, List.intersperse], ?_, ?_, ?_⟩
    · intro q hq
      simp only [List.mem_singleton] at hq
      subst hq
      simpa using hold
    · intro q hq
      simp at hq
    · rw [ReplaceAll_nil old new hold]; simp [Join, List.intercalate, List.intersperse]
  | succ n ih =>
    intro s hs
    cases s with
    | nil => exact ih [] (Nat.zero_le _)
    | cons b t =>
      by_cases hp : old <+: b :: t
      · obtain ⟨r, hr⟩ := hp
        have hlen : r.length ≤ n := by
          have := congrArg List.length hr
          have hl : 0 < old.length := List.length_pos.2 hold
          simp only [List.length_append, List.length_cons] at this hs
          omega
        obtain ⟨ps, h1, h2, h3, h5, h4⟩ := ih r hlen
        refine ⟨[] :: ps, List.cons_ne_nil _ _, ?_, ?_, ?_, ?_⟩
        · simp only [Join] at h2 ⊢
          rw [intercalate_cons_of_ne_nil old [] ps h1, ← h2, List.nil_append, hr]
        · intro q hq
          rcases List.mem_cons.1 hq with e | hq
          · subst e; simpa using hold
          · exact h3 q hq
        · intro q hq
          rw [List.dropLast_cons_of_ne_nil h1] at hq
          rcases List.mem_cons.1 hq with e | hq
          · subst e
            rw [List.nil_append]
            exact not_infix_dropLast old hold
          · exact h5 q hq
        · simp only [Join] at h4 ⊢
          rw [← hr, ReplaceAll_at_instance old new r hold, h4,
            intercalate_cons_of_ne_nil new [] ps h1, List.nil_append]
      · have hlen : t.length ≤ n := by
          simp only [List.length_cons] at hs; omega
        obtain ⟨ps, h1, h2, h3, h5, h4⟩ := ih t hlen
        cases ps with
        | nil => exact absurd rfl h1
        | cons p0 rest =>
          refine ⟨(b :: p0) :: rest, List.cons_ne_nil _ _, ?_, ?_, ?_, ?_⟩
          · simp only [Join] at h2 ⊢
            rw [intercalate_cons_cons, ← h2]
          · intro q hq
            rcases List.mem_cons.1 hq with e | hq
            · subst e
              intro hi
              rcases List.infix_cons_iff.1 hi with hpre | hin
              · apply hp
                refine hpre.trans ?_
                rw [List.cons_prefix_cons]
                refine ⟨rfl, ?_⟩
                simp only [Join] at h2
                rw [h2]
                exact head_prefix_intercalate old p0 rest
              · exact h3 p0 (List.mem_cons_self _ _) hin
            · exact h3 q (List.mem_cons_of_mem _ hq)
          · intro q hq
            by_cases hrest : rest = []
            · subst hrest
              simp at hq
            · rw [List.dropLast_cons_of_ne_nil hrest] at hq h5
              rcases List.mem_cons.1 hq with e | hq
              · subst e
                intro hi
                rw [List.cons_append] at hi
                rcases List.infix_cons_iff.1 hi with hpre | hin
                · apply hp
                  refine hpre.trans ?_
                  rw [List.cons_prefix_cons]
                  refine ⟨rfl, ?_⟩
                  simp only [Join] at h2
                  rw [h2, intercalate_cons_of_ne_nil old p0 rest hrest,
                    List.prefix_append_right_inj]
                  exact (List.dropLast_prefix old).trans (List.prefix_append _ _)
                · exact h5 p0 (List.mem_cons_self _ _) hin
              · exact h5 q (List.mem_cons_of_mem _ hq)
          · simp only [Join] at h4 ⊢
            rw [ReplaceAll_cons old new b t hold hp, h4, intercalate_cons_cons]

theorem dollarDollar_ne_nil : dollarDollar ≠ [] := by decide

theorem escapeDollar_ne_nil : escapeDollar ≠ [] := by decide

theorem escape_nil : ReplaceAll [] dollarDollar escapeDollar = [] :=
  ReplaceAll_nil _ _ dollarDollar_ne_nil

theorem escape_at_pair (r : GoString) :
    ReplaceAll (dollarDollar ++ r) dollarDollar escapeDollar =
      escapeDollar ++ ReplaceAll r dollarDollar escapeDollar :=
  ReplaceAll_at_instance _ _ r dollarDollar_ne_nil

theorem escape_cons (b : Fin 256) (t : GoString) (h : ¬ dollarDollar <+: b :: t) :
    ReplaceAll (b :: t) dollarDollar escapeDollar =
      b :: ReplaceAll t dollarDollar escapeDollar :=
  ReplaceAll_cons _ _ b t dollarDollar_ne_nil h

/-- A prefix of the escaped string that has no byte `0xf0` is a prefix of the string. -/
theorem prefix_of_prefix_escape (p : GoString) (hp : ∀ c ∈ p, c ≠ 0xf0) (t : GoString)
    (h : p <+: ReplaceAll t dollarDollar escapeDollar) : p <+: t := by
  induction p generalizing t with
  | nil => exact List.nil_prefix
  | cons c p ih =>
    cases t with
    | nil =>
      rw [escape_nil] at h
      exact absurd (List.prefix_nil.1 h) (List.cons_ne_nil _ _)
    | cons d t =>
      by_cases hd : dollarDollar <+: d :: t
      · obtain ⟨r, hr⟩ := hd
        rw [← hr, escape_at_pair] at h
        have : c = 0xf0 := by
          simp only [escapeDollar, List.cons_append, List.cons_prefix_cons] at h
          exact h.1
        exact absurd this (hp c (List.mem_cons_self _ _))
      · rw [escape_cons d t hd, List.cons_prefix_cons] at h
        rw [List.cons_prefix_cons]
        exact ⟨h.1, ih (fun c hc => hp c (List.mem_cons_of_mem _ hc)) t h.2⟩

theorem infix_of_infix_cons (p : GoString) (e : Fin 256) (x : GoString) (he : e ∉ p)
    (h : p <:+: e :: x) : p <:+: x := by
  rcases List.infix_cons_iff.1 h with hpre | hin
  · rcases List.prefix_cons_iff.1 hpre with e0 | ⟨t, ht, _⟩
    · rw [e0]; exact List.nil_infix
    · exact absurd (ht ▸ List.mem_cons_self _ _) he
  · exact hin

/-- A token with none of the bytes of the sentinel occurs in the escaped string only if it
occurs in the string. -/
theorem infix_of_infix_escape (p : GoString) (hp : ∀ c ∈ p, c ∉ heavyDollar) (t : GoString)
    (h : p <:+: ReplaceAll t dollarDollar escapeDollar) : p <:+: t := by
  have hf0 : ∀ c ∈ p, c ≠ 0xf0 := by
    intro c hc e
    exact hp c hc (by rw [e]; decide)
  suffices H : ∀ n (t : GoString), t.length ≤ n →
      p <:+: ReplaceAll t dollarDollar escapeDollar → p <:+: t from H t.length t (Nat.le_refl _) h
  intro n
  induction n with
  | zero =>
    intro t ht h
    have : t = [] := List.length_eq_zero.1 (Nat.le_zero.1 ht)
    subst this
    rw [escape_nil] at h
    exact h
  | succ n ih =>
    intro t ht h
    cases t with
    | nil => rw [escape_nil] at h; exact h
    | cons d t =>
      by_cases hd : dollarDollar <+: d :: t
      · obtain ⟨r, hr⟩ := hd
        have hlen : r.length ≤ n := by
          have := congrArg List.length hr
          simp only [dollarDollar, List.length_append, List.length_cons, List.length_nil] at this ht
          omega
        rw [← hr, escape_at_pair] at h
        have h8 : p <:+: ReplaceAll r dollarDollar escapeDollar := by
          simp only [escapeDollar, List.cons_append, List.nil_append] at h
          have m0 : (0xf0 : Fin 256) ∉ p := fun hc => hp _ hc (by decide)
          have m1 : (0x9f : Fin 256) ∉ p := fun hc => hp _ hc (by decide)
          have m2 : (0x92 : Fin 256) ∉ p := fun hc => hp _ hc (by decide)
          have m3 : (0xb2 : Fin 256) ∉ p := fun hc => hp _ hc (by decide)
          exact infix_of_infix_cons p _ _ m3 (infix_of_infix_cons p _ _ m2
            (infix_of_infix_cons p _ _ m1 (infix_of_infix_cons p _ _ m0
            (infix_of_infix_cons p _ _ m3 (infix_of_infix_cons p _ _ m2
            (infix_of_infix_cons p _ _ m1 (infix_of_infix_cons p _ _ m0 h)))))))
        rw [← hr]
        exact (ih r hlen h8).trans (List.suffix_append _ _).isInfix
      · have hlen : t.length ≤ n := by
          simp only [List.length_cons] at ht; omega
        rw [escape_cons d t hd] at h
        rcases List.infix_cons_iff.1 h with hpre | hin
        · rw [← escape_cons d t hd] at hpre
          exact (prefix_of_prefix_escape p hf0 (d :: t) hpre).isInfix
        · exact List.infix_cons_iff.2 (Or.inr (ih t hlen hin))

/-- Escaping and unescaping gives the string back when it does not contain the character of the
sentinel. -/
theorem unescape_escape (s : GoString) (hs : ¬ heavyDollar <:+: s) :
    ReplaceAll (ReplaceAll s dollarDollar escapeDollar) escapeDollar dollarDollar = s := by
  suffices H : ∀ n (s : GoString), s.length ≤ n → ¬ heavyDollar <:+: s →
      ReplaceAll (ReplaceAll s dollarDollar escapeDollar) escapeDollar dollarDollar = s from
    H s.length s (Nat.le_refl _) hs
  intro n
  induction n with
  | zero =>
    intro s hn _
    have : s = [] := List.length_eq_zero.1 (Nat.le_zero.1 hn)
    subst this
    rw [escape_nil, ReplaceAll_nil _ _ escapeDollar_ne_nil]
  | succ n ih =>
    intro s hn hs
    cases s with
    | nil => rw [escape_nil, ReplaceAll_nil _ _ escapeDollar_ne_nil]
    | cons d t =>
      by_cases hd : dollarDollar <+: d :: t
      · obtain ⟨r, hr⟩ := hd
        have hlen : r.length ≤ n := by
          have := congrArg List.length hr
          simp only [dollarDollar, List.length_append, List.length_cons, List.length_nil] at this hn
          omega
        have hr2 : ¬ heavyDollar <:+: r := fun hi =>
          hs (hr ▸ hi.trans (List.suffix_append _ _).isInfix)
        rw [← hr, escape_at_pair, ReplaceAll_at_instance _ _ _ escapeDollar_ne_nil, ih r hlen hr2]
      · have hlen : t.length ≤ n := by
          simp only [List.length_cons] at hn; omega
        have ht2 : ¬ heavyDollar <:+: t := fun hi => hs (List.infix_cons_iff.2 (Or.inr hi))
        have hne : ¬ escapeDollar <+: d :: ReplaceAll t dollarDollar escapeDollar := by
          intro hpre
          have h1 : heavyDollar <+: d :: ReplaceAll t dollarDollar escapeDollar :=
            (List.prefix_append heavyDollar heavyDollar).trans hpre
          simp only [heavyDollar, List.cons_prefix_cons] at h1
          have h3 : ∀ c ∈ ([0x9f, 0x92, 0xb2] : GoString), c ≠ 0xf0 := by
            intro c hc
            simp only [List.mem_cons, List.mem_singleton, List.not_mem_nil, or_false] at hc
            rcases hc with e | e | e <;> rw [e] <;> decide
          have h2 := prefix_of_prefix_escape [0x9f, 0x92, 0xb2] h3 t h1.2
          apply hs
          apply List.IsPrefix.isInfix
          simp only [heavyDollar, List.cons_prefix_cons]
          exact ⟨h1.1, h2⟩
        rw [escape_cons d t hd, ReplaceAll_cons _ _ d _ escapeDollar_ne_nil hne, ih t hlen ht2]

theorem mem_infix_intercalate (sep : GoString) (ps : List GoString) (p : GoString)
    (h : p ∈ ps) : p <:+: sep.intercalate ps := by
  induction ps with
  | nil => cases h
  | cons q ps ih =>
    by_cases hps : ps = []
    · subst hps
      simp only [List.mem_singleton] at h
      subst h
      simp only [List.intercalate, List.intersperse, List.flatten_cons, List.flatten_nil,
        List.append_nil]
      exact List.infix_refl _
    · rw [intercalate_cons_of_ne_nil sep q ps hps]
      rcases List.mem_cons.1 h with e | h
      · subst e
        exact (List.prefix_append _ _).isInfix
      · exact (ih h).trans
          (((List.suffix_append sep _).trans (List.suffix_append q _)).isInfix)

theorem mem_intercalate (sep : GoString) (ps : List GoString) (c : Fin 256)
    (h : c ∈ sep.intercalate ps) : c ∈ sep ∨ ∃ p ∈ ps, c ∈ p := by
  induction ps with
  | nil => simp [List.intercalate, List.intersperse] at h
  | cons q ps ih =>
    by_cases hps : ps = []
    · subst hps
      simp only [List.intercalate, List.intersperse, List.flatten_cons, List.flatten_nil,
        List.append_nil] at h
      exact Or.inr ⟨q, List.mem_singleton_self _, h⟩
    · rw [intercalate_cons_of_ne_nil sep q ps hps, List.mem_append, List.mem_append] at h
      rcases h with h | h | h
      · exact Or.inr ⟨q, List.mem_cons_self _ _, h⟩
      · exact Or.inl h
      · rcases ih h with h1 | ⟨p, hp, hc⟩
        · exact Or.inl h1
        · exact Or.inr ⟨p, List.mem_cons_of_mem _ hp, hc⟩

/-- Every byte of `ReplaceAll(s, old, new)` is a byte of `s` or of `new`. -/
theorem mem_ReplaceAll (s old new : GoString) (hold : old ≠ []) (c : Fin 256)
    (h : c ∈ ReplaceAll s old new) : c ∈ s ∨ c ∈ new := by
  obtain ⟨ps, _, h2, _, _, h4⟩ := ReplaceAll_pieces old new hold s
  rw [h4] at h
  rcases mem_intercalate new ps c h with h | ⟨p, hp, hc⟩
  · exact Or.inr h
  · left
    rw [h2]
    exact (mem_infix_intercalate old ps p hp).subset hc

theorem not_prefix_of_head (t : GoString) (e : Fin 256) (x : GoString) (ht : t ≠ [])
    (he : e ∉ t) : ¬ t <+: e :: x := by
  intro h
  rcases List.prefix_cons_iff.1 h with e0 | ⟨r, hr, _⟩
  · exact ht e0
  · exact he (hr ▸ List.mem_cons_self _ _)

/-- A token with none of the bytes of the sentinel is replaced on both sides of a sentinel
independently. -/
theorem ReplaceAll_through_sentinel (t v : GoString) (ht : t ≠ [])
    (hs : ∀ c ∈ t, c ∉ heavyDollar) (p tail : GoString) :
    ReplaceAll (p ++ (escapeDollar ++ tail)) t v =
      ReplaceAll p t v ++ (escapeDollar ++ ReplaceAll tail t v) := by
  have m0 : (0xf0 : Fin 256) ∉ t := fun hc => hs _ hc (by decide)
  have m1 : (0x9f : Fin 256) ∉ t := fun hc => hs _ hc (by decide)
  have m2 : (0x92 : Fin 256) ∉ t := fun hc => hs _ hc (by decide)
  have m3 : (0xb2 : Fin 256) ∉ t := fun hc => hs _ hc (by decide)
  suffices H : ∀ n (p : GoString), p.length ≤ n →
      ReplaceAll (p ++ (escapeDollar ++ tail)) t v =
        ReplaceAll p t v ++ (escapeDollar ++ ReplaceAll tail t v) from
    H p.length p (Nat.le_refl _)
  have hnil : ReplaceAll (escapeDollar ++ tail) t v = escapeDollar ++ ReplaceAll tail t v := by
    simp only [escapeDollar, List.cons_append, List.nil_append]
    rw [ReplaceAll_cons t v _ _ ht (not_prefix_of_head t _ _ ht m0),
      ReplaceAll_cons t v _ _ ht (not_prefix_of_head t _ _ ht m1),
      ReplaceAll_cons t v _ _ ht (not_prefix_of_head t _ _ ht m2),
      ReplaceAll_cons t v _ _ ht (not_prefix_of_head t _ _ ht m3),
      ReplaceAll_cons t v _ _ ht (not_prefix_of_head t _ _ ht m0),
      ReplaceAll_cons t v _ _ ht (not_prefix_of_head t _ _ ht m1),
      ReplaceAll_cons t v _ _ ht (not_prefix_of_head t _ _ ht m2),
      ReplaceAll_cons t v _ _ ht (not_prefix_of_head t _ _ ht m3)]
  intro n
  induction n with
  | zero =>
    intro p hp
    have : p = [] := List.length_eq_zero.1 (Nat.le_zero.1 hp)
    subst this
    rw [List.nil_append, ReplaceAll_nil t v ht, List.nil_append, hnil]
  | succ n ih =>
    intro p hp
    cases p with
    | nil => rw [List.nil_append, ReplaceAll_nil t v ht, List.nil_append, hnil]
    | cons b p =>
      by_cases hpre : t <+: (b :: p) ++ (escapeDollar ++ tail)
      · have hle : t.length ≤ (b :: p).length := by
          by_contra hlt
          have hlt2 : (b :: p).length < t.length := by omega
          obtain ⟨r, hr⟩ := hpre
          have h1 : t.get? (b :: p).length = some 0xf0 := by
            have h2 : (t ++ r).get? (b :: p).length = some 0xf0 := by
              rw [hr, List.get?_eq_getElem?, List.getElem?_append_right (Nat.le_refl _)]
              simp [escapeDollar]
            rw [List.get?_eq_getElem?] at h2 ⊢
            rw [List.getElem?_append_left hlt2] at h2
            exact h2
          exact m0 (List.get?_mem h1)
        have hpre2 : t <+: b :: p :=
          List.prefix_of_prefix_length_le hpre (List.prefix_append _ _) hle
        obtain ⟨q, hq⟩ := hpre2
        have hlen : q.length ≤ n := by
          have := congrArg List.length hq
          have hl : 0 < t.length := List.length_pos.2 ht
          simp only [List.length_append, List.length_cons] at this hp
          omega
        rw [← hq, List.append_assoc, ReplaceAll_at_instance t v _ ht, ReplaceAll_at_instance t v _ ht,
          ih q hlen, List.append_assoc]
      · have hpre2 : ¬ t <+: b :: p := fun h => hpre (h.trans (List.prefix_append _ _))
        have hlen : p.length ≤ n := by
          simp only [List.length_cons] at hp; omega
        rw [List.cons_append] at hpre ⊢
        rw [ReplaceAll_cons t v b _ ht hpre, ReplaceAll_cons t v b _ ht hpre2, ih p hlen,
          List.cons_append]

theorem ReplaceAll_join_sentinel (t v : GoString) (ht : t ≠ [])
    (hs : ∀ c ∈ t, c ∉ heavyDollar) (ps : List GoString) :
    ReplaceAll (Join ps escapeDollar) t v =
      Join (ps.map (fun p => ReplaceAll p t v)) escapeDollar := by
  induction ps with
  | nil => simp [Join, List.intercalate, List.intersperse, ReplaceAll_nil t v ht]
  | cons p ps ih =>
    by_cases hps : ps = []
    · subst hps
      simp [Join, List.intercalate, List.intersperse]
    · have hps2 : ps.map (fun p => ReplaceAll p t v) ≠ [] := by
        simpa using hps
      simp only [Join] at ih ⊢
      rw [List.map_cons, intercalate_cons_of_ne_nil _ p ps hps,
        intercalate_cons_of_ne_nil _ _ _ hps2, ReplaceAll_through_sentinel t v ht hs, ih]

/-- Turning the sentinels between pieces without the byte `0xf0` back into `$$`. -/
theorem unescape_through_sentinel (p tail : GoString) (hp : ∀ c ∈ p, c ≠ 0xf0) :
    ReplaceAll (p ++ (escapeDollar ++ tail)) escapeDollar dollarDollar =
      p ++ (dollarDollar ++ ReplaceAll tail escapeDollar dollarDollar) := by
  induction p with
  | nil =>
    rw [List.nil_append, List.nil_append, ReplaceAll_at_instance _ _ _ escapeDollar_ne_nil]
  | cons b p ih =>
    have hb : ¬ escapeDollar <+: b :: (p ++ (escapeDollar ++ tail)) := by
      intro h
      simp only [escapeDollar, List.cons_prefix_cons] at h
      exact hp b (List.mem_cons_self _ _) h.1.symm
    rw [List.cons_append, ReplaceAll_cons _ _ b _ escapeDollar_ne_nil hb,
      ih (fun c hc => hp c (List.mem_cons_of_mem _ hc)), List.cons_append]

theorem unescape_of_no_f0 (p : GoString) (hp : ∀ c ∈ p, c ≠ 0xf0) :
    ReplaceAll p escapeDollar dollarDollar = p := by
  apply ReplaceAll_of_not_infix
  intro h
  have : (0xf0 : Fin 256) ∈ p := h.subset (by simp [escapeDollar])
  exact hp _ this rfl

theorem unescape_join (ps : List GoString) (hp : ∀ p ∈ ps, ∀ c ∈ p, c ≠ 0xf0) :
    ReplaceAll (Join ps escapeDollar) escapeDollar dollarDollar = Join ps dollarDollar := by
  induction ps with
  | nil =>
    simp [Join, List.intercalate, List.intersperse, ReplaceAll_nil _ _ escapeDollar_ne_nil]
  | cons p ps ih =>
    by_cases hps : ps = []
    · subst hps
      simp only [Join, List.intercalate, List.intersperse, List.flatten_cons, List.flatten_nil,
        List.append_nil]
      exact unescape_of_no_f0 p (hp p (List.mem_singleton_self _))
    · simp only [Join] at ih ⊢
      rw [intercalate_cons_of_ne_nil _ p ps hps, intercalate_cons_of_ne_nil _ p ps hps,
        unescape_through_sentinel p _ (hp p (List.mem_cons_self _ _)),
        ih (fun q hq => hp q (List.mem_cons_of_mem _ hq))]

end strings

section engine
variable {σ : Type}

theorem replacePlaceHolder_absent (errorArr : List error) (s name : GoString)
    (f : placeHolderGetter σ) (params : List GoString) (w : σ) (h : Contains s name = false) :
    replacePlaceHolder errorArr s name f params w = ((s, errorArr), w) := by
  simp [replacePlaceHolder, h]

theorem replacePlaceHolder_present (errorArr : List error) (s name : GoString)
    (f : placeHolderGetter σ) (params : List GoString) (w : σ) (h : Contains s name = true) :
    replacePlaceHolder errorArr s name f params w =
      if (f name params w).1.2 ≠ none then
        ((s, errorArr ++ [(f name params w).1.2]), (f name params w).2)
      else
        ((ReplaceAll s name
            (if (f name params w).1.1.length > 1000 then (f name params w).1.1.take 1000
              else (f name params w).1.1), errorArr), (f name params w).2) := by
  simp only [replacePlaceHolder, h, if_true]

theorem length_eAcute (n : Nat) : (eAcute n).length = 2 * n := by
  induction n with
  | zero => rfl
  | succ n ih =>
    simp only [eAcute, List.length_cons, ih]
    omega

theorem runeCount_eAcute (n : Nat) : RuneCountInString (eAcute n) = n := by
  induction n with
  | zero => rfl
  | succ n ih =>
    have hw : runeWidth (0xc3 :: 0xa9 :: eAcute n) = 2 := rfl
    simp only [RuneCountInString] at ih
    simp only [RuneCountInString, eAcute, runeCountFrom, hw, ih]
    omega

theorem Contains_iff (s t : GoString) : Contains s t = true ↔ t <:+: s := by
  simp [Contains]

theorem counted_replacePlaceHolder (errorArr : List error) (s name : GoString)
    (f : placeHolderGetter σ) (params : List GoString) (w : σ) (n : Nat) :
    (replacePlaceHolder errorArr s name (counted f) params (w, n)).2.2 =
      n + (if name <:+: s then 1 else 0) := by
  by_cases h : name <:+: s
  · rw [replacePlaceHolder_present _ _ _ _ _ _ ((Contains_iff s name).2 h)]
    simp only [h, if_true]
    split <;> rfl
  · have h2 : Contains s name = false := by simpa [Contains] using h
    rw [replacePlaceHolder_absent _ _ _ _ _ _ h2]
    simp [h]

/-- The loop of `replacePlaceHolders`, from a working string, an error slice and a state. -/
theorem loop_absent (params : List GoString) (reg : List (GoString × placeHolder σ))
    (s : GoString) (errorArr : List error) (w : σ) (h : ∀ kv ∈ reg, ¬ kv.1 <:+: s) :
    reg.foldl
        (fun acc kv =>
          replacePlaceHolder acc.1.2 acc.1.1 kv.1 kv.2.placeHolderGetter params acc.2)
        ((s, errorArr), w) = ((s, errorArr), w) := by
  induction reg with
  | nil => rfl
  | cons kv reg ih =>
    have h1 : Contains s kv.1 = false := by
      simpa [Contains] using h kv (List.mem_cons_self _ _)
    rw [List.foldl_cons, replacePlaceHolder_absent _ _ _ _ _ _ h1]
    exact ih (fun kv2 hkv => h kv2 (List.mem_cons_of_mem _ hkv))

theorem replacePlaceHolders_absent (s : GoString) (reg : List (GoString × placeHolder σ))
    (params : List GoString) (w : σ) (hs : ¬ heavyDollar <:+: s)
    (hreg : ∀ kv ∈ reg, ¬ kv.1 <:+: s) (htok : ∀ kv ∈ reg, ∀ c ∈ kv.1, c ∉ heavyDollar) :
    replacePlaceHolders s reg params w = ((s, none), w) := by
  have hesc : ∀ kv ∈ reg, ¬ kv.1 <:+: ReplaceAll s dollarDollar escapeDollar :=
    fun kv hkv hi => hreg kv hkv (infix_of_infix_escape kv.1 (htok kv hkv) s hi)
  simp only [replacePlaceHolders, loop_absent params reg _ [] w hesc, unescape_escape s hs]
  rfl

theorem mem_countedRegistry (reg : List (GoString × placeHolder σ))
    (kv : GoString × placeHolder (σ × Nat)) (h : kv ∈ countedRegistry reg) :
    ∃ kv0 ∈ reg, kv.1 = kv0.1 := by
  simp only [countedRegistry, List.mem_map] at h
  obtain ⟨kv0, h0, e⟩ := h
  exact ⟨kv0, h0, by rw [← e]⟩

/-- The errors the loop of `replacePlaceHolders` appends to the error slice for a list of
resolver calls. -/
theorem filterMap_failed (cs : List Call) :
    (((cs.filter (fun c => decide (c.err ≠ none))).map (fun c => c.err)).filterMap id) =
      cs.filterMap (fun c => c.err) := by
  induction cs with
  | nil => rfl
  | cons c cs ih =>
    cases h : c.err with
    | none => simpa [List.filter_cons, h] using ih
    | some m => simpa [List.filter_cons, h] using ih

theorem substituted_cons (s : GoString) (c : Call) (cs : List Call) :
    substituted s (c :: cs) =
      substituted
        (if c.err = none then
          ReplaceAll s c.token (if c.value.length > 1000 then c.value.take 1000 else c.value)
        else s) cs := by
  simp only [substituted, List.foldl_cons]

/-- The loop of `replacePlaceHolders` in terms of the resolver calls it makes. -/
theorem loop_calls (params : List GoString) (reg : List (GoString × placeHolder σ))
    (s : GoString) (errorArr : List error) (w : σ) :
    (reg.foldl
        (fun acc kv =>
          replacePlaceHolder acc.1.2 acc.1.1 kv.1 kv.2.placeHolderGetter params acc.2)
        ((s, errorArr), w)).1 =
      (substituted s (calls params reg s w),
        errorArr ++ ((calls params reg s w).filter (fun c => decide (c.err ≠ none))).map
          (fun c => c.err)) := by
  induction reg generalizing s errorArr w with
  | nil => simp [calls, substituted]
  | cons kv reg ih =>
    rw [List.foldl_cons]
    by_cases h : kv.1 <:+: s
    · rw [replacePlaceHolder_present _ _ _ _ _ _ ((Contains_iff s kv.1).2 h)]
      by_cases he : (kv.2.placeHolderGetter kv.1 params w).1.2 = none
      · have he2 : ¬ (kv.2.placeHolderGetter kv.1 params w).1.2 ≠ none := fun hh => hh he
        rw [if_neg he2, ih]
        simp only [calls, h, if_true, he, substituted_cons, List.filter_cons]
        simp
      · rw [if_pos he, ih]
        simp only [calls, h, if_true, he, if_false, substituted_cons, List.filter_cons]
        simp [he]
    · have h1 : Contains s kv.1 = false := by simpa [Contains] using h
      rw [replacePlaceHolder_absent _ _ _ _ _ _ h1, ih]
      simp only [calls, h, if_false]

theorem replacePlaceHolders_eq (s : GoString) (reg : List (GoString × placeHolder σ))
    (params : List GoString) (w : σ) :
    (replacePlaceHolders s reg params w).1 =
      (ReplaceAll
          (substituted (ReplaceAll s dollarDollar escapeDollar)
            (calls params reg (ReplaceAll s dollarDollar escapeDollar) w))
          escapeDollar dollarDollar,
        (combineErrors
          (((calls params reg (ReplaceAll s dollarDollar escapeDollar) w).filter
            (fun c => decide (c.err ≠ none))).map (fun c => c.err))).2) := by
  have h := loop_calls params reg (ReplaceAll s dollarDollar escapeDollar) [] w
  simp only [replacePlaceHolders]
  generalize reg.foldl
      (fun acc kv =>
        replacePlaceHolder acc.1.2 acc.1.1 kv.1 kv.2.placeHolderGetter params acc.2)
      ((ReplaceAll s dollarDollar escapeDollar, []), w) = r at h ⊢
  obtain ⟨⟨s1, e1⟩, w1⟩ := r
  simp only [List.nil_append, Prod.mk.injEq] at h
  simp only [h.1, h.2]

theorem combineErrors_failed (cs : List Call) :
    (combineErrors ((cs.filter (fun c => decide (c.err ≠ none))).map (fun c => c.err))).2 =
      if ∀ c ∈ cs, c.err = none then none
      else some (Join (cs.filterMap (fun c => c.err)) [0x2c]) := by
  by_cases h : ∀ c ∈ cs, c.err = none
  · have : cs.filter (fun c => decide (c.err ≠ none)) = [] := by
      rw [List.filter_eq_nil_iff]
      intro c hc
      simp [h c hc]
    rw [this, if_pos h]
    rfl
  · have hne : ((cs.filter (fun c => decide (c.err ≠ none))).map (fun c => c.err)).length ≠ 0 := by
      intro h0
      apply h
      intro c hc
      have h1 : cs.filter (fun c => decide (c.err ≠ none)) = [] := by
        rw [List.length_map] at h0
        exact List.length_eq_zero.1 h0
      rw [List.filter_eq_nil_iff] at h1
      simpa using h1 c hc
    simp only [combineErrors, hne, if_false, h, filterMap_failed]

theorem mem_calls (params : List GoString) (reg : List (GoString × placeHolder σ))
    (s : GoString) (w : σ) (c : Call) (h : c ∈ calls params reg s w) :
    ∃ kv ∈ reg, c.token = kv.1 := by
  induction reg generalizing s w with
  | nil => simp [calls] at h
  | cons kv reg ih =>
    simp only [calls] at h
    split at h
    · rcases List.mem_cons.1 h with e | h
      · exact ⟨kv, List.mem_cons_self _ _, by rw [e]⟩
      · obtain ⟨kv2, h2, e2⟩ := ih _ _ h
        exact ⟨kv2, List.mem_cons_of_mem _ h2, e2⟩
    · obtain ⟨kv2, h2, e2⟩ := ih _ _ h
      exact ⟨kv2, List.mem_cons_of_mem _ h2, e2⟩

/-- The substitutions of a list of calls act on each side of a sentinel independently when no
token is empty or has a byte of the sentinel. -/
theorem substituted_join (cs : List Call)
    (hcs : ∀ c ∈ cs, c.token ≠ [] ∧ ∀ b ∈ c.token, b ∉ heavyDollar) (ps : List GoString) :
    substituted (Join ps escapeDollar) cs =
      Join (ps.map (fun p => substituted p cs)) escapeDollar := by
  induction cs generalizing ps with
  | nil => simp [substituted]
  | cons c cs ih =>
    have hc := hcs c (List.mem_cons_self _ _)
    have hcs2 : ∀ c ∈ cs, c.token ≠ [] ∧ ∀ b ∈ c.token, b ∉ heavyDollar :=
      fun c2 h2 => hcs c2 (List.mem_cons_of_mem _ h2)
    rw [substituted_cons]
    by_cases he : c.err = none
    · rw [if_pos he, ReplaceAll_join_sentinel _ _ hc.1 hc.2, ih hcs2, List.map_map]
      congr 1
      apply List.map_congr_left
      intro p _
      simp only [Function.comp, substituted_cons, he, if_true]
    · rw [if_neg he, ih hcs2]
      congr 1
      apply List.map_congr_left
      intro p _
      simp only [substituted_cons, he, if_false]

theorem substituted_no_f0 (cs : List Call) (hcs : ∀ c ∈ cs, c.token ≠ [])
    (hv : ∀ c ∈ cs, c.err = none → ∀ b ∈ c.value, b ≠ 0xf0) (p : GoString)
    (hp : ∀ b ∈ p, b ≠ 0xf0) : ∀ b ∈ substituted p cs, b ≠ 0xf0 := by
  induction cs generalizing p with
  | nil => simpa [substituted] using hp
  | cons c cs ih =>
    rw [substituted_cons]
    apply ih (fun c2 h2 => hcs c2 (List.mem_cons_of_mem _ h2))
      (fun c2 h2 => hv c2 (List.mem_cons_of_mem _ h2))
    by_cases he : c.err = none
    · rw [if_pos he]
      intro b hb
      rcases mem_ReplaceAll _ _ _ (hcs c (List.mem_cons_self _ _)) b hb with h | h
      · exact hp b h
      · apply hv c (List.mem_cons_self _ _) he b
        split at h
        · exact List.mem_of_mem_take h
        · exact h
    · rw [if_neg he]
      exact hp

/-- The escape pass on pieces: away from the sentinel the result is the pieces between the `$$`
pairs, each with the successful substitutions made in it, joined by `$$`. -/
theorem replacePlaceHolders_pieces (s : GoString) (reg : List (GoString × placeHolder σ))
    (params : List GoString) (w : σ) (hs : ∀ b ∈ s, b ≠ 0xf0)
    (hreg : ∀ kv ∈ reg, kv.1 ≠ [] ∧ ∀ b ∈ kv.1, b ∉ heavyDollar)
    (hv : ∀ c ∈ calls params reg (ReplaceAll s dollarDollar escapeDollar) w,
      c.err = none → ∀ b ∈ c.value, b ≠ 0xf0) :
    ∃ ps : List GoString, ps ≠ [] ∧ s = Join ps dollarDollar ∧
      (∀ p ∈ ps, ¬ dollarDollar <:+: p) ∧
      (∀ p ∈ ps.dropLast, ¬ dollarDollar <:+: p ++ dollarDollar.dropLast) ∧
      (replacePlaceHolders s reg params w).1.1 =
        Join (ps.map (fun p =>
          substituted p (calls params reg (ReplaceAll s dollarDollar escapeDollar) w)))
          dollarDollar := by
  obtain ⟨ps, h1, h2, h3, h5, h4⟩ :=
    ReplaceAll_pieces dollarDollar escapeDollar dollarDollar_ne_nil s
  refine ⟨ps, h1, h2, h3, h5, ?_⟩
  have hcs : ∀ c ∈ calls params reg (ReplaceAll s dollarDollar escapeDollar) w,
      c.token ≠ [] ∧ ∀ b ∈ c.token, b ∉ heavyDollar := by
    intro c hc
    obtain ⟨kv, hkv, e⟩ := mem_calls params reg _ w c hc
    rw [e]; exact hreg kv hkv
  have hps : ∀ p ∈ ps, ∀ b ∈ p, b ≠ 0xf0 := by
    intro p hp b hb
    apply hs b
    rw [h2]
    exact (mem_infix_intercalate dollarDollar ps p hp).subset hb
  rw [replacePlaceHolders_eq]
  simp only
  generalize calls params reg (ReplaceAll s dollarDollar escapeDollar) w = cs at hv hcs ⊢
  rw [h4, substituted_join cs hcs ps, unescape_join]
  intro p hp b hb
  obtain ⟨p0, hp0, e⟩ := List.mem_map.1 hp
  rw [← e] at hb
  exact substituted_no_f0 cs (fun c hc => (hcs c hc).1) hv p0 (hps p0 hp0) b hb

theorem ReplaceAll_skip (p x : GoString) (d : Fin 256) (t v : GoString)
    (hp : ∀ b ∈ p, b ≠ d) :
    ReplaceAll (p ++ x) (d :: t) v = p ++ ReplaceAll x (d :: t) v := by
  induction p with
  | nil => rfl
  | cons b p ih =>
    have hb : ¬ (d :: t) <+: b :: (p ++ x) := by
      intro h
      rw [List.cons_prefix_cons] at h
      exact hp b (List.mem_cons_self _ _) h.1.symm
    rw [List.cons_append, ReplaceAll_cons _ _ b _ (List.cons_ne_nil _ _) hb,
      ih (fun c hc => hp c (List.mem_cons_of_mem _ hc)), List.cons_append]

set_option maxRecDepth 8192 in
/-- The template `$$version $version` with `$version` resolving to `v`. -/
theorem render_escaped_version (ph : placeHolder σ) (params : List GoString) (w w1 : σ)
    (v : GoString) (hf : ph.placeHolderGetter (ascii "$version") params w = ((v, none), w1))
    (hlen : v.length ≤ 1000) (hv : ¬ escapeDollar <:+: v) :
    replacePlaceHolders (ascii "$$version $version") [(ascii "$version", ph)] params w =
      ((ascii "$$version " ++ v, none), w1) := by
  have e1 : ReplaceAll (ascii "$$version $version") dollarDollar escapeDollar =
      escapeDollar ++ (ascii "version " ++ (ascii "$version" ++ [])) := by decide
  have e2 : Contains (escapeDollar ++ (ascii "version " ++ (ascii "$version" ++ [])))
      (ascii "$version") = true := by decide
  have e3 : ascii "$version" = 0x24 :: ascii "version" := by decide
  have e4 : ∀ b ∈ escapeDollar ++ ascii "version ", b ≠ (0x24 : Fin 256) := by decide
  have e5 : ∀ b ∈ ascii "version ", b ≠ (0xf0 : Fin 256) := by decide
  have e6 : ascii "$$version " = dollarDollar ++ ascii "version " := by decide
  have hcap : (if v.length > 1000 then v.take 1000 else v) = v := by
    rw [if_neg]; omega
  have e7 : ReplaceAll (escapeDollar ++ (ascii "version " ++ (ascii "$version" ++ [])))
      (ascii "$version") v = escapeDollar ++ (ascii "version " ++ v) := by
    rw [← List.append_assoc, e3, ReplaceAll_skip _ _ _ _ _ e4, ← e3,
      ReplaceAll_at_instance _ _ _ (by rw [e3]; exact List.cons_ne_nil _ _),
      ReplaceAll_nil _ _ (by rw [e3]; exact List.cons_ne_nil _ _), List.append_nil,
      List.append_assoc]
  have e8 : ReplaceAll (escapeDollar ++ (ascii "version " ++ v)) escapeDollar dollarDollar =
      ascii "$$version " ++ v := by
    have e9 : escapeDollar = 0xf0 :: [0x9f, 0x92, 0xb2, 0xf0, 0x9f, 0x92, 0xb2] := rfl
    rw [ReplaceAll_at_instance _ _ _ escapeDollar_ne_nil]
    conv_lhs => rw [e9, ReplaceAll_skip _ _ _ _ _ e5, ← e9, ReplaceAll_of_not_infix _ _ _ hv]
    rw [e6, List.append_assoc]
  simp only [replacePlaceHolders, List.foldl_cons, List.foldl_nil, e1]
  rw [replacePlaceHolder_present _ _ _ _ _ _ e2, hf]
  simp only [ne_eq, not_true_eq_false, if_false, hcap, e7, e8]
  rfl

end engine

end playshields

namespace playshields

section fetch
variable {ν : Type}

theorem Cut_some (sep : GoString) (hsep : sep ≠ []) (s a b : GoString)
    (h : Cut sep s = some (a, b)) :
    s = a ++ (sep ++ b) ∧ ¬ sep <:+: a ++ sep.dropLast := by
  induction s generalizing a with
  | nil => simp [Cut, hsep] at h
  | cons c t ih =>
    simp only [Cut] at h
    by_cases hp : sep <+: c :: t
    · rw [if_pos hp] at h
      simp only [Option.some.injEq, Prod.mk.injEq] at h
      obtain ⟨rfl, rfl⟩ := h
      refine ⟨?_, ?_⟩
      · rw [List.nil_append]
        exact (List.prefix_iff_eq_append.1 hp).symm
      · rw [List.nil_append]
        exact not_infix_dropLast sep hsep
    · rw [if_neg hp] at h
      cases hc : Cut sep t with
      | none => rw [hc] at h; cases h
      | some r =>
        rw [hc] at h
        simp only [Option.map_some', Option.some.injEq, Prod.mk.injEq] at h
        obtain ⟨rfl, rfl⟩ := h
        obtain ⟨h1, h2⟩ := ih r.1 (by rw [hc])
        refine ⟨by rw [List.cons_append, ← h1], ?_⟩
        intro hi
        rw [List.cons_append] at hi
        rcases List.infix_cons_iff.1 hi with hpre | hin
        · apply hp
          refine hpre.trans ?_
          rw [List.cons_prefix_cons]
          refine ⟨rfl, ?_⟩
          rw [h1, List.prefix_append_right_inj]
          exact (List.dropLast_prefix sep).trans (List.prefix_append _ _)
        · exact h2 hin

theorem Cut_of_infix (sep s : GoString) (h : sep <:+: s) : ∃ r, Cut sep s = some r := by
  induction s with
  | nil =>
    have : sep = [] := List.infix_nil.1 h
    exact ⟨([], []), by simp [Cut, this]⟩
  | cons c t ih =>
    simp only [Cut]
    by_cases hp : sep <+: c :: t
    · exact ⟨_, if_pos hp⟩
    · rw [if_neg hp]
      rcases List.infix_cons_iff.1 h with h1 | h1
      · exact absurd h1 hp
      · obtain ⟨r, hr⟩ := ih h1
        exact ⟨_, by rw [hr]; rfl⟩

theorem Cut_none (sep : GoString) (hsep : sep ≠ []) (s : GoString) (h : ¬ sep <:+: s) :
    Cut sep s = none := by
  cases hc : Cut sep s with
  | none => rfl
  | some r =>
    obtain ⟨h1, _⟩ := Cut_some sep hsep s r.1 r.2 hc
    exact absurd (h1 ▸ List.infix_append' r.1 sep r.2) h

theorem served_stored (r : Except GoString GoString) : served (stored r) = r := by
  cases r <;> rfl

/-- `cachedGetBody` on a hit: the entry is served and the network is not used. -/
theorem cachedGetBody_hit (env : Env ν) (u : GoString) (w : World ν)
    (hI : lru.Inv w.htmlCache) (x : htmlCacheEntry) (hx : (u, x) ∈ lru.entries w.htmlCache) :
    cachedGetBody env u w = (some (served x), { w with htmlCache := (w.htmlCache.Get u).1 }) := by
  have h := lru.Get_of_mem_entries w.htmlCache hI u x hx
  have h2 : w.htmlCache.Get u = ((w.htmlCache.Get u).1, some x, true) := by
    rw [← h]
  unfold cachedGetBody
  rw [h2]
  simp only [served]
  split <;> rfl

/-- `cachedGetBody` on a miss that does not panic: what is returned is stored for the URL. -/
theorem cachedGetBody_miss (env : Env ν) (u : GoString) (w w1 : World ν)
    (r : Except GoString GoString) (hm : (w.htmlCache.Get u).2.2 = false)
    (h : cachedGetBody env u w = (some r, w1)) :
    w1 = { htmlCache := w.htmlCache.Set u (stored r), jsCache := w.jsCache,
           net := (env.httpGet u w.net).2 } := by
  have h2 := lru.Get_not_ok w.htmlCache u hm
  unfold cachedGetBody at h
  rw [h2] at h
  simp only at h
  split at h
  · rename_i err n1 he
    simp only [Prod.mk.injEq, Option.some.injEq] at h
    obtain ⟨rfl, rfl⟩ := h
    simp [stored, he]
  · rename_i resp n1 he
    split at h
    · simp only [Prod.mk.injEq, Option.some.injEq] at h
      obtain ⟨rfl, rfl⟩ := h
      simp [stored, he]
    · split at h
      · simp only [Prod.mk.injEq, Option.some.injEq] at h
        obtain ⟨rfl, rfl⟩ := h
        simp [stored, he]
      · split at h
        · simp only [Prod.mk.injEq] at h
          cases h.1
        · simp only [Prod.mk.injEq, Option.some.injEq] at h
          obtain ⟨rfl, rfl⟩ := h
          simp [stored, he]

theorem jsCache_cachedGetBody (env : Env ν) (u : GoString) (w : World ν) :
    (cachedGetBody env u w).2.jsCache = w.jsCache := by
  unfold cachedGetBody
  repeat' split
  all_goals rfl

/-- The cache `htmlCache` after a call of `cachedGetBody`: the call did a `Get`, and on a miss
possibly a `Set` of the URL. -/
theorem htmlCache_cachedGetBody (env : Env ν) (u : GoString) (w : World ν) :
    (cachedGetBody env u w).2.htmlCache = (w.htmlCache.Get u).1 ∨
      ∃ x, (w.htmlCache.Get u).2.2 = false ∧
        (cachedGetBody env u w).2.htmlCache = (w.htmlCache.Get u).1.Set u x := by
  unfold cachedGetBody
  split
  · rename_i c1 e hg
    left
    split <;> simp [hg]
  · rename_i c1 hg
    left
    simp [hg]
  · rename_i c1 o hg
    rw [hg]
    split
    · exact Or.inr ⟨_, rfl, rfl⟩
    · split
      · exact Or.inr ⟨_, rfl, rfl⟩
      · split
        · exact Or.inr ⟨_, rfl, rfl⟩
        · split
          · exact Or.inl rfl
          · exact Or.inr ⟨_, rfl, rfl⟩

theorem Inv_cachedGetBody (env : Env ν) (u : GoString) (w : World ν)
    (hI : lru.Inv w.htmlCache) : lru.Inv (cachedGetBody env u w).2.htmlCache := by
  rcases htmlCache_cachedGetBody env u w with h | ⟨x, _, h⟩
  · rw [h]; exact lru.Inv_Get _ hI u
  · rw [h]; exact lru.Inv_Set _ (lru.Inv_Get _ hI u) u x

/-- An entry of `htmlCache` whose URL is still in the cache after a call of `cachedGetBody` is
unchanged. -/
theorem entry_kept_cachedGetBody (env : Env ν) (u u1 : GoString) (w : World ν)
    (hI : lru.Inv w.htmlCache) (x : htmlCacheEntry) (hx : (u, x) ∈ lru.entries w.htmlCache)
    (hk : u ∈ lru.keys (cachedGetBody env u1 w).2.htmlCache) :
    (u, x) ∈ lru.entries (cachedGetBody env u1 w).2.htmlCache := by
  have h1 := lru.mem_entries_after_Get w.htmlCache hI u1 u x hx
  rcases htmlCache_cachedGetBody env u1 w with h | ⟨y, hm, h⟩
  · rw [h]; exact h1
  · rw [h] at hk ⊢
    have hne : u ≠ u1 := by
      intro e
      subst e
      have := lru.Get_of_mem_entries w.htmlCache hI u x hx
      rw [this] at hm
      cases hm
    exact lru.mem_entries_after_Set _ (lru.Inv_Get _ hI u1) u1 u y x h1 hne hk

theorem runBody_append (env : Env ν) (urls : List GoString) (u : GoString) (w : World ν) :
    runBody env (urls ++ [u]) w = (cachedGetBody env u (runBody env urls w)).2 := by
  simp [runBody, List.foldl_append]

theorem Inv_runBody (env : Env ν) (urls : List GoString) (w : World ν)
    (hI : lru.Inv w.htmlCache) : lru.Inv (runBody env urls w).htmlCache := by
  induction urls using List.reverseRecOn with
  | nil => exact hI
  | append_singleton urls u ih =>
    rw [runBody_append]
    exact Inv_cachedGetBody env u _ ih

/-- An entry of `htmlCache` whose URL stays in the cache through a sequence of calls of
`cachedGetBody` is unchanged at the end. -/
theorem entry_kept_runBody (env : Env ν) (u : GoString) (x : htmlCacheEntry)
    (urls : List GoString) (w : World ν) (hI : lru.Inv w.htmlCache)
    (hx : (u, x) ∈ lru.entries w.htmlCache)
    (hk : ∀ i, u ∈ lru.keys (runBody env (urls.take i) w).htmlCache) :
    (u, x) ∈ lru.entries (runBody env urls w).htmlCache := by
  induction urls using List.reverseRecOn with
  | nil => exact hx
  | append_singleton urls u1 ih =>
    have hk1 : ∀ i, u ∈ lru.keys (runBody env (urls.take i) w).htmlCache := by
      intro i
      have := hk (min i urls.length)
      rw [List.take_append_of_le_length (Nat.min_le_right _ _)] at this
      rw [lru.take_min_length] at this
      exact this
    have hlast := hk (urls ++ [u1]).length
    rw [List.take_length] at hlast
    rw [runBody_append] at hlast ⊢
    exact entry_kept_cachedGetBody env u u1 _ (Inv_runBody env urls w hI) x (ih hk1) hlast

theorem MustString_of_not_string (j : Json) (h : ∀ s, j ≠ Json.string s) : MustString j = [] := by
  cases j with
  | string s => exact absurd rfl (h s)
  | _ => rfl

theorem MustInt_of_not_number (j : Json) (h : ∀ l, j ≠ Json.number l) : MustInt j = 0 := by
  cases j with
  | number l => exact absurd rfl (h l)
  | _ => rfl

theorem TrimSpace_nil : TrimSpace [] = [] := rfl

theorem Sprint_zero : Sprint 0 = ascii "0" := by decide

theorem max_cachedGetBody (env : Env ν) (u : GoString) (w : World ν) :
    (cachedGetBody env u w).2.htmlCache.max = w.htmlCache.max := by
  rcases htmlCache_cachedGetBody env u w with h | ⟨x, _, h⟩
  · rw [h, lru.max_Get]
  · rw [h, lru.max_Set, lru.max_Get]

theorem mem_entries_Set_self {K V : Type} [DecidableEq K] (c : lru.cache K V) (hI : lru.Inv c)
    (hmax : 0 ≤ c.max) (k : K) (v : V) : (k, v) ∈ lru.entries (c.Set k v) := by
  have h := lru.Get_after_Set c hI hmax k v
  obtain ⟨y, hy, hr⟩ := lru.Get_ok (c.Set k v) (lru.Inv_Set c hI k v) k (by rw [h])
  rw [h] at hr
  simp only [Prod.mk.injEq, Option.some.injEq, and_true] at hr
  exact hr ▸ hy

/-- After a miss that returns, `htmlCache` holds what was returned, under the URL. -/
theorem stored_after_miss (env : Env ν) (u : GoString) (w w1 : World ν)
    (r : Except GoString GoString) (hI : lru.Inv w.htmlCache) (hmax : 0 ≤ w.htmlCache.max)
    (hm : (w.htmlCache.Get u).2.2 = false) (h : cachedGetBody env u w = (some r, w1)) :
    (u, stored r) ∈ lru.entries w1.htmlCache := by
  rw [cachedGetBody_miss env u w w1 r hm h]
  exact mem_entries_Set_self _ hI hmax u _

/-- A call of `cachedGetBody` that returns is answered in the same way when it is repeated. -/
theorem cachedGetBody_again (env : Env ν) (u : GoString) (w w1 : World ν)
    (r : Except GoString GoString) (hI : lru.Inv w.htmlCache) (hmax : 0 ≤ w.htmlCache.max)
    (h : cachedGetBody env u w = (some r, w1)) : (cachedGetBody env u w1).1 = some r := by
  have hI1 : lru.Inv w1.htmlCache := by
    have := Inv_cachedGetBody env u w hI
    rw [h] at this
    exact this
  cases hg : (w.htmlCache.Get u).2.2 with
  | false =>
    rw [cachedGetBody_hit env u w1 hI1 (stored r) (stored_after_miss env u w w1 r hI hmax hg h),
      served_stored]
  | true =>
    obtain ⟨x, hx, _⟩ := lru.Get_ok w.htmlCache hI u hg
    rw [cachedGetBody_hit env u w hI x hx] at h
    simp only [Prod.mk.injEq, Option.some.injEq] at h
    have hx1 : (u, x) ∈ lru.entries w1.htmlCache := by
      rw [← h.2]
      exact lru.mem_entries_after_Get w.htmlCache hI u u x hx
    rw [cachedGetBody_hit env u w1 hI1 x hx1, h.1]

theorem GoodWorld_cachedGetBody (env : Env ν) (u : GoString) (w : World ν) (hG : GoodWorld w) :
    GoodWorld (cachedGetBody env u w).2 := by
  refine ⟨Inv_cachedGetBody env u w hG.1, ?_, ?_, ?_⟩
  · rw [max_cachedGetBody]; exact hG.2.1
  · rw [jsCache_cachedGetBody]; exact hG.2.2.1
  · rw [jsCache_cachedGetBody]; exact hG.2.2.2

/-- `cachedGetJson` on a hit of `jsCache`. -/
theorem cachedGetJson_hit (env : Env ν) (appid : GoString) (rest : List GoString) (w : World ν)
    (hI : lru.Inv w.jsCache) (js : Json) (hx : (appid, js) ∈ lru.entries w.jsCache) :
    cachedGetJson env (appid :: rest) w =
      (some (Except.ok js), { w with jsCache := (w.jsCache.Get appid).1 }) := by
  have h := lru.Get_of_mem_entries w.jsCache hI appid js hx
  have h2 : w.jsCache.Get appid = ((w.jsCache.Get appid).1, some js, true) := by
    rw [← h]
  unfold cachedGetJson
  simp only
  rw [h2]

/-- `cachedGetJson` on a miss of `jsCache`. -/
theorem cachedGetJson_miss (env : Env ν) (appid : GoString) (rest : List GoString) (w : World ν)
    (hm : (w.jsCache.Get appid).2.2 = false) :
    cachedGetJson env (appid :: rest) w =
      match cachedGetBody env (playstoreAppURL ++ QueryEscape appid) w with
      | (none, w1) => (none, w1)
      | (some (Except.error err), w1) => (some (Except.error err), w1)
      | (some (Except.ok content), w1) =>
        match findPayload appid ((Split content (ascii "AF_initDataCallback(\x7b")).drop 1) with
        | none => (none, w1)
        | some arrString =>
          match env.NewJson arrString with
          | Except.error err => (some (Except.error err), w1)
          | Except.ok js =>
            (some (Except.ok js), { w1 with jsCache := w1.jsCache.Set appid js }) := by
  have h2 := lru.Get_not_ok w.jsCache appid hm
  unfold cachedGetJson
  simp only
  rw [h2]

/-- A call of `cachedGetJson` that returns leaves a world in which the same call returns the
same. -/
theorem cachedGetJson_again (env : Env ν) (params : List GoString) (w w1 : World ν)
    (x : Except GoString Json) (hG : GoodWorld w)
    (h : cachedGetJson env params w = (some x, w1)) :
    GoodWorld w1 ∧ (cachedGetJson env params w1).1 = some x := by
  cases params with
  | nil => simp [cachedGetJson] at h
  | cons appid rest =>
    cases hg : (w.jsCache.Get appid).2.2 with
    | true =>
      obtain ⟨js, hx, _⟩ := lru.Get_ok w.jsCache hG.2.2.1 appid hg
      rw [cachedGetJson_hit env appid rest w hG.2.2.1 js hx] at h
      simp only [Prod.mk.injEq, Option.some.injEq] at h
      obtain ⟨h1, h2⟩ := h
      subst h2
      have hI1 : lru.Inv (w.jsCache.Get appid).1 := lru.Inv_Get _ hG.2.2.1 appid
      refine ⟨⟨hG.1, hG.2.1, hI1, by rw [lru.max_Get]; exact hG.2.2.2⟩, ?_⟩
      rw [cachedGetJson_hit env appid rest _ hI1 js
        (lru.mem_entries_after_Get w.jsCache hG.2.2.1 appid appid js hx), h1]
    | false =>
      rw [cachedGetJson_miss env appid rest w hg] at h
      have hGb := GoodWorld_cachedGetBody env (playstoreAppURL ++ QueryEscape appid) w hG
      have hjs := jsCache_cachedGetBody env (playstoreAppURL ++ QueryEscape appid) w
      cases hb : cachedGetBody env (playstoreAppURL ++ QueryEscape appid) w with
      | mk ob w2 =>
        rw [hb] at h hGb hjs
        simp only at hGb hjs
        have hm2 : (w2.jsCache.Get appid).2.2 = false := by rw [hjs]; exact hg
        cases ob with
        | none => simp at h
        | some r =>
          have hagain := cachedGetBody_again env _ w w2 r hG.1 hG.2.1 hb
          cases r with
          | error err =>
            simp only [Prod.mk.injEq, Option.some.injEq] at h
            obtain ⟨h1, h2⟩ := h
            subst h2
            refine ⟨hGb, ?_⟩
            rw [cachedGetJson_miss env appid rest w2 hm2]
            cases hb2 : cachedGetBody env (playstoreAppURL ++ QueryEscape appid) w2 with
            | mk ob2 w3 =>
              rw [hb2] at hagain
              simp only at hagain
              subst hagain
              simp only
              rw [h1]
          | ok content =>
            simp only at h
            cases hf : findPayload appid
                ((Split content (ascii "AF_initDataCallback(\x7b")).drop 1) with
            | none => rw [hf] at h; simp at h
            | some arrString =>
              rw [hf] at h
              simp only at h
              cases hn : env.NewJson arrString with
              | error err =>
                rw [hn] at h
                simp only [Prod.mk.injEq, Option.some.injEq] at h
                obtain ⟨h1, h2⟩ := h
                subst h2
                refine ⟨hGb, ?_⟩
                rw [cachedGetJson_miss env appid rest w2 hm2]
                cases hb2 : cachedGetBody env (playstoreAppURL ++ QueryEscape appid) w2 with
                | mk ob2 w3 =>
                  rw [hb2] at hagain
                  simp only at hagain
                  subst hagain
                  simp only [hf, hn]
                  rw [h1]
              | ok js =>
                rw [hn] at h
                simp only [Prod.mk.injEq, Option.some.injEq] at h
                obtain ⟨h1, h2⟩ := h
                subst h2
                have hI2 : lru.Inv (w2.jsCache.Set appid js) := lru.Inv_Set _ hGb.2.2.1 appid js
                refine ⟨⟨hGb.1, hGb.2.1, hI2, by rw [lru.max_Set]; exact hGb.2.2.2⟩, ?_⟩
                rw [cachedGetJson_hit env appid rest _ hI2 js
                  (mem_entries_Set_self _ hGb.2.2.1 hGb.2.2.2 appid js), h1]

/-- A resolver of the three that returns has got an answer from `cachedGetJson`, and leaves the
world that `cachedGetJson` leaves. -/
theorem resolver_returns (env : Env ν) (name : GoString) (params : List GoString)
    (w w1 : World ν) (r : GoString × error) :
    (playStoreGetVersion env name params w = (some r, w1) →
      ∃ x, cachedGetJson env params w = (some x, w1)) ∧
    (playStoreGetInstalls env name params w = (some r, w1) →
      ∃ x, cachedGetJson env params w = (some x, w1)) ∧
    (playStoreGetTargetSdk env name params w = (some r, w1) →
      ∃ x, cachedGetJson env params w = (some x, w1)) := by
  refine ⟨?_, ?_, ?_⟩
  · intro h
    unfold playStoreGetVersion at h
    cases hc : cachedGetJson env params w with
    | mk o w2 =>
      rw [hc] at h
      cases o with
      | none => simp at h
      | some x =>
        cases x with
        | error err =>
          simp only [Prod.mk.injEq] at h
          exact ⟨_, by rw [h.2]⟩
        | ok js =>
          simp only at h
          split at h
          · simp only [Prod.mk.injEq] at h
            exact ⟨_, by rw [h.2]⟩
          · simp only [Prod.mk.injEq] at h
            exact ⟨_, by rw [h.2]⟩
  · intro h
    unfold playStoreGetInstalls at h
    cases hc : cachedGetJson env params w with
    | mk o w2 =>
      rw [hc] at h
      cases o with
      | none => simp at h
      | some x =>
        cases x with
        | error err =>
          simp only [Prod.mk.injEq] at h
          exact ⟨_, by rw [h.2]⟩
        | ok js =>
          simp only [Prod.mk.injEq] at h
          exact ⟨_, by rw [h.2]⟩
  · intro h
    unfold playStoreGetTargetSdk at h
    cases hc : cachedGetJson env params w with
    | mk o w2 =>
      rw [hc] at h
      cases o with
      | none => simp at h
      | some x =>
        cases x with
        | error err =>
          simp only [Prod.mk.injEq] at h
          exact ⟨_, by rw [h.2]⟩
        | ok js =>
          simp only [Prod.mk.injEq] at h
          exact ⟨_, by rw [h.2]⟩

/-- What a resolver of the three answers depends on the world through the answer of
`cachedGetJson` only. -/
theorem resolver_congr (env : Env ν) (name : GoString) (params : List GoString)
    (w w1 : World ν) (h : (cachedGetJson env params w).1 = (cachedGetJson env params w1).1) :
    (playStoreGetVersion env name params w).1 = (playStoreGetVersion env name params w1).1 ∧
    (playStoreGetInstalls env name params w).1 = (playStoreGetInstalls env name params w1).1 ∧
    (playStoreGetTargetSdk env name params w).1 =
      (playStoreGetTargetSdk env name params w1).1 := by
  unfold playStoreGetVersion playStoreGetInstalls playStoreGetTargetSdk
  cases hc : cachedGetJson env params w with
  | mk o w2 =>
    cases hc1 : cachedGetJson env params w1 with
    | mk o1 w3 =>
      rw [hc, hc1] at h
      simp only at h
      subst h
      cases o with
      | none => exact ⟨rfl, rfl, rfl⟩
      | some x =>
        cases x with
        | error err => exact ⟨rfl, rfl, rfl⟩
        | ok js =>
          refine ⟨?_, rfl, rfl⟩
          simp only
          split <;> rfl

/-- The resolvers of the three are independent on the worlds that the process reaches: each
reads the document through `cachedGetJson`, which answers a repeated call in the same way. -/
theorem modelledPlaceHolders_independent (env : Env ν) (params : List GoString) :
    Independent GoodWorld params (modelledPlaceHolders env) := by
  intro b hb w r w1 hG hr
  have hx : ∃ x, cachedGetJson env params w = (some x, w1) := by
    simp only [modelledPlaceHolders, List.mem_cons, List.mem_singleton, List.not_mem_nil,
      or_false] at hb
    rcases hb with rfl | rfl | rfl
    · exact (resolver_returns env (ascii "$version") params w w1 r).1 hr
    · exact (resolver_returns env (ascii "$installs") params w w1 r).2.1 hr
    · exact (resolver_returns env (ascii "$targetsdk") params w w1 r).2.2 hr
  obtain ⟨x, hx⟩ := hx
  obtain ⟨hG1, hagain⟩ := cachedGetJson_again env params w w1 x hG hx
  refine ⟨hG1, ?_⟩
  intro a ha _
  have hc : (cachedGetJson env params w1).1 = (cachedGetJson env params w).1 := by
    rw [hagain, hx]
  simp only [modelledPlaceHolders, List.mem_cons, List.mem_singleton, List.not_mem_nil,
    or_false] at ha
  rcases ha with rfl | rfl | rfl
  · exact (resolver_congr env (ascii "$version") params w1 w hc).1
  · exact (resolver_congr env (ascii "$installs") params w1 w hc).2.1
  · exact (resolver_congr env (ascii "$targetsdk") params w1 w hc).2.2

end fetch

theorem GoodWorld_worldWithDoc (appid : GoString) (js : Json) :
    GoodWorld (worldWithDoc appid js) :=
  ⟨lru.Inv_New 500, by simp [worldWithDoc, lru.New], lru.Inv_Set _ (lru.Inv_New 500) appid js,
    by simp [worldWithDoc, lru.max_Set, lru.New]⟩

theorem GoodWorld_freshWorld : GoodWorld freshWorld :=
  ⟨lru.Inv_New 500, by decide, lru.Inv_New 500, by decide⟩

end playshields
namespace playshields

section order
variable {σ : Type}

theorem IsToken_ne_nil (t : GoString) (h : IsToken t) : t ≠ [] := by
  obtain ⟨body, e, -⟩ := h
  rw [e]
  exact List.cons_ne_nil _ _

theorem IsToken_mem (t : GoString) (h : IsToken t) : (0x24 : Fin 256) ∈ t := by
  obtain ⟨body, e, -⟩ := h
  rw [e]
  exact List.mem_cons_self _ _

/-- No instance of a token starts inside a text without `$`. -/
theorem infix_past_text (t p x : GoString) (ht : IsToken t) (hp : (0x24 : Fin 256) ∉ p)
    (h : t <:+: p ++ x) : t <:+: x := by
  obtain ⟨body, e, -⟩ := ht
  induction p with
  | nil => exact h
  | cons b p ih =>
    rw [List.cons_append] at h
    rcases List.infix_cons_iff.1 h with hpre | hin
    · rw [e, List.cons_prefix_cons] at hpre
      exact absurd (hpre.1 ▸ List.mem_cons_self _ _) hp
    · exact ih (fun hm => hp (List.mem_cons_of_mem _ hm)) hin

/-- No instance of a token starts inside another token, when neither is a prefix of the
other. -/
theorem infix_past_token (t q x : GoString) (ht : IsToken t) (hq : IsToken q)
    (h1 : ¬ t <+: q) (h2 : ¬ q <+: t) (h : t <:+: q ++ x) : t <:+: x := by
  obtain ⟨body, e, hb⟩ := hq
  subst e
  rw [List.cons_append] at h
  rcases List.infix_cons_iff.1 h with hpre | hin
  · rcases List.prefix_or_prefix_of_prefix hpre (List.prefix_append (0x24 :: body) x) with c | c
    · exact absurd c h1
    · exact absurd c h2
  · exact infix_past_text t body x ht hb hin

/-- A token is replaced behind another token, when neither is a prefix of the other. -/
theorem ReplaceAll_past_token (t q x v : GoString) (ht : IsToken t) (hq : IsToken q)
    (h1 : ¬ t <+: q) (h2 : ¬ q <+: t) :
    ReplaceAll (q ++ x) t v = q ++ ReplaceAll x t v := by
  obtain ⟨body, e, hb⟩ := hq
  subst e
  have hpre : ¬ t <+: (0x24 : Fin 256) :: (body ++ x) := by
    intro hpre
    rcases List.prefix_or_prefix_of_prefix hpre (List.prefix_append (0x24 :: body) x) with c | c
    · exact h1 c
    · exact h2 c
  obtain ⟨tb, e, -⟩ := ht
  subst e
  rw [List.cons_append, ReplaceAll_cons _ _ _ _ (List.cons_ne_nil _ _) hpre,
    ReplaceAll_skip body x 0x24 tb v (fun b hb1 e => hb (e ▸ hb1)), List.cons_append]

/-- Replacement of a token in a working string made of pieces, each a text without `$`, the
token itself, or a token that is no prefix of it and of which it is no prefix: the pieces that
are the token are replaced. -/
theorem ReplaceAll_flatten (t v : GoString) (ht : IsToken t) (W : List GoString)
    (hW : ∀ p ∈ W, (0x24 : Fin 256) ∉ p ∨ p = t ∨ (IsToken p ∧ ¬ t <+: p ∧ ¬ p <+: t)) :
    ReplaceAll W.flatten t v = (W.map (fun p => if p = t then v else p)).flatten := by
  induction W with
  | nil => exact ReplaceAll_nil t v (IsToken_ne_nil t ht)
  | cons p W ih =>
    have ih1 := ih (fun q hq => hW q (List.mem_cons_of_mem _ hq))
    rw [List.flatten_cons, List.map_cons, List.flatten_cons]
    rcases hW p (List.mem_cons_self _ _) with h | h | ⟨h, h1, h2⟩
    · have hne : p ≠ t := fun e => h (e ▸ IsToken_mem t ht)
      obtain ⟨tb, e, -⟩ := ht
      subst e
      rw [ReplaceAll_skip p _ 0x24 tb v (fun b hb e => h (e ▸ hb)), if_neg hne, ih1]
    · rw [h, if_pos rfl, ReplaceAll_at_instance t v _ (IsToken_ne_nil t ht), ih1]
    · have hne : p ≠ t := fun e => h1 (e ▸ List.prefix_refl _)
      rw [ReplaceAll_past_token t p _ v ht h h1 h2, if_neg hne, ih1]

/-- A token occurs in such a working string exactly when it is one of the pieces. -/
theorem infix_flatten_iff (t : GoString) (ht : IsToken t) (W : List GoString)
    (hW : ∀ p ∈ W, (0x24 : Fin 256) ∉ p ∨ p = t ∨ (IsToken p ∧ ¬ t <+: p ∧ ¬ p <+: t)) :
    t <:+: W.flatten ↔ t ∈ W := by
  constructor
  · intro h
    induction W with
    | nil =>
      rw [List.flatten_nil] at h
      exact absurd (List.eq_nil_of_infix_nil h) (IsToken_ne_nil t ht)
    | cons p W ih =>
      have ih1 := ih (fun q hq => hW q (List.mem_cons_of_mem _ hq))
      rw [List.flatten_cons] at h
      rcases hW p (List.mem_cons_self _ _) with hp | hp | ⟨hp, h1, h2⟩
      · exact List.mem_cons_of_mem _ (ih1 (infix_past_text t p _ ht hp h))
      · rw [hp]; exact List.mem_cons_self _ _
      · exact List.mem_cons_of_mem _ (ih1 (infix_past_token t p _ ht hp h1 h2 h))
  · exact List.infix_of_mem_flatten

theorem not_mem_cut (v : GoString) (h : (0x24 : Fin 256) ∉ v) :
    (0x24 : Fin 256) ∉ (if v.length > 1000 then v.take 1000 else v) := by
  split
  · exact fun hm => h (List.mem_of_mem_take hm)
  · exact h

/-- The pieces of a working string as the round of one token of a prefix-free set of tokens
needs them. -/
theorem pieces_for_token (T : GoString → Prop) (hT1 : ∀ t, T t → IsToken t)
    (hT2 : ∀ a b, T a → T b → a <+: b → a = b) (t : GoString) (ht : T t) (W : List GoString)
    (hW : ∀ p ∈ W, T p ∨ (0x24 : Fin 256) ∉ p) :
    ∀ p ∈ W, (0x24 : Fin 256) ∉ p ∨ p = t ∨ (IsToken p ∧ ¬ t <+: p ∧ ¬ p <+: t) := by
  intro p hp
  rcases hW p hp with h | h
  · by_cases e : p = t
    · exact Or.inr (Or.inl e)
    · exact Or.inr (Or.inr ⟨hT1 p h, fun c => e (hT2 t p ht h c).symm, fun c => e (hT2 p t h ht c)⟩)
  · exact Or.inl h

theorem pieceAfter_valid (T : GoString → Prop) (t : GoString) (r : GoString × error)
    (hr : r.2 = none → (0x24 : Fin 256) ∉ r.1) (W : List GoString)
    (hW : ∀ p ∈ W, T p ∨ (0x24 : Fin 256) ∉ p) :
    ∀ p ∈ W.map (pieceAfter t r), T p ∨ (0x24 : Fin 256) ∉ p := by
  intro p hp
  obtain ⟨q, hq, e⟩ := List.mem_map.1 hp
  subst e
  unfold pieceAfter
  split
  · rename_i c
    exact Or.inr (not_mem_cut r.1 (hr c.2))
  · exact hW q hq

theorem pieceAfter_of_ne (t : GoString) (r : GoString × error) (p : GoString) (h : p ≠ t) :
    pieceAfter t r p = p := by
  simp [pieceAfter, h]

theorem pieceAfter_ne_token (t q : GoString) (hq : IsToken q) (r : GoString × error)
    (hr : r.2 = none → (0x24 : Fin 256) ∉ r.1) (p : GoString) (h : p ≠ q) :
    pieceAfter t r p ≠ q := by
  unfold pieceAfter
  split
  · rename_i c
    intro e
    exact not_mem_cut r.1 (hr c.2) (e ▸ IsToken_mem q hq)
  · exact h

/-- The rounds of two distinct tokens act on different pieces. -/
theorem pieceAfter_comm (t q : GoString) (ht : IsToken t) (hq : IsToken q) (hne : t ≠ q)
    (r u : GoString × error) (hr : r.2 = none → (0x24 : Fin 256) ∉ r.1)
    (hu : u.2 = none → (0x24 : Fin 256) ∉ u.1) (p : GoString) :
    pieceAfter t r (pieceAfter q u p) = pieceAfter q u (pieceAfter t r p) := by
  by_cases hp : p = q
  · have h1 : p ≠ t := fun c => hne (c.symm.trans hp)
    rw [pieceAfter_of_ne t r p h1,
      pieceAfter_of_ne t r _ (pieceAfter_ne_token q t ht u hu p h1)]
  · rw [pieceAfter_of_ne q u p hp,
      pieceAfter_of_ne q u _ (pieceAfter_ne_token t q hq r hr p hp)]

theorem mem_map_pieceAfter (t q : GoString) (hq : IsToken q) (hne : t ≠ q)
    (r : GoString × error) (hr : r.2 = none → (0x24 : Fin 256) ∉ r.1) (W : List GoString) :
    q ∈ W.map (pieceAfter t r) ↔ q ∈ W := by
  constructor
  · intro h
    obtain ⟨p, hp, e⟩ := List.mem_map.1 h
    by_cases c : p = q
    · exact c ▸ hp
    · exact absurd e (pieceAfter_ne_token t q hq r hr p c)
  · intro h
    exact List.mem_map.2 ⟨q, h, pieceAfter_of_ne t r q (fun c => hne c.symm)⟩

theorem combineErrors_eq_none (errorArr : List error) :
    (combineErrors errorArr).2 = none ↔ errorArr = [] := by
  cases errorArr with
  | nil => simp [combineErrors]
  | cons a l => simp [combineErrors]

theorem IsToken_cons (body : GoString) (h : (0x24 : Fin 256) ∉ body) :
    IsToken (0x24 :: body) :=
  ⟨body, rfl, h⟩

/-- One round of the loop on a working string made of pieces. -/
theorem replacePlaceHolderOrPanic_pieces (params : List GoString)
    (kv : GoString × placeHolderOrPanic σ) (hk : IsToken kv.1) (W : List GoString)
    (hW : ∀ p ∈ W, (0x24 : Fin 256) ∉ p ∨ p = kv.1 ∨ (IsToken p ∧ ¬ kv.1 <+: p ∧ ¬ p <+: kv.1))
    (e : List error) (w : σ) :
    replacePlaceHolderOrPanic e W.flatten kv.1 kv.2.placeHolderGetter params w =
      if kv.1 ∈ W then
        match kv.2.placeHolderGetter kv.1 params w with
        | (none, w1) => (none, w1)
        | (some (value, err), w1) =>
          if err ≠ none then (some (W.flatten, e ++ [err]), w1)
          else (some ((W.map (pieceAfter kv.1 (value, err))).flatten, e), w1)
      else (some (W.flatten, e), w) := by
  unfold replacePlaceHolderOrPanic
  by_cases hin : kv.1 ∈ W
  · have hc : Contains W.flatten kv.1 = true :=
      (Contains_iff _ _).2 ((infix_flatten_iff kv.1 hk W hW).2 hin)
    rw [if_pos hc, if_pos hin]
    cases hf : kv.2.placeHolderGetter kv.1 params w with
    | mk out w1 =>
      cases out with
      | none => rfl
      | some r =>
        obtain ⟨value, err⟩ := r
        cases err with
        | some msg => simp
        | none =>
          have hp : (fun p => if p = kv.1 then
              (if value.length > 1000 then value.take 1000 else value) else p) =
              pieceAfter kv.1 (value, none) := by
            funext p
            simp [pieceAfter]
          simp only [ne_eq, not_true_eq_false, if_false]
          rw [ReplaceAll_flatten kv.1 _ hk W hW, hp]
  · have hc : ¬ Contains W.flatten kv.1 = true := fun h =>
      hin ((infix_flatten_iff kv.1 hk W hW).1 ((Contains_iff _ _).1 h))
    rw [if_neg hc, if_neg hin]

theorem map_pieceAfter_of_not_mem (t : GoString) (r : GoString × error) (W : List GoString)
    (h : t ∉ W) : W.map (pieceAfter t r) = W := by
  have : W.map (pieceAfter t r) = W.map id := by
    apply List.map_congr_left
    intro p hp
    exact pieceAfter_of_ne t r p (fun c => h (c ▸ hp))
  rw [this, List.map_id]

theorem map_pieceAfter_of_failed (t v err : GoString) (W : List GoString) :
    W.map (pieceAfter t (v, some err)) = W := by
  have : pieceAfter t (v, some err) = id := by
    funext p
    simp [pieceAfter]
  rw [this, List.map_id]

theorem Independent_tail (S : σ → Prop) (params : List GoString)
    (kv : GoString × placeHolderOrPanic σ) (rest : List (GoString × placeHolderOrPanic σ))
    (h : Independent S params (kv :: rest)) : Independent S params rest := by
  intro b hb w r w1 hS hr
  obtain ⟨h1, h2⟩ := h b (List.mem_cons_of_mem _ hb) w r w1 hS hr
  exact ⟨h1, fun a ha hne => h2 a (List.mem_cons_of_mem _ ha) hne⟩

theorem piecesAfter_cons (o : GoString × placeHolderOrPanic σ → Option (GoString × error))
    (kv : GoString × placeHolderOrPanic σ) (rest : List (GoString × placeHolderOrPanic σ))
    (W : List GoString) :
    piecesAfter o (kv :: rest) W =
      piecesAfter o rest (W.map (pieceAfter kv.1 ((o kv).getD ([], none)))) := rfl

theorem rangeOrPanic_cons (params : List GoString) (kv : GoString × placeHolderOrPanic σ)
    (rest : List (GoString × placeHolderOrPanic σ)) (acc : GoString × List error) (w : σ) :
    rangeOrPanic params (kv :: rest) acc w =
      match replacePlaceHolderOrPanic acc.2 acc.1 kv.1 kv.2.placeHolderGetter params w with
      | (none, w1) => (none, w1)
      | (some acc1, w1) => rangeOrPanic params rest acc1 w1 := rfl

/-- The loop over the entries of a registry, in any order, on a working string made of pieces,
when the resolvers are independent and every resolver answers `o` in the state at the start: it
panics exactly when the resolver of a token among the pieces panics, and else the pieces that are
tokens with a successful resolver have become the values, and the error slice has stayed empty
exactly when it was empty and no resolver of a token among the pieces failed. -/
theorem rangeOrPanic_pieces (T : GoString → Prop) (hT1 : ∀ t, T t → IsToken t)
    (hT2 : ∀ a b, T a → T b → a <+: b → a = b) (S : σ → Prop) (params : List GoString)
    (o : GoString × placeHolderOrPanic σ → Option (GoString × error))
    (l : List (GoString × placeHolderOrPanic σ)) (hl : ∀ kv ∈ l, T kv.1)
    (hnd : (l.map Prod.fst).Nodup) (hind : Independent S params l)
    (hval : ∀ kv ∈ l, ∀ v, o kv = some (v, none) → (0x24 : Fin 256) ∉ v)
    (W : List GoString) (hW : ∀ p ∈ W, T p ∨ (0x24 : Fin 256) ∉ p) (e : List error) (w : σ)
    (hS : S w) (ho : ∀ kv ∈ l, (kv.2.placeHolderGetter kv.1 params w).1 = o kv) :
    ((rangeOrPanic params l (W.flatten, e) w).1 = none ↔ ∃ kv ∈ l, kv.1 ∈ W ∧ o kv = none) ∧
      ∀ s1 e1, (rangeOrPanic params l (W.flatten, e) w).1 = some (s1, e1) →
        s1 = (piecesAfter o l W).flatten ∧
          (e1 = [] ↔ e = [] ∧ ∀ kv ∈ l, kv.1 ∈ W → ∀ v err, o kv ≠ some (v, some err)) := by
  induction l generalizing W e w with
  | nil =>
    refine ⟨?_, ?_⟩
    · simp [rangeOrPanic]
    intro s1 e1 h
    simp only [rangeOrPanic, Option.some.injEq, Prod.mk.injEq] at h
    refine ⟨h.1.symm, ?_⟩
    rw [← h.2]
    exact ⟨fun c => ⟨c, fun _ hkv => by cases hkv⟩, fun c => c.1⟩
  | cons kv rest ih =>
    have hk : T kv.1 := hl kv (List.mem_cons_self _ _)
    have hl1 : ∀ kv1 ∈ rest, T kv1.1 := fun kv1 h => hl kv1 (List.mem_cons_of_mem _ h)
    rw [List.map_cons, List.nodup_cons] at hnd
    have hne : ∀ kv1 ∈ rest, kv.1 ≠ kv1.1 := fun kv1 h c =>
      hnd.1 (c ▸ List.mem_map_of_mem Prod.fst h)
    have hind1 := Independent_tail S params kv rest hind
    have hval1 : ∀ kv1 ∈ rest, ∀ v, o kv1 = some (v, none) → (0x24 : Fin 256) ∉ v :=
      fun kv1 h => hval kv1 (List.mem_cons_of_mem _ h)
    have ho1 : ∀ kv1 ∈ rest, (kv1.2.placeHolderGetter kv1.1 params w).1 = o kv1 :=
      fun kv1 h => ho kv1 (List.mem_cons_of_mem _ h)
    rw [rangeOrPanic_cons]
    simp only
    rw [replacePlaceHolderOrPanic_pieces params kv (hT1 _ hk) W
      (pieces_for_token T hT1 hT2 kv.1 hk W hW) e w, piecesAfter_cons]
    by_cases hin : kv.1 ∈ W
    · rw [if_pos hin]
      have hokv := ho kv (List.mem_cons_self _ _)
      cases hf : kv.2.placeHolderGetter kv.1 params w with
      | mk out w1 =>
        rw [hf] at hokv
        simp only at hokv
        cases out with
        | none =>
          exact ⟨⟨fun _ => ⟨kv, List.mem_cons_self _ _, hin, hokv.symm⟩, fun _ => rfl⟩,
            fun s1 e1 h => by simp at h⟩
        | some r =>
          obtain ⟨value, err⟩ := r
          obtain ⟨hS1, hkeep⟩ := hind kv (List.mem_cons_self _ _) w (value, err) w1 hS hf
          have ho2 : ∀ kv1 ∈ rest, (kv1.2.placeHolderGetter kv1.1 params w1).1 = o kv1 := by
            intro kv1 h
            rw [hkeep kv1 (List.mem_cons_of_mem _ h) (fun c => hne kv1 h c.symm)]
            exact ho1 kv1 h
          simp only
          cases err with
          | some msg =>
            rw [if_pos (by simp), ← hokv]
            simp only [Option.getD_some]
            rw [map_pieceAfter_of_failed]
            obtain ⟨i1, i2⟩ := ih hl1 hnd.2 hind1 hval1 W hW (e ++ [some msg]) w1 hS1 ho2
            refine ⟨?_, ?_⟩
            · rw [i1]
              constructor
              · rintro ⟨kv1, h1, h2⟩
                exact ⟨kv1, List.mem_cons_of_mem _ h1, h2⟩
              · rintro ⟨kv1, h1, h2⟩
                rcases List.mem_cons.1 h1 with c | c
                · rw [c, ← hokv] at h2
                  cases h2.2
                · exact ⟨kv1, c, h2⟩
            · intro s1 e1 h
              obtain ⟨j1, j2⟩ := i2 s1 e1 h
              refine ⟨j1, ?_⟩
              rw [j2]
              constructor
              · intro c
                simp at c
              · intro c
                exact absurd hokv.symm (c.2 kv (List.mem_cons_self _ _) hin value msg)
          | none =>
            rw [if_neg (by simp), ← hokv]
            simp only [Option.getD_some]
            have hv : (0x24 : Fin 256) ∉ value := hval kv (List.mem_cons_self _ _) value hokv.symm
            have hW1 := pieceAfter_valid T kv.1 (value, none) (fun _ => hv) W hW
            obtain ⟨i1, i2⟩ := ih hl1 hnd.2 hind1 hval1 _ hW1 e w1 hS1 ho2
            have hmem : ∀ kv1 ∈ rest,
                (kv1.1 ∈ W.map (pieceAfter kv.1 (value, none)) ↔ kv1.1 ∈ W) :=
              fun kv1 h => mem_map_pieceAfter kv.1 kv1.1 (hT1 _ (hl1 kv1 h)) (hne kv1 h)
                (value, none) (fun _ => hv) W
            refine ⟨?_, ?_⟩
            · rw [i1]
              constructor
              · rintro ⟨kv1, h1, h2, h3⟩
                exact ⟨kv1, List.mem_cons_of_mem _ h1, (hmem kv1 h1).1 h2, h3⟩
              · rintro ⟨kv1, h1, h2, h3⟩
                rcases List.mem_cons.1 h1 with c | c
                · rw [c, ← hokv] at h3
                  cases h3
                · exact ⟨kv1, c, (hmem kv1 c).2 h2, h3⟩
            · intro s1 e1 h
              obtain ⟨j1, j2⟩ := i2 s1 e1 h
              refine ⟨j1, ?_⟩
              rw [j2]
              constructor
              · rintro ⟨c1, c2⟩
                refine ⟨c1, ?_⟩
                intro kv1 h1 h2 v err
                rcases List.mem_cons.1 h1 with c | c
                · rw [c, ← hokv]
                  simp
                · exact c2 kv1 c ((hmem kv1 c).2 h2) v err
              · rintro ⟨c1, c2⟩
                exact ⟨c1, fun kv1 h1 h2 =>
                  c2 kv1 (List.mem_cons_of_mem _ h1) ((hmem kv1 h1).1 h2)⟩
    · rw [if_neg hin, map_pieceAfter_of_not_mem kv.1 _ W hin]
      simp only
      obtain ⟨i1, i2⟩ := ih hl1 hnd.2 hind1 hval1 W hW e w hS ho1
      refine ⟨?_, ?_⟩
      · rw [i1]
        constructor
        · rintro ⟨kv1, h1, h2⟩
          exact ⟨kv1, List.mem_cons_of_mem _ h1, h2⟩
        · rintro ⟨kv1, h1, h2⟩
          rcases List.mem_cons.1 h1 with c | c
          · exact absurd (c ▸ h2.1) hin
          · exact ⟨kv1, c, h2⟩
      · intro s1 e1 h
        obtain ⟨j1, j2⟩ := i2 s1 e1 h
        refine ⟨j1, ?_⟩
        rw [j2]
        constructor
        · rintro ⟨c1, c2⟩
          refine ⟨c1, ?_⟩
          intro kv1 h1 h2
          rcases List.mem_cons.1 h1 with c | c
          · exact absurd (c ▸ h2) hin
          · exact c2 kv1 c h2
        · rintro ⟨c1, c2⟩
          exact ⟨c1, fun kv1 h1 h2 => c2 kv1 (List.mem_cons_of_mem _ h1) h2⟩

theorem getD_value_plain (o : Option (GoString × error))
    (h : ∀ v, o = some (v, none) → (0x24 : Fin 256) ∉ v) :
    (o.getD ([], none)).2 = none → (0x24 : Fin 256) ∉ (o.getD ([], none)).1 := by
  cases o with
  | none => intro _; simp
  | some r =>
    obtain ⟨v, err⟩ := r
    intro he
    simp only [Option.getD_some] at he ⊢
    subst he
    exact h v rfl

/-- The pieces after the rounds of all entries do not depend on the order of the rounds. -/
theorem piecesAfter_perm (o : GoString × placeHolderOrPanic σ → Option (GoString × error))
    (reg reg1 : List (GoString × placeHolderOrPanic σ)) (hperm : reg.Perm reg1)
    (hkeys : (reg.map Prod.fst).Nodup) (htok : ∀ kv ∈ reg, IsToken kv.1)
    (hval : ∀ kv ∈ reg, ∀ v, o kv = some (v, none) → (0x24 : Fin 256) ∉ v)
    (W : List GoString) : piecesAfter o reg W = piecesAfter o reg1 W := by
  unfold piecesAfter
  apply List.Perm.foldl_eq' hperm
  intro x hx y hy Z
  by_cases hxy : x.1 = y.1
  · rw [List.inj_on_of_nodup_map hkeys hx hy hxy]
  · rw [List.map_map, List.map_map]
    apply List.map_congr_left
    intro p _
    exact pieceAfter_comm y.1 x.1 (htok y hy) (htok x hx) (fun c => hxy c.symm) _ _
      (getD_value_plain (o y) (hval y hy)) (getD_value_plain (o x) (hval x hx)) p

theorem replacePlaceHoldersOrPanic_range (s : GoString)
    (reg : List (GoString × placeHolderOrPanic σ)) (params : List GoString) (w : σ) :
    replacePlaceHoldersOrPanic s reg params w =
      match rangeOrPanic params reg (ReplaceAll s dollarDollar escapeDollar, []) w with
      | (none, w1) => (none, w1)
      | (some (s1, errorArr), w1) =>
        (some (ReplaceAll s1 escapeDollar dollarDollar, (combineErrors errorArr).2), w1) := rfl

/-- What `replacePlaceHolders` returns for a template made of pieces and a registry of
independent resolvers, in terms of what the resolvers answer in the state at the start. -/
theorem replacePlaceHoldersOrPanic_pieces (reg : List (GoString × placeHolderOrPanic σ))
    (s : GoString) (params : List GoString) (w : σ)
    (hkeys : (reg.map Prod.fst).Nodup) (htok : ∀ kv ∈ reg, IsToken kv.1)
    (hpf : ∀ a ∈ reg, ∀ b ∈ reg, a.1 <+: b.1 → a.1 = b.1)
    (S : σ → Prop) (hS : S w) (hind : Independent S params reg)
    (hval : ∀ kv ∈ reg, ∀ v w1, kv.2.placeHolderGetter kv.1 params w = (some (v, none), w1) →
      (0x24 : Fin 256) ∉ v)
    (pieces : List GoString) (hs : ReplaceAll s dollarDollar escapeDollar = pieces.flatten)
    (hp : ∀ p ∈ pieces, (∃ kv ∈ reg, kv.1 = p) ∨ (0x24 : Fin 256) ∉ p) :
    ((replacePlaceHoldersOrPanic s reg params w).1 = none ↔
        ∃ kv ∈ reg, kv.1 ∈ pieces ∧ (kv.2.placeHolderGetter kv.1 params w).1 = none) ∧
      ∀ r, (replacePlaceHoldersOrPanic s reg params w).1 = some r →
        r.1 = ReplaceAll
            (piecesAfter (fun kv => (kv.2.placeHolderGetter kv.1 params w).1) reg pieces).flatten
            escapeDollar dollarDollar ∧
          (r.2 = none ↔ ∀ kv ∈ reg, kv.1 ∈ pieces → ∀ v err,
            (kv.2.placeHolderGetter kv.1 params w).1 ≠ some (v, some err)) := by
  have hT1 : ∀ t, (∃ kv ∈ reg, kv.1 = t) → IsToken t := by
    rintro t ⟨kv, hkv, e⟩
    exact e ▸ htok kv hkv
  have hT2 : ∀ a b, (∃ kv ∈ reg, kv.1 = a) → (∃ kv ∈ reg, kv.1 = b) → a <+: b → a = b := by
    rintro a b ⟨ka, hka, ea⟩ ⟨kb, hkb, eb⟩ hab
    subst ea eb
    exact hpf ka hka kb hkb hab
  have hval1 : ∀ kv ∈ reg, ∀ v,
      (fun kv : GoString × placeHolderOrPanic σ => (kv.2.placeHolderGetter kv.1 params w).1) kv =
        some (v, none) → (0x24 : Fin 256) ∉ v := by
    intro kv hkv v h
    exact hval kv hkv v (kv.2.placeHolderGetter kv.1 params w).2 (Prod.ext h rfl)
  obtain ⟨h1, h2⟩ := rangeOrPanic_pieces (fun t => ∃ kv ∈ reg, kv.1 = t) hT1 hT2 S params
    (fun kv => (kv.2.placeHolderGetter kv.1 params w).1) reg (fun kv hkv => ⟨kv, hkv, rfl⟩)
    hkeys hind hval1 pieces hp [] w hS (fun _ _ => rfl)
  rw [replacePlaceHoldersOrPanic_range, hs]
  cases hr : rangeOrPanic params reg (pieces.flatten, []) w with
  | mk out w1 =>
    rw [hr] at h1 h2
    cases out with
    | none =>
      simp only at h1 ⊢
      exact ⟨h1, fun r h => by cases h⟩
    | some acc =>
      obtain ⟨s1, e1⟩ := acc
      simp only at h1 ⊢
      refine ⟨⟨fun h => (by cases h), fun h => (by cases h1.2 h)⟩, ?_⟩
      intro r h
      simp only [Option.some.injEq] at h
      obtain ⟨j1, j2⟩ := h2 s1 e1 rfl
      rw [← h]
      simp only [combineErrors_eq_none]
      rw [j1, j2]
      exact ⟨rfl, ⟨fun c => c.2, fun c => ⟨rfl, c⟩⟩⟩

/-- A registry of resolvers that return gives the same with `replacePlaceHolders` for resolvers
that return and with `replacePlaceHolders` for resolvers that may panic. -/
theorem rangeOrPanic_returning (params : List GoString) (reg : List (GoString × placeHolder σ))
    (acc : GoString × List error) (w : σ) :
    rangeOrPanic params (reg.map (fun kv => (kv.1, returning kv.2))) acc w =
      (some (reg.foldl
          (fun acc kv =>
            replacePlaceHolder acc.1.2 acc.1.1 kv.1 kv.2.placeHolderGetter params acc.2)
          (acc, w)).1,
        (reg.foldl
          (fun acc kv =>
            replacePlaceHolder acc.1.2 acc.1.1 kv.1 kv.2.placeHolderGetter params acc.2)
          (acc, w)).2) := by
  induction reg generalizing acc w with
  | nil => rfl
  | cons kv reg ih =>
    rw [List.map_cons, rangeOrPanic_cons, List.foldl_cons]
    have : replacePlaceHolderOrPanic acc.2 acc.1 kv.1 (returning kv.2).placeHolderGetter params w =
        (some (replacePlaceHolder acc.2 acc.1 kv.1 kv.2.placeHolderGetter params w).1,
          (replacePlaceHolder acc.2 acc.1 kv.1 kv.2.placeHolderGetter params w).2) := by
      unfold replacePlaceHolderOrPanic replacePlaceHolder returning
      by_cases hc : Contains acc.1 kv.1 = true
      · simp only [hc, if_true]
        by_cases he : (kv.2.placeHolderGetter kv.1 params w).1.2 = none
        · simp [he]
        · simp [he]
      · simp only [hc]
        rfl
    simp only [this]
    exact ih _ _

theorem replacePlaceHoldersOrPanic_returning (s : GoString)
    (reg : List (GoString × placeHolder σ)) (params : List GoString) (w : σ) :
    replacePlaceHoldersOrPanic s (reg.map (fun kv => (kv.1, returning kv.2))) params w =
      (some (replacePlaceHolders s reg params w).1, (replacePlaceHolders s reg params w).2) := by
  rw [replacePlaceHoldersOrPanic_range, rangeOrPanic_returning]
  rfl

theorem Independent_perm (S : σ → Prop) (params : List GoString)
    (reg reg1 : List (GoString × placeHolderOrPanic σ)) (hperm : reg.Perm reg1)
    (h : Independent S params reg) : Independent S params reg1 := by
  intro b hb w r w1 hS hr
  obtain ⟨h1, h2⟩ := h b (hperm.mem_iff.2 hb) w r w1 hS hr
  exact ⟨h1, fun a ha hne => h2 a (hperm.mem_iff.2 ha) hne⟩

end order

end playshields
namespace playshields

section regexp

/-- What a continuation-passing matcher owes to the anchored semantics. -/
theorem starLoop_sound (a : Re)
    (ma : GoString → (GoString → Option GoString) → Option GoString)
    (hma : ∀ s k x, ma s k = some x → ∃ m r, s = m ++ r ∧ Matches a m ∧ k r = some x)
    (n : Nat) (s : GoString) (k : GoString → Option GoString) (x : GoString)
    (h : starLoop ma n s k = some x) :
    ∃ m r, s = m ++ r ∧ Matches (Re.star a) m ∧ k r = some x := by
  induction n generalizing s x with
  | zero => exact ⟨[], s, rfl, Matches.starNil a, h⟩
  | succ n ih =>
    simp only [starLoop] at h
    cases hm : ma s (fun r => if r.length < s.length then starLoop ma n r k else none) with
    | none =>
      rw [hm] at h
      exact ⟨[], s, rfl, Matches.starNil a, h⟩
    | some y =>
      rw [hm] at h
      obtain ⟨m1, r1, hs, hm1, hk⟩ := hma _ _ _ hm
      by_cases hl : r1.length < s.length
      · rw [if_pos hl] at hk
        obtain ⟨m2, r2, hs2, hm2, hk2⟩ := ih r1 y hk
        refine ⟨m1 ++ m2, r2, ?_, Matches.starCons a m1 m2 hm1 hm2, ?_⟩
        · rw [hs, hs2, List.append_assoc]
        · rw [hk2]; exact h
      · rw [if_neg hl] at hk
        cases hk

theorem matchRe_sound (re : Re) (s : GoString) (k : GoString → Option GoString) (x : GoString)
    (h : matchRe re s k = some x) :
    ∃ m r, s = m ++ r ∧ Matches re m ∧ k r = some x := by
  induction re generalizing s k x with
  | cls p =>
    cases s with
    | nil => simp [matchRe] at h
    | cons b t =>
      simp only [matchRe] at h
      by_cases hp : p b = true
      · rw [if_pos hp] at h
        exact ⟨[b], t, rfl, Matches.cls p b hp, h⟩
      · rw [if_neg hp] at h
        cases h
  | seq a b iha ihb =>
    simp only [matchRe] at h
    obtain ⟨m1, r1, hs, hm1, hk⟩ := iha _ _ _ h
    obtain ⟨m2, r2, hs2, hm2, hk2⟩ := ihb _ _ _ hk
    refine ⟨m1 ++ m2, r2, ?_, Matches.seq a b m1 m2 hm1 hm2, hk2⟩
    rw [hs, hs2, List.append_assoc]
  | star a iha =>
    simp only [matchRe] at h
    exact starLoop_sound a (matchRe a) (fun s k x => iha s k x) _ _ _ _ h

theorem findFrom_start (re : Re) (s : GoString) (i a b : Nat)
    (h : findFrom re i s = some (a, b)) : i ≤ a := by
  induction s generalizing i with
  | nil =>
    simp only [findFrom] at h
    cases hm : matchRe re [] some with
    | none => rw [hm] at h; cases h
    | some r =>
      rw [hm] at h
      simp only [Option.some.injEq, Prod.mk.injEq] at h
      omega
  | cons c t ih =>
    simp only [findFrom] at h
    cases hm : matchRe re (c :: t) some with
    | none =>
      rw [hm] at h
      have := ih _ h
      omega
    | some r =>
      rw [hm] at h
      simp only [Option.some.injEq, Prod.mk.injEq] at h
      omega

/-- A search that reports a match from the first to the last byte found an anchored match. -/
theorem Matches_of_FindStringIndex (re : Re) (s : GoString) (a b : Nat)
    (h : FindStringIndex re s = some (a, b)) (ha : ¬ a > 0) (hb : ¬ b < s.length) :
    Matches re s := by
  unfold FindStringIndex at h
  cases s with
  | nil =>
    simp only [findFrom] at h
    cases hm : matchRe re [] some with
    | none => rw [hm] at h; cases h
    | some r =>
      obtain ⟨m, r1, hs, hm1, -⟩ := matchRe_sound _ _ _ _ hm
      have : m = [] := by
        cases m with
        | nil => rfl
        | cons _ _ => cases hs
      rw [this] at hm1
      exact hm1
  | cons c t =>
    simp only [findFrom] at h
    cases hm : matchRe re (c :: t) some with
    | none =>
      rw [hm] at h
      have := findFrom_start _ _ _ _ _ h
      omega
    | some r =>
      rw [hm] at h
      simp only [Option.some.injEq, Prod.mk.injEq] at h
      obtain ⟨m, r1, hs, hm1, hk⟩ := matchRe_sound _ _ _ _ hm
      simp only [Option.some.injEq] at hk
      subst hk
      have hl : (c :: t).length = m.length + r1.length := by rw [hs, List.length_append]
      have : r1 = [] := List.eq_nil_of_length_eq_zero (by omega)
      rw [this, List.append_nil] at hs
      rw [hs]
      exact hm1

theorem matchRe_cls_cons (p : Fin 256 → Bool) (b : Fin 256) (t : GoString)
    (k : GoString → Option GoString) :
    matchRe (Re.cls p) (b :: t) k = if p b = true then k t else none := rfl

theorem matchRe_cls_nil (p : Fin 256 → Bool) (k : GoString → Option GoString) :
    matchRe (Re.cls p) [] k = none := rfl

theorem matchRe_seq (a b : Re) (s : GoString) (k : GoString → Option GoString) :
    matchRe (Re.seq a b) s k = matchRe a s (fun r => matchRe b r k) := rfl

theorem matchRe_star (a : Re) (s : GoString) (k : GoString → Option GoString) :
    matchRe (Re.star a) s k = starLoop (matchRe a) s.length s k := rfl

theorem starLoop_succ (ma : GoString → (GoString → Option GoString) → Option GoString) (n : Nat)
    (s : GoString) (k : GoString → Option GoString) :
    starLoop ma (n + 1) s k =
      match ma s (fun r => if r.length < s.length then starLoop ma n r k else none) with
      | some x => some x
      | none => k s := rfl

theorem not_isWord_dot : isWord 0x2e = false := by decide

theorem isDot_eq (b : Fin 256) (h : isDot b = true) : b = 0x2e := by
  simpa [isDot] using h

theorem not_isDot_of_isWord (b : Fin 256) (h : isWord b = true) : isDot b = false := by
  cases hd : isDot b with
  | false => rfl
  | true =>
    rw [isDot_eq b hd, not_isWord_dot] at h
    cases h

/-- The greedy loop over word bytes hands the longest run to a continuation that accepts it. -/
theorem starWord_first (k : GoString → Option GoString) (x : GoString) (n : Nat) (s : GoString)
    (hn : s.length ≤ n) (hk : k (s.dropWhile isWord) = some x) :
    starLoop (matchRe (Re.cls isWord)) n s k = some x := by
  induction n generalizing s with
  | zero =>
    have : s = [] := List.eq_nil_of_length_eq_zero (by omega)
    subst this
    exact hk
  | succ n ih =>
    cases s with
    | nil => exact hk
    | cons b t =>
      rw [starLoop_succ, matchRe_cls_cons]
      by_cases hb : isWord b = true
      · rw [if_pos hb, if_pos (by simp)]
        rw [List.dropWhile_cons_of_pos hb] at hk
        rw [ih t (by simpa using hn) hk]
      · rw [if_neg hb]
        rw [List.dropWhile_cons_of_neg hb] at hk
        exact hk

/-- The greedy loop over word bytes, before a continuation that refuses a word byte: only the
longest run is offered with a chance. -/
theorem starWord_longest (k : GoString → Option GoString)
    (hk : ∀ b t, isWord b = true → k (b :: t) = none) (n : Nat) (s : GoString)
    (hn : s.length ≤ n) :
    starLoop (matchRe (Re.cls isWord)) n s k = k (s.dropWhile isWord) := by
  induction n generalizing s with
  | zero =>
    have : s = [] := List.eq_nil_of_length_eq_zero (by omega)
    subst this
    rfl
  | succ n ih =>
    cases s with
    | nil => rfl
    | cons b t =>
      rw [starLoop_succ, matchRe_cls_cons]
      by_cases hb : isWord b = true
      · rw [if_pos hb, if_pos (by simp), List.dropWhile_cons_of_pos hb,
          ih t (by simpa using hn)]
        cases hd : k (t.dropWhile isWord) with
        | some y => rfl
        | none => exact hk b t hb
      · rw [if_neg hb, List.dropWhile_cons_of_neg hb]

theorem dropWhile_word_run (t rest : GoString) (ht : ∀ c ∈ t, isWord c = true)
    (hr : rest = [] ∨ ∃ u, rest = 0x2e :: u) :
    (t ++ rest).dropWhile isWord = rest := by
  induction t with
  | nil =>
    rcases hr with hr | ⟨u, hr⟩
    · rw [hr]; rfl
    · rw [hr, List.nil_append, List.dropWhile_cons_of_neg (by rw [not_isWord_dot]; simp)]
  | cons c t ih =>
    rw [List.cons_append, List.dropWhile_cons_of_pos (ht c (List.mem_cons_self _ _))]
    exact ih (fun d hd => ht d (List.mem_cons_of_mem _ hd))

theorem Matches_cls (p : Fin 256 → Bool) (m : GoString) (h : Matches (Re.cls p) m) :
    ∃ b, m = [b] ∧ p b = true := by
  cases h with
  | cls _ b hb => exact ⟨b, rfl, hb⟩

theorem Matches_seq (a b : Re) (m : GoString) (h : Matches (Re.seq a b) m) :
    ∃ m1 m2, m = m1 ++ m2 ∧ Matches a m1 ∧ Matches b m2 := by
  cases h with
  | seq _ _ s1 s2 h1 h2 => exact ⟨s1, s2, rfl, h1, h2⟩

theorem Matches_star_word (m : GoString) (h : Matches (Re.star (Re.cls isWord)) m) :
    ∀ c ∈ m, isWord c = true := by
  generalize he : Re.star (Re.cls isWord) = re at h
  induction h with
  | cls p b hb => cases he
  | seq a b s1 s2 h1 h2 _ _ => cases he
  | starNil a => intro c hc; cases hc
  | starCons a s1 s2 h1 h2 _ ih2 =>
    cases he
    obtain ⟨b, hs1, hb⟩ := Matches_cls _ _ h1
    intro c hc
    rw [hs1] at hc
    rcases List.mem_append.1 hc with hc | hc
    · rw [List.mem_singleton.1 hc]; exact hb
    · exact ih2 rfl c hc

theorem Matches_plus_word (m : GoString) (h : Matches (Re.plus (Re.cls isWord)) m) :
    ∃ b t, m = b :: t ∧ isWord b = true ∧ ∀ c ∈ t, isWord c = true := by
  obtain ⟨m1, m2, hm, h1, h2⟩ := Matches_seq _ _ _ h
  obtain ⟨b, hs1, hb⟩ := Matches_cls _ _ h1
  exact ⟨b, m2, by rw [hm, hs1]; rfl, hb, Matches_star_word _ h2⟩

theorem Matches_dot_word (m : GoString)
    (h : Matches (Re.seq (Re.cls isDot) (Re.plus (Re.cls isWord))) m) :
    ∃ b t, m = 0x2e :: b :: t ∧ isWord b = true ∧ ∀ c ∈ t, isWord c = true := by
  obtain ⟨m1, m2, hm, h1, h2⟩ := Matches_seq _ _ _ h
  obtain ⟨d, hs1, hd⟩ := Matches_cls _ _ h1
  obtain ⟨b, t, hs2, hb, ht⟩ := Matches_plus_word _ h2
  exact ⟨b, t, by rw [hm, hs1, hs2, isDot_eq d hd]; rfl, hb, ht⟩

theorem Matches_groups_head (g : GoString)
    (h : Matches (Re.star (Re.seq (Re.cls isDot) (Re.plus (Re.cls isWord)))) g) :
    g = [] ∨ ∃ u, g = 0x2e :: u := by
  cases h with
  | starNil _ => exact Or.inl rfl
  | starCons _ s1 s2 h1 h2 =>
    obtain ⟨b, t, hs, -, -⟩ := Matches_dot_word _ h1
    exact Or.inr ⟨b :: t ++ s2, by rw [hs]; rfl⟩

/-- The greedy loop over the groups `.word` takes all of them. -/
theorem starGroups_all (g : GoString)
    (h : Matches (Re.star (Re.seq (Re.cls isDot) (Re.plus (Re.cls isWord)))) g) (n : Nat)
    (hn : g.length ≤ n) :
    starLoop (matchRe (Re.seq (Re.cls isDot) (Re.plus (Re.cls isWord)))) n g some = some [] := by
  generalize he : Re.star (Re.seq (Re.cls isDot) (Re.plus (Re.cls isWord))) = re at h
  induction h generalizing n with
  | cls p b hb => cases he
  | seq a b s1 s2 h1 h2 _ _ => cases he
  | starNil a =>
    cases n with
    | zero => rfl
    | succ n => rfl
  | starCons a s1 s2 h1 h2 _ ih2 =>
    cases he
    obtain ⟨b, t, hs, hb, ht⟩ := Matches_dot_word _ h1
    subst hs
    cases n with
    | zero => simp at hn
    | succ n =>
      have hd : isDot 0x2e = true := by decide
      rw [starLoop_succ]
      simp only [List.cons_append, matchRe_seq, matchRe_cls_cons, matchRe_star, Re.plus, hd, hb,
        if_true]
      rw [starWord_first _ [] _ _ (le_refl _)]
      rw [dropWhile_word_run t s2 ht (Matches_groups_head _ h2)]
      rw [if_pos (by simp only [List.length_cons, List.length_append]; omega)]
      exact ih2 n (by simp only [List.length_cons, List.length_append] at hn; omega) rfl

/-- On a string that `appIDPattern` matches from end to end, the backtracking matcher started
at its first byte consumes all of it. -/
theorem matchRe_regExpAppID (s : GoString) (h : Matches regExpAppID s) :
    matchRe regExpAppID s some = some [] := by
  obtain ⟨m1, r1, hs, h1, h⟩ := Matches_seq _ _ _ h
  obtain ⟨m2, r2, hs2, h2, h⟩ := Matches_seq _ _ _ h
  obtain ⟨m3, g, hs3, h3, hg⟩ := Matches_seq _ _ _ h
  obtain ⟨b1, t1, e1, hb1, ht1⟩ := Matches_plus_word _ h1
  obtain ⟨d, e2, hd⟩ := Matches_cls _ _ h2
  obtain ⟨b3, t3, e3, hb3, ht3⟩ := Matches_plus_word _ h3
  have hd2 : isDot 0x2e = true := by decide
  subst hs3 hs2 hs e1 e3
  rw [e2, isDot_eq d hd]
  simp only [regExpAppID, Re.plus, matchRe_seq, matchRe_cls_cons, matchRe_star, List.cons_append,
    hb1, if_true]
  rw [starWord_longest _ _ _ _ (le_refl _)]
  · rw [dropWhile_word_run t1 _ ht1 (Or.inr ⟨_, rfl⟩)]
    simp only [matchRe_cls_cons, hd2, hb3, if_true, List.nil_append, List.cons_append]
    apply starWord_first _ _ _ _ (le_refl _)
    rw [dropWhile_word_run t3 g ht3 (Matches_groups_head _ hg)]
    exact starGroups_all g hg _ (le_refl _)
  · intro b t hb
    simp [matchRe_cls_cons, not_isDot_of_isWord b hb]

/-- The test of lines 378-379 on `regExpAppID.FindStringIndex(appid)` passes exactly for the
strings that `appIDPattern` matches from end to end. -/
theorem FindStringIndex_regExpAppID (s : GoString) :
    (∃ indices, FindStringIndex regExpAppID s = some indices ∧
      ¬ (indices.1 > 0 ∨ indices.2 < s.length)) ↔ Matches regExpAppID s := by
  constructor
  · rintro ⟨⟨a, b⟩, h, hc⟩
    exact Matches_of_FindStringIndex _ _ a b h (fun x => hc (Or.inl x)) (fun x => hc (Or.inr x))
  · intro h
    have hm := matchRe_regExpAppID s h
    refine ⟨(0, s.length), ?_, by simp⟩
    unfold FindStringIndex
    cases s with
    | nil => simp [findFrom, hm]
    | cons c t => simp [findFrom, hm]

end regexp

end playshields

namespace playshields

section handler
variable {σ : Type}

theorem BadgeShape_errorJSON (message : GoString) : BadgeShape (errorJSON message) :=
  ⟨rfl, _, rfl, Or.inr ⟨message, rfl⟩⟩

theorem BadgeShape_badgeJSON (label message : GoString) : BadgeShape (badgeJSON label message) :=
  ⟨rfl, _, rfl, Or.inl ⟨label, message, rfl⟩⟩

theorem SuccessCache_New (max : Int) : SuccessCache (lru.New max) := by
  refine ⟨lru.Inv_New max, ?_⟩
  intro p hp
  simp [lru.entries, lru.New] at hp

theorem SuccessCache_Get (c : lru.cache GoString H) (h : SuccessCache c) (k : GoString) :
    SuccessCache (c.Get k).1 := by
  refine ⟨lru.Inv_Get c h.1 k, ?_⟩
  intro p hp
  by_cases hk : k ∈ lru.keys c
  · obtain ⟨v, hv, -, he⟩ := lru.entries_Get_hit c h.1 k hk
    rw [he, lru.touched] at hp
    rcases List.mem_cons.1 hp with e | hp
    · rw [e]; exact h.2 _ hv
    · exact h.2 p (List.mem_filter.1 hp).1
  · rw [lru.Get_miss c h.1 k hk] at hp
    exact h.2 p hp

theorem SuccessCache_Set (c : lru.cache GoString H) (h : SuccessCache c) (k : GoString) (v : H)
    (hv : isSuccessBody v) : SuccessCache (c.Set k v) := by
  refine ⟨lru.Inv_Set c h.1 k v, ?_⟩
  intro p hp
  rcases lru.mem_entries_Set c h.1 k v p hp with e | ⟨hp, -⟩
  · rw [e]; exact hv
  · exact h.2 p hp

/-- The loop of `replacePlaceHolders` panics only when a resolver of the registry panics. -/
theorem rangeOrPanic_none (params : List GoString) (l : List (GoString × placeHolderOrPanic σ))
    (acc : GoString × List error) (w : σ) (h : (rangeOrPanic params l acc w).1 = none) :
    ∃ kv ∈ l, ∃ w0, (kv.2.placeHolderGetter kv.1 params w0).1 = none := by
  induction l generalizing acc w with
  | nil => simp [rangeOrPanic] at h
  | cons kv rest ih =>
    rw [rangeOrPanic_cons] at h
    cases hr : replacePlaceHolderOrPanic acc.2 acc.1 kv.1 kv.2.placeHolderGetter params w with
    | mk o w1 =>
      rw [hr] at h
      cases o with
      | some acc1 =>
        obtain ⟨kv1, h1, h2⟩ := ih acc1 w1 h
        exact ⟨kv1, List.mem_cons_of_mem _ h1, h2⟩
      | none =>
        refine ⟨kv, List.mem_cons_self _ _, w, ?_⟩
        unfold replacePlaceHolderOrPanic at hr
        split at hr
        · cases hf : kv.2.placeHolderGetter kv.1 params w with
          | mk out w2 =>
            rw [hf] at hr
            cases out with
            | none => rfl
            | some r =>
              simp only at hr
              split at hr <;> simp at hr
        · simp at hr

theorem replacePlaceHoldersOrPanic_none (s : GoString)
    (reg : List (GoString × placeHolderOrPanic σ)) (params : List GoString) (w : σ)
    (h : (replacePlaceHoldersOrPanic s reg params w).1 = none) :
    ∃ kv ∈ reg, ∃ w0, (kv.2.placeHolderGetter kv.1 params w0).1 = none := by
  rw [replacePlaceHoldersOrPanic_range] at h
  cases hr : rangeOrPanic params reg (ReplaceAll s dollarDollar escapeDollar, []) w with
  | mk o w1 =>
    rw [hr] at h
    cases o with
    | none => exact rangeOrPanic_none params reg _ w (by rw [hr])
    | some acc => simp at h

/-- The ways out of the substitution pipeline of the handler. -/
theorem renderBadge_cases (orderMessage orderLabel : List (GoString × placeHolderOrPanic σ))
    (req : Request) (cacheKey appid : GoString) (c : lru.cache GoString H) (w : σ) :
    (∃ w1, renderBadge orderMessage orderLabel req cacheKey appid c w = (none, c, w1)) ∨
    (∃ err w1,
      renderBadge orderMessage orderLabel req cacheKey appid c w =
        (some (errorJSON err), c, w1)) ∨
      ∃ label message w1,
        renderBadge orderMessage orderLabel req cacheKey appid c w =
          (some (badgeJSON label message),
            c.Set cacheKey
              [(ascii "schemaVersion", JVal.num 1), (ascii "label", JVal.str label),
                (ascii "message", JVal.str message), (ascii "cacheSeconds", JVal.num 3600)],
            w1) := by
  unfold renderBadge
  split
  · exact Or.inl ⟨_, rfl⟩
  · exact Or.inr (Or.inl ⟨_, _, rfl⟩)
  · split
    · exact Or.inl ⟨_, rfl⟩
    · exact Or.inr (Or.inl ⟨_, _, rfl⟩)
    · exact Or.inr (Or.inr ⟨_, _, _, rfl⟩)

theorem renderBadge_shape (orderMessage orderLabel : List (GoString × placeHolderOrPanic σ))
    (req : Request) (cacheKey appid : GoString) (c : lru.cache GoString H) (w : σ)
    (h : SuccessCache c) :
    (∀ r, (renderBadge orderMessage orderLabel req cacheKey appid c w).1 = some r →
        BadgeShape r) ∧
      SuccessCache (renderBadge orderMessage orderLabel req cacheKey appid c w).2.1 := by
  rcases renderBadge_cases orderMessage orderLabel req cacheKey appid c w with
    ⟨w1, e⟩ | ⟨err, w1, e⟩ | ⟨l, m, w1, e⟩
  · rw [e]
    exact ⟨fun r hr => (by cases hr), h⟩
  · rw [e]
    refine ⟨fun r hr => ?_, h⟩
    simp only [Option.some.injEq] at hr
    exact hr ▸ BadgeShape_errorJSON err
  · rw [e]
    refine ⟨fun r hr => ?_, SuccessCache_Set c h _ _ ⟨l, m, rfl⟩⟩
    simp only [Option.some.injEq] at hr
    exact hr ▸ BadgeShape_badgeJSON l m

/-- The pipeline gives no response only when a resolver panics. -/
theorem renderBadge_none (orderMessage orderLabel : List (GoString × placeHolderOrPanic σ))
    (req : Request) (cacheKey appid : GoString) (c : lru.cache GoString H) (w : σ)
    (h : (renderBadge orderMessage orderLabel req cacheKey appid c w).1 = none) :
    ∃ kv ∈ orderMessage ++ orderLabel, ∃ w0,
      (kv.2.placeHolderGetter kv.1 [appid] w0).1 = none := by
  unfold renderBadge at h
  split at h
  · rename_i w1 hm
    obtain ⟨kv, h1, h2⟩ := replacePlaceHoldersOrPanic_none _ orderMessage [appid] w (by rw [hm])
    exact ⟨kv, List.mem_append_left _ h1, h2⟩
  · simp at h
  · rename_i message w1 hm
    split at h
    · rename_i w2 hl
      obtain ⟨kv, h1, h2⟩ := replacePlaceHoldersOrPanic_none _ orderLabel [appid] w1 (by rw [hl])
      exact ⟨kv, List.mem_append_right _ h1, h2⟩
    · simp at h
    · simp at h

/-- The handler on a request that misses `jsonCache`. -/
theorem playHandler_miss (orderMessage orderLabel : List (GoString × placeHolderOrPanic σ))
    (req : Request) (c : lru.cache GoString H) (w : σ)
    (hmiss : (c.Get (req.Path ++ req.RawQuery)).2.2 = false) :
    playHandler orderMessage orderLabel req c w =
      if req.DefaultQuery (ascii "i") (req.DefaultQuery (ascii "id") []) = [] then
        (some (errorJSON (ascii "missing app id")), c, w)
      else
        match FindStringIndex regExpAppID
            (req.DefaultQuery (ascii "i") (req.DefaultQuery (ascii "id") [])) with
        | none => (some (errorJSON (ascii "invalid app id format")), c, w)
        | some indices =>
          if indices.1 > 0 ∨ indices.2 <
              (req.DefaultQuery (ascii "i") (req.DefaultQuery (ascii "id") [])).length then
            (some (errorJSON (ascii "invalid app id format")), c, w)
          else
            renderBadge orderMessage orderLabel req (req.Path ++ req.RawQuery)
              (req.DefaultQuery (ascii "i") (req.DefaultQuery (ascii "id") [])) c w := by
  unfold playHandler
  rw [lru.Get_not_ok c _ hmiss]

theorem playHandler_hit (orderMessage orderLabel : List (GoString × placeHolderOrPanic σ))
    (req : Request) (c : lru.cache GoString H) (w : σ)
    (hhit : (c.Get (req.Path ++ req.RawQuery)).2.2 = true) :
    playHandler orderMessage orderLabel req c w =
      (some { status := 200, cacheControl := ascii "max-age=10000",
              body := (c.Get (req.Path ++ req.RawQuery)).2.1 },
        (c.Get (req.Path ++ req.RawQuery)).1, w) := by
  unfold playHandler
  generalize c.Get (req.Path ++ req.RawQuery) = g at hhit
  obtain ⟨c1, v, ok⟩ := g
  simp only at hhit
  subst hhit
  rfl

/-- A request that misses `jsonCache` with an app id that `appIDPattern` matches from end to
end goes through the substitution pipeline. -/
theorem playHandler_valid (orderMessage orderLabel : List (GoString × placeHolderOrPanic σ))
    (req : Request) (c : lru.cache GoString H) (w : σ)
    (hmiss : (c.Get (req.Path ++ req.RawQuery)).2.2 = false)
    (hne : req.DefaultQuery (ascii "i") (req.DefaultQuery (ascii "id") []) ≠ [])
    (hm : Matches regExpAppID (req.DefaultQuery (ascii "i") (req.DefaultQuery (ascii "id") []))) :
    playHandler orderMessage orderLabel req c w =
      renderBadge orderMessage orderLabel req (req.Path ++ req.RawQuery)
        (req.DefaultQuery (ascii "i") (req.DefaultQuery (ascii "id") [])) c w := by
  rw [playHandler_miss orderMessage orderLabel req c w hmiss, if_neg hne]
  obtain ⟨idx, hf, hc⟩ := (FindStringIndex_regExpAppID _).2 hm
  rw [hf]
  simp only
  rw [if_neg hc]

/-- A request that misses `jsonCache` with an app id that `appIDPattern` does not match from
end to end is answered at once. -/
theorem playHandler_malformed (orderMessage orderLabel : List (GoString × placeHolderOrPanic σ))
    (req : Request) (c : lru.cache GoString H) (w : σ)
    (hmiss : (c.Get (req.Path ++ req.RawQuery)).2.2 = false)
    (hne : req.DefaultQuery (ascii "i") (req.DefaultQuery (ascii "id") []) ≠ [])
    (hm : ¬ Matches regExpAppID
      (req.DefaultQuery (ascii "i") (req.DefaultQuery (ascii "id") []))) :
    playHandler orderMessage orderLabel req c w =
      (some (errorJSON (ascii "invalid app id format")), c, w) := by
  rw [playHandler_miss orderMessage orderLabel req c w hmiss, if_neg hne]
  cases hf : FindStringIndex regExpAppID
      (req.DefaultQuery (ascii "i") (req.DefaultQuery (ascii "id") [])) with
  | none => rfl
  | some idx =>
    simp only
    by_cases hc : idx.1 > 0 ∨ idx.2 <
        (req.DefaultQuery (ascii "i") (req.DefaultQuery (ascii "id") [])).length
    · rw [if_pos hc]
    · exact absurd ((FindStringIndex_regExpAppID _).1 ⟨idx, hf, hc⟩) hm

theorem playHandler_missing (orderMessage orderLabel : List (GoString × placeHolderOrPanic σ))
    (req : Request) (c : lru.cache GoString H) (w : σ)
    (hmiss : (c.Get (req.Path ++ req.RawQuery)).2.2 = false)
    (he : req.DefaultQuery (ascii "i") (req.DefaultQuery (ascii "id") []) = []) :
    playHandler orderMessage orderLabel req c w =
      (some (errorJSON (ascii "missing app id")), c, w) := by
  rw [playHandler_miss orderMessage orderLabel req c w hmiss, if_pos he]

theorem playHandler_shape (orderMessage orderLabel : List (GoString × placeHolderOrPanic σ))
    (req : Request) (c : lru.cache GoString H) (w : σ) (h : SuccessCache c) :
    (∀ r, (playHandler orderMessage orderLabel req c w).1 = some r → BadgeShape r) ∧
      SuccessCache (playHandler orderMessage orderLabel req c w).2.1 := by
  cases hg : (c.Get (req.Path ++ req.RawQuery)).2.2 with
  | true =>
    rw [playHandler_hit orderMessage orderLabel req c w hg]
    obtain ⟨v, hv, hr⟩ := lru.Get_ok c h.1 _ hg
    refine ⟨fun r e => ?_, SuccessCache_Get c h _⟩
    simp only [Option.some.injEq] at e
    rw [← e]
    refine ⟨rfl, v, ?_, Or.inl (h.2 _ hv)⟩
    simp only [hr]
  | false =>
    rw [playHandler_miss orderMessage orderLabel req c w hg]
    have herr : ∀ m, (∀ r, (some (errorJSON m), c, w).1 = some r → BadgeShape r) ∧
        SuccessCache (some (errorJSON m), c, w).2.1 := by
      intro m
      refine ⟨fun r e => ?_, h⟩
      simp only [Option.some.injEq] at e
      exact e ▸ BadgeShape_errorJSON m
    split
    · exact herr _
    · split
      · exact herr _
      · split
        · exact herr _
        · exact renderBadge_shape orderMessage orderLabel req _ _ c w h

/-- The handler gives no response only when a resolver panics. -/
theorem playHandler_none (orderMessage orderLabel : List (GoString × placeHolderOrPanic σ))
    (req : Request) (c : lru.cache GoString H) (w : σ)
    (h : (playHandler orderMessage orderLabel req c w).1 = none) :
    ∃ kv ∈ orderMessage ++ orderLabel, ∃ w0,
      (kv.2.placeHolderGetter kv.1
        [req.DefaultQuery (ascii "i") (req.DefaultQuery (ascii "id") [])] w0).1 = none := by
  cases hg : (c.Get (req.Path ++ req.RawQuery)).2.2 with
  | true =>
    rw [playHandler_hit orderMessage orderLabel req c w hg] at h
    simp at h
  | false =>
    rw [playHandler_miss orderMessage orderLabel req c w hg] at h
    split at h
    · simp at h
    · split at h
      · simp at h
      · split at h
        · simp at h
        · exact renderBadge_none orderMessage orderLabel req _ _ c w h

theorem servePlay_shape (xs : List (Served σ)) (c : lru.cache GoString H) (w : σ)
    (h : SuccessCache c) : ∀ o ∈ (servePlay xs c w).1, ∀ r, o = some r → BadgeShape r := by
  induction xs generalizing c w with
  | nil => intro o ho; cases ho
  | cons x rest ih =>
    intro o ho r hr
    simp only [servePlay] at ho
    rcases List.mem_cons.1 ho with e | ho
    · exact (playHandler_shape x.orderMessage x.orderLabel x.request c w h).1 r (e ▸ hr)
    · exact ih _ _ (playHandler_shape x.orderMessage x.orderLabel x.request c w h).2 o ho r hr

end handler

end playshields
/-! ### The cache contract -/

namespace lru

section contract
variable {K V : Type} [DecidableEq K]

/-- C1. For a capacity `N > 0` and any finite sequence of `Set` and `Get` calls on `New(N)`, a
key is reported as found by `Get` afterwards exactly when it is among the `min(N, d)` most
recently touched distinct keys, `d` being the number of distinct keys ever `Set`; a key is
touched by every `Set` on it and by every `Get` that finds it. -/
theorem found_iff_most_recently_touched (N : Nat) (hN : 0 < N) (ops : List (Op K V)) (k : K) :
    ((run (New (N : Int) : cache K V) ops).Get k).2.2 = true ↔
      k ∈ (recency (touches (New (N : Int) : cache K V) ops)).take
        (min N (setKeys ops).dedup.length) := by
  rw [Get_found_iff _ (Inv_run _ (Inv_New _) ops), keys_run_cap N hN ops,
    ← length_recency_touches (N : Int) ops, take_min_length]

/-- C2. For a capacity `N > 0`, `Len()` is at most `N` after every call of any finite sequence
of `Set` and `Get` calls on `New(N)`: it is so after the first `i` calls, for every `i`. -/
theorem Len_le_capacity (N : Nat) (hN : 0 < N) (ops : List (Op K V)) (i : Nat) :
    (run (New (N : Int) : cache K V) (ops.take i)).Len ≤ N := by
  rw [Len_eq]
  exact length_keys_run_cap N hN (ops.take i)

/-- C3. On a cache of capacity `N > 0` that holds exactly `N` keys, `Set(k, v)` of a key that
is not in it removes exactly one entry, the one whose last touch (by a `Set` or a found `Get`)
is the oldest, and leaves every other key present with its value unchanged; `Len()` stays `N`
and `k` is found with `v`.  So after `New(3)`, `Set(a,1)`, `Set(b,2)`, `Set(c,3)`, `Set(d,4)`
only `a` is gone, and with `Get(a)` before `Set(d,4)` only `b` is gone. -/
theorem Set_on_full_cache_evicts_oldest_touch :
    (∀ (N : Nat) (ops : List (Op K V)) (k : K) (v : V), 0 < N →
      (run (New (N : Int) : cache K V) ops).Len = N →
      ((run (New (N : Int) : cache K V) ops).Get k).2.2 = false →
      ∃ victim, victim ∈ keys (run (New (N : Int) : cache K V) ops) ∧
        (∀ k' ∈ keys (run (New (N : Int) : cache K V) ops), k' ≠ victim →
          lastTouch (touches (New (N : Int) : cache K V) ops) victim <
            lastTouch (touches (New (N : Int) : cache K V) ops) k') ∧
        (((run (New (N : Int) : cache K V) ops).Set k v).Get victim).2 = (none, false) ∧
        (∀ k', k' ≠ victim → k' ≠ k →
          (((run (New (N : Int) : cache K V) ops).Set k v).Get k').2 =
            ((run (New (N : Int) : cache K V) ops).Get k').2) ∧
        (∀ k' ∈ keys (run (New (N : Int) : cache K V) ops), k' ≠ victim →
          (((run (New (N : Int) : cache K V) ops).Set k v).Get k').2.2 = true) ∧
        (((run (New (N : Int) : cache K V) ops).Set k v).Get k).2 = (some v, true) ∧
        ((run (New (N : Int) : cache K V) ops).Set k v).Len = N) ∧
    (entries (run (New 3 : cache Char Nat)
        [Op.set 'a' 1, Op.set 'b' 2, Op.set 'c' 3, Op.set 'd' 4]) = [('d', 4), ('c', 3), ('b', 2)] ∧
      ((run (New 3 : cache Char Nat)
        [Op.set 'a' 1, Op.set 'b' 2, Op.set 'c' 3, Op.set 'd' 4]).Get 'a').2 = (none, false) ∧
      ((run (New 3 : cache Char Nat)
        [Op.set 'a' 1, Op.set 'b' 2, Op.set 'c' 3, Op.set 'd' 4]).Get 'b').2 = (some 2, true) ∧
      ((run (New 3 : cache Char Nat)
        [Op.set 'a' 1, Op.set 'b' 2, Op.set 'c' 3, Op.set 'd' 4]).Get 'c').2 = (some 3, true) ∧
      ((run (New 3 : cache Char Nat)
        [Op.set 'a' 1, Op.set 'b' 2, Op.set 'c' 3, Op.set 'd' 4]).Get 'd').2 = (some 4, true)) ∧
    (entries (run (New 3 : cache Char Nat)
        [Op.set 'a' 1, Op.set 'b' 2, Op.set 'c' 3, Op.get 'a', Op.set 'd' 4]) =
        [('d', 4), ('a', 1), ('c', 3)] ∧
      ((run (New 3 : cache Char Nat)
        [Op.set 'a' 1, Op.set 'b' 2, Op.set 'c' 3, Op.get 'a', Op.set 'd' 4]).Get 'b').2 =
        (none, false)) := by
  refine ⟨?_, ?_, ?_⟩
  · intro N ops k v hN hlen hk
    exact Set_full N hN ops k v hlen hk
  · decide
  · decide

/-- C4. After any sequence of calls on a cache, `Get(k)` on a key that is present returns
`(v, true)` with `v` the value given by the most recent `Set(k, .)` and leaves `k` at the front of
the list with all other entries in their previous relative order; `Get` on an absent key returns
`(nil, false)` and leaves the cache as it was. -/
theorem Get_returns_last_Set_and_promotes (N : Int) (ops : List (Op K V)) (k : K) :
    (k ∈ keys (run (New N : cache K V) ops) →
      ∃ v, lastSet ops k = some v ∧
        ((run (New N : cache K V) ops).Get k).2 = (some v, true) ∧
        entries ((run (New N : cache K V) ops).Get k).1 =
          (k, v) :: (entries (run (New N : cache K V) ops)).filter
            (fun p => !decide (p.1 = k))) ∧
    (k ∉ keys (run (New N : cache K V) ops) →
      (run (New N : cache K V) ops).Get k = (run (New N : cache K V) ops, none, false)) :=
  ⟨Get_hit_run N ops k, Get_miss _ (Inv_run _ (Inv_New N) ops) k⟩

/-- C5. On a cache made by `New(0)` no entry is ever removed: after any sequence of calls every
key that was `Set` is found with the value of its most recent `Set`, and `Len()` is the number of
distinct keys `Set`. -/
theorem capacity_zero_never_evicts (ops : List (Op K V)) :
    (∀ k ∈ setKeys ops, ∃ v, lastSet ops k = some v ∧
      ((run (New 0 : cache K V) ops).Get k).2 = (some v, true)) ∧
    (run (New 0 : cache K V) ops).Len = (setKeys ops).dedup.length :=
  ⟨Get_unbounded ops, Len_unbounded ops⟩

/-- C20. For every capacity and every finite sequence of `Set` and `Get` calls from `New`, after
each call (after the first `i` calls, for every `i`) the index and the list are consistent: the
keys of the list elements are pairwise distinct, the index holds no key twice, every key of the
index maps to the one element that carries this key, the key of every element is in the index
and maps to this element, and so the index has as many entries as `Len()`. -/
theorem index_and_list_consistent (N : Int) (ops : List (Op K V)) (i : Nat) :
    (keys (run (New N : cache K V) (ops.take i))).Nodup ∧
    ((run (New N : cache K V) (ops.take i)).index.map Prod.fst).Nodup ∧
    (∀ k a, mapGet (run (New N : cache K V) (ops.take i)).index k = some a →
      ∃ x ∈ (run (New N : cache K V) (ops.take i)).list, x.addr = a ∧ x.Value.key = k ∧
        ∀ y ∈ (run (New N : cache K V) (ops.take i)).list, y.Value.key = k → y = x) ∧
    (∀ x ∈ (run (New N : cache K V) (ops.take i)).list,
      mapGet (run (New N : cache K V) (ops.take i)).index x.Value.key = some x.addr) ∧
    (run (New N : cache K V) (ops.take i)).index.length =
      (run (New N : cache K V) (ops.take i)).Len := by
  have hI := Inv_run _ (Inv_New N : Inv (New N : cache K V)) (ops.take i)
  have hn := index_nodup_run N (ops.take i) (K := K) (V := V)
  refine ⟨hI.keyNodup, hn, ?_, hI.indexComplete, index_length _ hI hn⟩
  intro k a hka
  obtain ⟨x, hx, hxa, hxk⟩ := hI.indexSound k a hka
  exact ⟨x, hx, hxa, hxk, fun y hy hyk => key_inj _ hI.keyNodup y x hy hx (hyk.trans hxk.symm)⟩

end contract

/-- C1 at capacity 2 after `Set(1,10), Set(2,20), Get(1), Set(3,30)`: key 1 is found. -/
theorem found_iff_most_recently_touched_witness :
    0 < 2 ∧
    (((run (New ((2 : Nat) : Int) : cache Nat Nat)
        [Op.set 1 10, Op.set 2 20, Op.get 1, Op.set 3 30]).Get 1).2.2 = true ↔
      1 ∈ (recency (touches (New ((2 : Nat) : Int) : cache Nat Nat)
        [Op.set 1 10, Op.set 2 20, Op.get 1, Op.set 3 30])).take
        (min 2 (setKeys [(Op.set 1 10 : Op Nat Nat), Op.set 2 20, Op.get 1,
          Op.set 3 30]).dedup.length)) :=
  ⟨by decide, found_iff_most_recently_touched 2 (by decide) _ 1⟩

/-- C2 at capacity 2 after the first three of four calls. -/
theorem Len_le_capacity_witness :
    0 < 2 ∧
    (run (New ((2 : Nat) : Int) : cache Nat Nat)
      ([Op.set 1 10, Op.set 2 20, Op.set 3 30, Op.get 1].take 3)).Len ≤ 2 :=
  ⟨by decide, Len_le_capacity 2 (by decide) [Op.set 1 10, Op.set 2 20, Op.set 3 30, Op.get 1] 3⟩

/-- C3 at capacity 3 after `Set(1,10), Set(2,20), Set(3,30)`, for `Set(4,40)`. -/
theorem Set_on_full_cache_evicts_oldest_touch_witness :
    0 < 3 ∧
    (run (New ((3 : Nat) : Int) : cache Nat Nat) [Op.set 1 10, Op.set 2 20, Op.set 3 30]).Len = 3 ∧
    ((run (New ((3 : Nat) : Int) : cache Nat Nat)
      [Op.set 1 10, Op.set 2 20, Op.set 3 30]).Get 4).2.2 = false ∧
    ∃ victim, victim ∈ keys (run (New ((3 : Nat) : Int) : cache Nat Nat)
        [Op.set 1 10, Op.set 2 20, Op.set 3 30]) ∧
      (∀ k' ∈ keys (run (New ((3 : Nat) : Int) : cache Nat Nat)
          [Op.set 1 10, Op.set 2 20, Op.set 3 30]), k' ≠ victim →
        lastTouch (touches (New ((3 : Nat) : Int) : cache Nat Nat)
            [Op.set 1 10, Op.set 2 20, Op.set 3 30]) victim <
          lastTouch (touches (New ((3 : Nat) : Int) : cache Nat Nat)
            [Op.set 1 10, Op.set 2 20, Op.set 3 30]) k') ∧
      (((run (New ((3 : Nat) : Int) : cache Nat Nat)
        [Op.set 1 10, Op.set 2 20, Op.set 3 30]).Set 4 40).Get victim).2 = (none, false) ∧
      (∀ k', k' ≠ victim → k' ≠ 4 →
        (((run (New ((3 : Nat) : Int) : cache Nat Nat)
          [Op.set 1 10, Op.set 2 20, Op.set 3 30]).Set 4 40).Get k').2 =
          ((run (New ((3 : Nat) : Int) : cache Nat Nat)
            [Op.set 1 10, Op.set 2 20, Op.set 3 30]).Get k').2) ∧
      (∀ k' ∈ keys (run (New ((3 : Nat) : Int) : cache Nat Nat)
          [Op.set 1 10, Op.set 2 20, Op.set 3 30]), k' ≠ victim →
        (((run (New ((3 : Nat) : Int) : cache Nat Nat)
          [Op.set 1 10, Op.set 2 20, Op.set 3 30]).Set 4 40).Get k').2.2 = true) ∧
      (((run (New ((3 : Nat) : Int) : cache Nat Nat)
        [Op.set 1 10, Op.set 2 20, Op.set 3 30]).Set 4 40).Get 4).2 = (some 40, true) ∧
      ((run (New ((3 : Nat) : Int) : cache Nat Nat)
        [Op.set 1 10, Op.set 2 20, Op.set 3 30]).Set 4 40).Len = 3 :=
  ⟨by decide, by decide, by decide,
    (Set_on_full_cache_evicts_oldest_touch (K := Nat) (V := Nat)).1 3
      [Op.set 1 10, Op.set 2 20, Op.set 3 30] 4 40 (by decide) (by decide) (by decide)⟩

/-- C4 at capacity 2 after `Set(1,10), Set(2,20), Set(1,11), Set(3,30)`: key 1 is present,
key 2 is absent. -/
theorem Get_returns_last_Set_and_promotes_witness :
    (1 ∈ keys (run (New 2 : cache Nat Nat) [Op.set 1 10, Op.set 2 20, Op.set 1 11, Op.set 3 30]) ∧
      ∃ v, lastSet [(Op.set 1 10 : Op Nat Nat), Op.set 2 20, Op.set 1 11, Op.set 3 30] 1 = some v ∧
        ((run (New 2 : cache Nat Nat)
          [Op.set 1 10, Op.set 2 20, Op.set 1 11, Op.set 3 30]).Get 1).2 = (some v, true) ∧
        entries ((run (New 2 : cache Nat Nat)
          [Op.set 1 10, Op.set 2 20, Op.set 1 11, Op.set 3 30]).Get 1).1 =
          (1, v) :: (entries (run (New 2 : cache Nat Nat)
            [Op.set 1 10, Op.set 2 20, Op.set 1 11, Op.set 3 30])).filter
            (fun p => !decide (p.1 = 1))) ∧
    (2 ∉ keys (run (New 2 : cache Nat Nat) [Op.set 1 10, Op.set 2 20, Op.set 1 11, Op.set 3 30]) ∧
      (run (New 2 : cache Nat Nat) [Op.set 1 10, Op.set 2 20, Op.set 1 11, Op.set 3 30]).Get 2 =
        (run (New 2 : cache Nat Nat) [Op.set 1 10, Op.set 2 20, Op.set 1 11, Op.set 3 30],
          none, false)) :=
  ⟨⟨by decide, (Get_returns_last_Set_and_promotes 2
      [Op.set 1 10, Op.set 2 20, Op.set 1 11, Op.set 3 30] 1).1 (by decide)⟩,
    ⟨by decide, (Get_returns_last_Set_and_promotes 2
      [Op.set 1 10, Op.set 2 20, Op.set 1 11, Op.set 3 30] 2).2 (by decide)⟩⟩

/-- C5 after `Set(1,10), Set(2,20), Get(3), Set(1,11)`: key 1 was `Set`. -/
theorem capacity_zero_never_evicts_witness :
    1 ∈ setKeys [(Op.set 1 10 : Op Nat Nat), Op.set 2 20, Op.get 3, Op.set 1 11] ∧
    ∃ v, lastSet [(Op.set 1 10 : Op Nat Nat), Op.set 2 20, Op.get 3, Op.set 1 11] 1 = some v ∧
      ((run (New 0 : cache Nat Nat)
        [Op.set 1 10, Op.set 2 20, Op.get 3, Op.set 1 11]).Get 1).2 = (some v, true) :=
  ⟨by decide, (capacity_zero_never_evicts
    [(Op.set 1 10 : Op Nat Nat), Op.set 2 20, Op.get 3, Op.set 1 11]).1 1 (by decide)⟩

/-- C20 after `Set(1,10), Set(2,20), Set(3,30)` at capacity 2: the index maps key 3 to the
element with address 2. -/
theorem index_and_list_consistent_witness :
    mapGet (run (New 2 : cache Nat Nat)
      ([Op.set 1 10, Op.set 2 20, Op.set 3 30, Op.get 1].take 3)).index 3 = some 2 ∧
    ∃ x ∈ (run (New 2 : cache Nat Nat)
        ([Op.set 1 10, Op.set 2 20, Op.set 3 30, Op.get 1].take 3)).list,
      x.addr = 2 ∧ x.Value.key = 3 ∧
        ∀ y ∈ (run (New 2 : cache Nat Nat)
          ([Op.set 1 10, Op.set 2 20, Op.set 3 30, Op.get 1].take 3)).list,
          y.Value.key = 3 → y = x :=
  ⟨by decide, (index_and_list_consistent 2
    [(Op.set 1 10 : Op Nat Nat), Op.set 2 20, Op.set 3 30, Op.get 1] 3).2.2.1 3 2 (by decide)⟩

/-- C19 fails on the code.  `Get` takes the shared read lock (`c.RLock()`), so two calls of `Get`
are between lock and unlock at the same time, each moving its entry to the front of the one
list; a second `Set`, or a `Get` next to a `Set`, has to wait. -/
theorem two_Gets_hold_the_lock_together :
    schedule (initial [Method.Get, Method.Get]) [0, 1] =
      some { mutex := { readers := 2, writer := false },
             goroutines := [{ method := Method.Get, pc := Pc.critical },
                            { method := Method.Get, pc := Pc.critical }] } ∧
    (schedule (initial [Method.Get, Method.Get]) [0, 1]).map readersIn = some 2 ∧
    schedule (initial [Method.Set, Method.Set]) [0, 1] = none ∧
    schedule (initial [Method.Set, Method.Get]) [0, 1] = none := by
  decide

end lru

/-! ### The substitution engine -/

namespace playshields

section engineContract
variable {σ : Type}

/-- C6, as the code has it.  For a template that contains none of the registered tokens and not
the character U+1F4B2 of the sentinel `escapeDollar`, and a registry none of whose tokens has one
of the four byte values of that character, `replacePlaceHolders` returns the template unchanged
with a nil error and leaves the state as it was; with every resolver counting its calls the
counter is unchanged, so no resolver is invoked. -/
theorem template_without_tokens_unchanged (s : GoString)
    (reg : List (GoString × placeHolder σ)) (params : List GoString) (w : σ)
    (hs : ¬ heavyDollar <:+: s) (hreg : ∀ kv ∈ reg, ¬ kv.1 <:+: s)
    (htok : ∀ kv ∈ reg, ∀ c ∈ kv.1, c ∉ heavyDollar) :
    replacePlaceHolders s reg params w = ((s, none), w) ∧
      ∀ n, replacePlaceHolders s (countedRegistry reg) params (w, n) = ((s, none), (w, n)) := by
  refine ⟨replacePlaceHolders_absent s reg params w hs hreg htok, fun n => ?_⟩
  apply replacePlaceHolders_absent s (countedRegistry reg) params (w, n) hs
  · intro kv hkv
    obtain ⟨kv0, h0, e⟩ := mem_countedRegistry reg kv hkv
    rw [e]; exact hreg kv0 h0
  · intro kv hkv
    obtain ⟨kv0, h0, e⟩ := mem_countedRegistry reg kv hkv
    rw [e]; exact htok kv0 h0

/-- C7, as the code has it.  For a template without the byte `0xf0` (the first byte of the
sentinel), a registry whose tokens are non-empty and have none of the four byte values of the
sentinel, and resolved values without the byte `0xf0`: the template is cut at the `$$` pairs of a
left-to-right non-overlapping scan into pieces (they are free of `$$`, and a piece followed by a
pair does not end in `$`), and the result is these pieces, each with the successfully resolved
tokens substituted in it, joined by `$$` again; so every pair is emitted as `$$` and no token is
matched through a pair.  With `$version` the one
registered token, resolving without error to a value `v` of at most 1000 bytes that does not
contain the sentinel, the template `$$version $version` renders as `$$version v` with a nil
error. -/
theorem escape_law :
    (∀ (s : GoString) (reg : List (GoString × placeHolder σ)) (params : List GoString) (w : σ),
      (∀ b ∈ s, b ≠ 0xf0) →
      (∀ kv ∈ reg, kv.1 ≠ [] ∧ ∀ b ∈ kv.1, b ∉ heavyDollar) →
      (∀ c ∈ calls params reg (ReplaceAll s dollarDollar escapeDollar) w,
        c.err = none → ∀ b ∈ c.value, b ≠ 0xf0) →
      ∃ ps : List GoString, ps ≠ [] ∧ s = Join ps dollarDollar ∧
        (∀ p ∈ ps, ¬ dollarDollar <:+: p) ∧
        (∀ p ∈ ps.dropLast, ¬ dollarDollar <:+: p ++ dollarDollar.dropLast) ∧
        (replacePlaceHolders s reg params w).1.1 =
          Join (ps.map (fun p =>
            substituted p (calls params reg (ReplaceAll s dollarDollar escapeDollar) w)))
            dollarDollar) ∧
    (∀ (ph : placeHolder σ) (params : List GoString) (w w1 : σ) (v : GoString),
      ph.placeHolderGetter (ascii "$version") params w = ((v, none), w1) →
      v.length ≤ 1000 → ¬ escapeDollar <:+: v →
      replacePlaceHolders (ascii "$$version $version") [(ascii "$version", ph)] params w =
        ((ascii "$$version " ++ v, none), w1)) :=
  ⟨replacePlaceHolders_pieces, render_escaped_version⟩

/-- C8. `replacePlaceHolder` invokes the resolver `f` once when the token `t` occurs in `s` and
not at all otherwise.  When `t` does not occur nothing changes.  When `f` succeeds with `v` the
result is `strings.ReplaceAll(s, t, v')` for the one length-capped value `v'`, which for a
non-empty token is `s` cut at the instances of `t` found by a left-to-right non-overlapping scan
into pieces free of `t` and joined again with `v'`, and the error slice is unchanged.  When `f` fails the result is `s` and exactly that error
is appended to the error slice. -/
theorem replacePlaceHolder_contract (errorArr : List error) (s t : GoString)
    (f : placeHolderGetter σ) (params : List GoString) (w : σ) (n : Nat) :
    (replacePlaceHolder errorArr s t (counted f) params (w, n)).2.2 =
        n + (if t <:+: s then 1 else 0) ∧
    (¬ t <:+: s → replacePlaceHolder errorArr s t f params w = ((s, errorArr), w)) ∧
    (t <:+: s → ∀ v w1, f t params w = ((v, none), w1) →
      replacePlaceHolder errorArr s t f params w =
          ((ReplaceAll s t (if v.length > 1000 then v.take 1000 else v), errorArr), w1) ∧
        (t ≠ [] → ∃ ps : List GoString, ps ≠ [] ∧ s = Join ps t ∧ (∀ q ∈ ps, ¬ t <:+: q) ∧
          (∀ q ∈ ps.dropLast, ¬ t <:+: q ++ t.dropLast) ∧
          ReplaceAll s t (if v.length > 1000 then v.take 1000 else v) =
            Join ps (if v.length > 1000 then v.take 1000 else v))) ∧
    (t <:+: s → ∀ v e w1, f t params w = ((v, some e), w1) →
      replacePlaceHolder errorArr s t f params w = ((s, errorArr ++ [some e]), w1)) := by
  refine ⟨counted_replacePlaceHolder errorArr s t f params w n, ?_, ?_, ?_⟩
  · intro h
    exact replacePlaceHolder_absent _ _ _ _ _ _ (by simpa [Contains] using h)
  · intro h v w1 hf
    refine ⟨?_, fun ht => ReplaceAll_pieces t _ ht s⟩
    rw [replacePlaceHolder_present _ _ _ _ _ _ ((Contains_iff s t).2 h), hf]
    simp
  · intro h v e w1 hf
    rw [replacePlaceHolder_present _ _ _ _ _ _ ((Contains_iff s t).2 h), hf]
    simp

/-- C9, as the code has it.  The value substituted by `replacePlaceHolder` for a resolver result
`v` is `v` itself when `len(v)`, the number of bytes of `v`, is at most 1000, and the first
1000 bytes of `v` otherwise; it is at most 1000 bytes long. -/
theorem substituted_value_capped_at_1000_bytes (errorArr : List error) (s t : GoString)
    (f : placeHolderGetter σ) (params : List GoString) (w w1 : σ) (v : GoString)
    (ht : t <:+: s) (hf : f t params w = ((v, none), w1)) :
    (replacePlaceHolder errorArr s t f params w).1.1 =
        ReplaceAll s t (if v.length ≤ 1000 then v else v.take 1000) ∧
      (if v.length ≤ 1000 then v else v.take 1000).length ≤ 1000 := by
  constructor
  · rw [replacePlaceHolder_present _ _ _ _ _ _ ((Contains_iff s t).2 ht), hf]
    by_cases h : v.length ≤ 1000
    · have h2 : ¬ v.length > 1000 := by omega
      simp [h, h2]
    · have h2 : v.length > 1000 := by omega
      simp [h, h2]
  · split
    · assumption
    · simp only [List.length_take]; omega

/-- C10, as the code has it.  `replacePlaceHolders` returns a non-nil error exactly when at
least one resolver that it invokes fails, the resolver of a token being invoked when the token
occurs in the working string at its turn (the template with every `$$` replaced by the sentinel,
after the substitutions made so far).  The error message is then the messages of the failed
resolvers in the order of processing, joined with `,`; the returned text is the working string
with every successfully resolved token substituted and the sentinel turned back into `$$`. -/
theorem error_iff_invoked_resolver_fails (s : GoString)
    (reg : List (GoString × placeHolder σ)) (params : List GoString) (w : σ) :
    ((replacePlaceHolders s reg params w).1.2 ≠ none ↔
      ∃ c ∈ calls params reg (ReplaceAll s dollarDollar escapeDollar) w, c.err ≠ none) ∧
    ((∃ c ∈ calls params reg (ReplaceAll s dollarDollar escapeDollar) w, c.err ≠ none) →
      (replacePlaceHolders s reg params w).1.2 =
        some (Join ((calls params reg (ReplaceAll s dollarDollar escapeDollar) w).filterMap
          (fun c => c.err)) [0x2c])) ∧
    (replacePlaceHolders s reg params w).1.1 =
      ReplaceAll
        (substituted (ReplaceAll s dollarDollar escapeDollar)
          (calls params reg (ReplaceAll s dollarDollar escapeDollar) w))
        escapeDollar dollarDollar := by
  rw [replacePlaceHolders_eq, combineErrors_failed]
  refine ⟨?_, ?_, rfl⟩
  · constructor
    · intro h
      by_contra hc
      apply h
      rw [if_pos]
      intro c hc2
      by_contra hne
      exact hc ⟨c, hc2, hne⟩
    · rintro ⟨c, hc, hne⟩
      rw [if_neg]
      · simp
      · intro hall
        exact hne (hall c hc)
  · rintro ⟨c, hc, hne⟩
    rw [if_neg]
    intro hall
    exact hne (hall c hc)

end engineContract

/-- C6 as stated fails in two ways.  The template made of the sentinel itself contains no token
of the registry with the one token `$version`, yet `$$` is returned for it.  And the template
`$$` does not contain the token U+1F4B2, yet the resolver of that token is invoked (the call
counter goes from 0 to 1) and `xx` is returned. -/
theorem template_without_tokens_changed :
    ((∀ kv ∈ [(ascii "$version", constResolver (ascii "1.0"))], ¬ kv.1 <:+: escapeDollar) ∧
      (replacePlaceHolders escapeDollar [(ascii "$version", constResolver (ascii "1.0"))]
        [] ()).1 = (dollarDollar, none) ∧
      dollarDollar ≠ escapeDollar) ∧
    ((∀ kv ∈ [(heavyDollar, constResolver (ascii "x"))], ¬ kv.1 <:+: dollarDollar) ∧
      replacePlaceHolders dollarDollar
        (countedRegistry [(heavyDollar, constResolver (ascii "x"))]) [] ((), 0) =
        ((ascii "xx", none), ((), 1))) := by
  refine ⟨⟨?_, ?_, ?_⟩, ?_, ?_⟩
  · intro kv hkv
    simp only [List.mem_singleton] at hkv
    subst hkv
    decide
  · decide
  · decide
  · intro kv hkv
    simp only [List.mem_singleton] at hkv
    subst hkv
    decide
  · decide

set_option maxRecDepth 8192 in
/-- C6 (amended) for the template `play` and the registry with the one token `$version`. -/
theorem template_without_tokens_unchanged_witness :
    ¬ heavyDollar <:+: ascii "play" ∧
    (∀ kv ∈ [(ascii "$version", constResolver (ascii "1.0"))], ¬ kv.1 <:+: ascii "play") ∧
    (∀ kv ∈ [(ascii "$version", constResolver (ascii "1.0"))], ∀ c ∈ kv.1, c ∉ heavyDollar) ∧
    replacePlaceHolders (ascii "play") [(ascii "$version", constResolver (ascii "1.0"))] [] () =
      ((ascii "play", none), ()) :=
  have h1 : ¬ heavyDollar <:+: ascii "play" := by decide
  have h2 : ∀ kv ∈ [(ascii "$version", constResolver (ascii "1.0"))],
      ¬ kv.1 <:+: ascii "play" := by
    intro kv hkv; simp only [List.mem_singleton] at hkv; subst hkv; decide
  have h3 : ∀ kv ∈ [(ascii "$version", constResolver (ascii "1.0"))],
      ∀ c ∈ kv.1, c ∉ heavyDollar := by
    intro kv hkv; simp only [List.mem_singleton] at hkv; subst hkv; decide
  ⟨h1, h2, h3, (template_without_tokens_unchanged (ascii "play")
    [(ascii "$version", constResolver (ascii "1.0"))] [] () h1 h2 h3).1⟩

/-- C10 as stated fails in two ways.  The token `$x` occurs in the template `$$x` and its
resolver fails, yet the error is nil.  And with the two failing tokens of `$a$b` the message is
`e1,e2`, not the concatenation `e1e2`. -/
theorem error_not_for_escaped_token_and_comma_joined :
    (ascii "$x" <:+: ascii "$$x" ∧
      ((failResolver (ascii "e")).placeHolderGetter (ascii "$x") [] ()).1.2 ≠ none ∧
      (replacePlaceHolders (ascii "$$x") [(ascii "$x", failResolver (ascii "e"))] [] ()).1.2 =
        none) ∧
    ((replacePlaceHolders (ascii "$a$b")
        [(ascii "$a", failResolver (ascii "e1")), (ascii "$b", failResolver (ascii "e2"))]
        [] ()).1.2 = some (ascii "e1,e2") ∧
      ascii "e1,e2" ≠ ascii "e1" ++ ascii "e2") := by
  refine ⟨⟨?_, ?_, ?_⟩, ?_, ?_⟩ <;> decide

/-- C10 (amended) for the template `$a$b` with both resolvers failing. -/
theorem error_iff_invoked_resolver_fails_witness :
    (∃ c ∈ calls [] [(ascii "$a", failResolver (ascii "e1")),
        (ascii "$b", failResolver (ascii "e2"))]
        (ReplaceAll (ascii "$a$b") dollarDollar escapeDollar) (), c.err ≠ none) ∧
    (replacePlaceHolders (ascii "$a$b")
        [(ascii "$a", failResolver (ascii "e1")), (ascii "$b", failResolver (ascii "e2"))]
        [] ()).1.2 =
      some (Join ((calls [] [(ascii "$a", failResolver (ascii "e1")),
          (ascii "$b", failResolver (ascii "e2"))]
          (ReplaceAll (ascii "$a$b") dollarDollar escapeDollar) ()).filterMap
          (fun c => c.err)) [0x2c]) :=
  have h : ∃ c ∈ calls [] [(ascii "$a", failResolver (ascii "e1")),
      (ascii "$b", failResolver (ascii "e2"))]
      (ReplaceAll (ascii "$a$b") dollarDollar escapeDollar) (), c.err ≠ none :=
    ⟨{ token := ascii "$a", value := [], err := some (ascii "e1") }, by decide, by decide⟩
  ⟨h, (error_iff_invoked_resolver_fails (ascii "$a$b")
    [(ascii "$a", failResolver (ascii "e1")), (ascii "$b", failResolver (ascii "e2"))]
    [] ()).2.1 h⟩

/-- C7 as stated fails on the sentinel.  With no token registered the template made of the
character U+1F4B2 followed by `$$` is returned as `$$` followed by that character: the pair is
not emitted where it stands.  And with `$version` resolving to the sentinel the template
`$$version $version` renders as `$$version $$`, not as `$$version` followed by the value. -/
theorem escape_law_fails_on_sentinel :
    ((replacePlaceHolders (heavyDollar ++ dollarDollar)
        ([] : List (GoString × placeHolder Unit)) [] ()).1 =
        (dollarDollar ++ heavyDollar, none) ∧
      dollarDollar ++ heavyDollar ≠ heavyDollar ++ dollarDollar) ∧
    ((constResolver escapeDollar).placeHolderGetter (ascii "$version") [] () =
        ((escapeDollar, none), ()) ∧
      (replacePlaceHolders (ascii "$$version $version")
        [(ascii "$version", constResolver escapeDollar)] [] ()).1 =
        (ascii "$$version $$", none) ∧
      ascii "$$version $$" ≠ ascii "$$version " ++ escapeDollar) := by
  refine ⟨⟨?_, ?_⟩, ?_, ?_, ?_⟩ <;> decide

/-- C7 (amended) for `$version` resolving to `1.2`. -/
theorem escape_law_witness :
    (constResolver (ascii "1.2")).placeHolderGetter (ascii "$version") [] () =
      ((ascii "1.2", none), ()) ∧
    (ascii "1.2").length ≤ 1000 ∧ ¬ escapeDollar <:+: ascii "1.2" ∧
    replacePlaceHolders (ascii "$$version $version")
        [(ascii "$version", constResolver (ascii "1.2"))] [] () =
      ((ascii "$$version " ++ ascii "1.2", none), ()) :=
  ⟨rfl, by decide, by decide,
    (@escape_law Unit).2 (constResolver (ascii "1.2")) [] () () (ascii "1.2") rfl
      (by decide) (by decide)⟩

/-- C8 for the token `$x` in `a$xb$x`, resolved to `1`. -/
theorem replacePlaceHolder_contract_witness :
    ascii "$x" <:+: ascii "a$xb$x" ∧
    replacePlaceHolder [] (ascii "a$xb$x") (ascii "$x")
        (fun _ _ (w : Unit) => ((ascii "1", none), w)) [] () =
      ((ReplaceAll (ascii "a$xb$x") (ascii "$x")
        (if (ascii "1").length > 1000 then (ascii "1").take 1000 else ascii "1"), []), ()) :=
  ⟨by decide,
    ((replacePlaceHolder_contract [] (ascii "a$xb$x") (ascii "$x")
      (fun _ _ (w : Unit) => ((ascii "1", none), w)) [] () 0).2.2.1 (by decide)
        (ascii "1") () rfl).1⟩

/-- C9 as stated fails: 501 characters `é` are 1002 bytes, and the text substituted for them is
not the value itself (it is its first 1000 bytes). -/
theorem truncation_counts_bytes_not_characters :
    RuneCountInString (eAcute 501) ≤ 1000 ∧
    (replacePlaceHolder [] (ascii "$x") (ascii "$x")
      (fun _ _ (w : Unit) => ((eAcute 501, none), w)) [] ()).1.1 ≠ eAcute 501 := by
  constructor
  · rw [runeCount_eAcute]; decide
  · intro h
    have h1 := (substituted_value_capped_at_1000_bytes [] (ascii "$x") (ascii "$x")
      (fun _ _ (w : Unit) => ((eAcute 501, none), w)) [] () () (eAcute 501)
      (List.infix_refl _) rfl).1
    rw [h] at h1
    have hl := length_eAcute 501
    have hcond : ¬ (eAcute 501).length ≤ 1000 := by omega
    rw [if_neg hcond] at h1
    have hne : ascii "$x" ≠ [] := by decide
    have h2 := ReplaceAll_at_instance (ascii "$x") ((eAcute 501).take 1000) [] hne
    rw [List.append_nil, ReplaceAll_nil _ _ hne, List.append_nil] at h2
    rw [h2] at h1
    have h3 := congrArg List.length h1
    rw [List.length_take, hl] at h3
    omega

/-- C9 (amended) for the value `12` substituted for `$x` in `a$x`. -/
theorem substituted_value_capped_at_1000_bytes_witness :
    ascii "$x" <:+: ascii "a$x" ∧
    (replacePlaceHolder [] (ascii "a$x") (ascii "$x")
        (fun _ _ (w : Unit) => ((ascii "12", none), w)) [] ()).1.1 =
      ReplaceAll (ascii "a$x") (ascii "$x")
        (if (ascii "12").length ≤ 1000 then ascii "12" else (ascii "12").take 1000) ∧
    (if (ascii "12").length ≤ 1000 then ascii "12" else (ascii "12").take 1000).length ≤ 1000 :=
  ⟨by decide, substituted_value_capped_at_1000_bytes [] (ascii "a$x") (ascii "$x")
    (fun _ _ (w : Unit) => ((ascii "12", none), w)) [] () () (ascii "12") (by decide) rfl⟩

end playshields

namespace playshields

/-- C11, as stated, fails: the order of the registry changes the text when a value contains a
token (`$a` resolving to `$b`), when a token is a prefix of another (`$a` and `$ab`), when a
value completes a token (`$a$c` with `$c` resolving to `b` next to the token `$ab`), when the
answer of a resolver depends on what another resolver did to the state (a shared counter) and
when tokens without `$` overlap (`ab` and `bc` in `abc`); and it changes whether the error is
`nil` when the value of `$a` contains the token `$b` of a resolver that fails. -/
theorem order_of_tokens_changes_the_result :
    [(ascii "$a", returning (constResolver (ascii "$b"))),
        (ascii "$b", returning (constResolver (ascii "x")))].Perm
      [(ascii "$b", returning (constResolver (ascii "x"))),
        (ascii "$a", returning (constResolver (ascii "$b")))] ∧
    (replacePlaceHoldersOrPanic (ascii "$a")
      [(ascii "$a", returning (constResolver (ascii "$b"))),
        (ascii "$b", returning (constResolver (ascii "x")))]
      [] ()).1 = some (ascii "x", none) ∧
    (replacePlaceHoldersOrPanic (ascii "$a")
      [(ascii "$b", returning (constResolver (ascii "x"))),
        (ascii "$a", returning (constResolver (ascii "$b")))]
      [] ()).1 = some (ascii "$b", none) ∧
    (replacePlaceHoldersOrPanic (ascii "$a")
      [(ascii "$a", returning (constResolver (ascii "$b"))),
        (ascii "$b", returning (failResolver (ascii "e")))]
      [] ()).1 = some (ascii "$b", some (ascii "e")) ∧
    (replacePlaceHoldersOrPanic (ascii "$a")
      [(ascii "$b", returning (failResolver (ascii "e"))),
        (ascii "$a", returning (constResolver (ascii "$b")))]
      [] ()).1 = some (ascii "$b", none) ∧
    (replacePlaceHoldersOrPanic (ascii "$ab")
      [(ascii "$a", returning (constResolver (ascii "1"))),
        (ascii "$ab", returning (constResolver (ascii "2")))]
      [] ()).1 = some (ascii "1b", none) ∧
    (replacePlaceHoldersOrPanic (ascii "$ab")
      [(ascii "$ab", returning (constResolver (ascii "2"))),
        (ascii "$a", returning (constResolver (ascii "1")))]
      [] ()).1 = some (ascii "2", none) ∧
    (replacePlaceHoldersOrPanic (ascii "$a$c")
      [(ascii "$ab", returning (constResolver (ascii "1"))),
        (ascii "$c", returning (constResolver (ascii "b")))]
      [] ()).1 = some (ascii "$ab", none) ∧
    (replacePlaceHoldersOrPanic (ascii "$a$c")
      [(ascii "$c", returning (constResolver (ascii "b"))),
        (ascii "$ab", returning (constResolver (ascii "1")))]
      [] ()).1 = some (ascii "1", none) ∧
    (replacePlaceHoldersOrPanic (ascii "$a-$b")
      [(ascii "$a",
          { placeHolderGetter := fun _ _ n => (some (List.replicate n 0x78, none), n + 1),
            description := [] }),
        (ascii "$b",
          { placeHolderGetter := fun _ _ n => (some (List.replicate n 0x78, none), n + 1),
            description := [] })]
      [] 1).1 = some (ascii "x-xx", none) ∧
    (replacePlaceHoldersOrPanic (ascii "$a-$b")
      [(ascii "$b",
          { placeHolderGetter := fun _ _ n => (some (List.replicate n 0x78, none), n + 1),
            description := [] }),
        (ascii "$a",
          { placeHolderGetter := fun _ _ n => (some (List.replicate n 0x78, none), n + 1),
            description := [] })]
      [] 1).1 = some (ascii "xx-x", none) ∧
    (replacePlaceHoldersOrPanic (ascii "abc")
      [(ascii "ab", returning (constResolver (ascii "1"))),
        (ascii "bc", returning (constResolver (ascii "2")))]
      [] ()).1 = some (ascii "1c", none) ∧
    (replacePlaceHoldersOrPanic (ascii "abc")
      [(ascii "bc", returning (constResolver (ascii "2"))),
        (ascii "ab", returning (constResolver (ascii "1")))]
      [] ()).1 = some (ascii "a2", none) := by
  refine ⟨List.Perm.swap _ _ _, ?_, ?_, ?_, ?_, ?_, ?_, ?_, ?_, ?_, ?_, ?_, ?_⟩ <;> decide

/-- C11, amended: for a registry whose tokens are distinct, each a `$` followed by bytes other
than `$`, none a prefix of another, whose resolvers are independent (on the states of a set `S`
that holds the state of the call and that the resolvers do not leave, a resolver that has
returned leaves every resolver of another token answering as before), whose resolvers that
succeed in the state of the call give a value without `$`, and for a template that, after the
escape of `$$`, is made of pieces that are each a token of the registry or a text without `$`:
the call of `replacePlaceHolders` panics in one order of the registry exactly when it panics in
the other, which is when the resolver of a token of the template panics, and otherwise the text
returned and whether the error is `nil` are the same in both orders: the text is the template
with every piece that is the token of a resolver that succeeds replaced by the value, cut to
1000 bytes, and the error is `nil` exactly when no resolver of a token of the template fails. -/
theorem order_of_independent_tokens_is_irrelevant {σ : Type}
    (reg reg1 : List (GoString × placeHolderOrPanic σ)) (hperm : reg.Perm reg1)
    (s : GoString) (params : List GoString) (w : σ)
    (hkeys : (reg.map Prod.fst).Nodup) (htok : ∀ kv ∈ reg, IsToken kv.1)
    (hpf : ∀ a ∈ reg, ∀ b ∈ reg, a.1 <+: b.1 → a.1 = b.1)
    (S : σ → Prop) (hS : S w) (hind : Independent S params reg)
    (hval : ∀ kv ∈ reg, ∀ v w1, kv.2.placeHolderGetter kv.1 params w = (some (v, none), w1) →
      (0x24 : Fin 256) ∉ v)
    (pieces : List GoString) (hs : ReplaceAll s dollarDollar escapeDollar = pieces.flatten)
    (hp : ∀ p ∈ pieces, (∃ kv ∈ reg, kv.1 = p) ∨ (0x24 : Fin 256) ∉ p) :
    ((replacePlaceHoldersOrPanic s reg params w).1 = none ↔
        (replacePlaceHoldersOrPanic s reg1 params w).1 = none) ∧
      ((replacePlaceHoldersOrPanic s reg params w).1 = none ↔
        ∃ kv ∈ reg, kv.1 ∈ pieces ∧ (kv.2.placeHolderGetter kv.1 params w).1 = none) ∧
      ∀ r r1, (replacePlaceHoldersOrPanic s reg params w).1 = some r →
        (replacePlaceHoldersOrPanic s reg1 params w).1 = some r1 →
        r.1 = r1.1 ∧ (r.2 = none ↔ r1.2 = none) ∧
          r1.1 = ReplaceAll
            (piecesAfter (fun kv => (kv.2.placeHolderGetter kv.1 params w).1) reg pieces).flatten
            escapeDollar dollarDollar ∧
          (r1.2 = none ↔ ∀ kv ∈ reg, kv.1 ∈ pieces → ∀ v err,
            (kv.2.placeHolderGetter kv.1 params w).1 ≠ some (v, some err)) := by
  obtain ⟨a1, a2⟩ := replacePlaceHoldersOrPanic_pieces reg s params w hkeys htok hpf S hS hind
    hval pieces hs hp
  obtain ⟨b1, b2⟩ := replacePlaceHoldersOrPanic_pieces reg1 s params w
    ((hperm.map Prod.fst).nodup_iff.1 hkeys)
    (fun kv h => htok kv (hperm.mem_iff.2 h))
    (fun a ha b hb => hpf a (hperm.mem_iff.2 ha) b (hperm.mem_iff.2 hb)) S hS
    (Independent_perm S params reg reg1 hperm hind)
    (fun kv h => hval kv (hperm.mem_iff.2 h)) pieces hs
    (fun p h => (hp p h).imp (fun ⟨kv, hkv, e⟩ => ⟨kv, hperm.mem_iff.1 hkv, e⟩) id)
  refine ⟨?_, a1, ?_⟩
  · rw [a1, b1]
    exact ⟨fun ⟨kv, h, c⟩ => ⟨kv, hperm.mem_iff.1 h, c⟩,
      fun ⟨kv, h, c⟩ => ⟨kv, hperm.mem_iff.2 h, c⟩⟩
  · intro r r1 h h1
    obtain ⟨c1, c2⟩ := a2 r h
    obtain ⟨d1, d2⟩ := b2 r1 h1
    have hpa := piecesAfter_perm (fun kv => (kv.2.placeHolderGetter kv.1 params w).1) reg reg1
      hperm hkeys htok
      (fun kv hkv v hv =>
        hval kv hkv v (kv.2.placeHolderGetter kv.1 params w).2 (Prod.ext hv rfl)) pieces
    have hfail : (∀ kv ∈ reg, kv.1 ∈ pieces → ∀ v err,
          (kv.2.placeHolderGetter kv.1 params w).1 ≠ some (v, some err)) ↔
        ∀ kv ∈ reg1, kv.1 ∈ pieces → ∀ v err,
          (kv.2.placeHolderGetter kv.1 params w).1 ≠ some (v, some err) :=
      ⟨fun c kv hkv => c kv (hperm.mem_iff.2 hkv), fun c kv hkv => c kv (hperm.mem_iff.1 hkv)⟩
    refine ⟨?_, ?_, ?_, ?_⟩
    · rw [c1, d1, hpa]
    · rw [c2, d2]
      exact hfail
    · rw [d1, hpa]
    · rw [d2]
      exact hfail.symm

set_option maxRecDepth 16384 in
/-- The resolvers of `$version`, `$installs` and `$targetsdk` of `main.go` on the template
`v$version ($installs)$$`, with the document of the app in `jsCache`, in two orders. -/
theorem order_of_independent_tokens_is_irrelevant_witness :
    (replacePlaceHoldersOrPanic (ascii "v$version ($installs)$$")
        (modelledPlaceHolders (fixedEnv (okResponse []))) [ascii "org.x"]
        (worldWithDoc (ascii "org.x") (storeDoc (ascii "1.0") (ascii "10+")))).1 =
      some (ascii "v1.0 (10+)$$", none) ∧
    (replacePlaceHoldersOrPanic (ascii "v$version ($installs)$$")
        [(ascii "$installs",
            { placeHolderGetter := playStoreGetInstalls (fixedEnv (okResponse [])),
              description := ascii "Installs" }),
          (ascii "$version",
            { placeHolderGetter := playStoreGetVersion (fixedEnv (okResponse [])),
              description := ascii "App version" }),
          (ascii "$targetsdk",
            { placeHolderGetter := playStoreGetTargetSdk (fixedEnv (okResponse [])),
              description := ascii "Target SDK" })]
        [ascii "org.x"]
        (worldWithDoc (ascii "org.x") (storeDoc (ascii "1.0") (ascii "10+")))).1 =
      some (ascii "v1.0 (10+)$$", none) ∧
    ((replacePlaceHoldersOrPanic (ascii "v$version ($installs)$$")
        (modelledPlaceHolders (fixedEnv (okResponse []))) [ascii "org.x"]
        (worldWithDoc (ascii "org.x") (storeDoc (ascii "1.0") (ascii "10+")))).1 = none ↔
      (replacePlaceHoldersOrPanic (ascii "v$version ($installs)$$")
        [(ascii "$installs",
            { placeHolderGetter := playStoreGetInstalls (fixedEnv (okResponse [])),
              description := ascii "Installs" }),
          (ascii "$version",
            { placeHolderGetter := playStoreGetVersion (fixedEnv (okResponse [])),
              description := ascii "App version" }),
          (ascii "$targetsdk",
            { placeHolderGetter := playStoreGetTargetSdk (fixedEnv (okResponse [])),
              description := ascii "Target SDK" })]
        [ascii "org.x"]
        (worldWithDoc (ascii "org.x") (storeDoc (ascii "1.0") (ascii "10+")))).1 = none) :=
  have h1 : (replacePlaceHoldersOrPanic (ascii "v$version ($installs)$$")
      (modelledPlaceHolders (fixedEnv (okResponse []))) [ascii "org.x"]
      (worldWithDoc (ascii "org.x") (storeDoc (ascii "1.0") (ascii "10+")))).1 =
      some (ascii "v1.0 (10+)$$", none) := by decide
  have h2 : (replacePlaceHoldersOrPanic (ascii "v$version ($installs)$$")
      [(ascii "$installs",
          { placeHolderGetter := playStoreGetInstalls (fixedEnv (okResponse [])),
            description := ascii "Installs" }),
        (ascii "$version",
          { placeHolderGetter := playStoreGetVersion (fixedEnv (okResponse [])),
            description := ascii "App version" }),
        (ascii "$targetsdk",
          { placeHolderGetter := playStoreGetTargetSdk (fixedEnv (okResponse [])),
            description := ascii "Target SDK" })]
      [ascii "org.x"]
      (worldWithDoc (ascii "org.x") (storeDoc (ascii "1.0") (ascii "10+")))).1 =
      some (ascii "v1.0 (10+)$$", none) := by decide
  ⟨h1, h2,
    (order_of_independent_tokens_is_irrelevant
      (modelledPlaceHolders (fixedEnv (okResponse [])))
      [(ascii "$installs",
          { placeHolderGetter := playStoreGetInstalls (fixedEnv (okResponse [])),
            description := ascii "Installs" }),
        (ascii "$version",
          { placeHolderGetter := playStoreGetVersion (fixedEnv (okResponse [])),
            description := ascii "App version" }),
        (ascii "$targetsdk",
          { placeHolderGetter := playStoreGetTargetSdk (fixedEnv (okResponse [])),
            description := ascii "Target SDK" })]
      (List.Perm.swap _ _ _) (ascii "v$version ($installs)$$") [ascii "org.x"]
      (worldWithDoc (ascii "org.x") (storeDoc (ascii "1.0") (ascii "10+")))
      (by decide)
      (by
        intro kv h
        simp only [modelledPlaceHolders, List.mem_cons, List.mem_singleton, List.not_mem_nil,
          or_false] at h
        rcases h with rfl | rfl | rfl
        · exact IsToken_cons (ascii "version") (by decide)
        · exact IsToken_cons (ascii "installs") (by decide)
        · exact IsToken_cons (ascii "targetsdk") (by decide))
      (by
        intro a ha b hb hab
        simp only [modelledPlaceHolders, List.mem_cons, List.mem_singleton, List.not_mem_nil,
          or_false] at ha hb
        rcases ha with rfl | rfl | rfl <;> rcases hb with rfl | rfl | rfl <;>
          first
            | rfl
            | exact absurd hab (by decide))
      GoodWorld (GoodWorld_worldWithDoc _ _)
      (modelledPlaceHolders_independent _ _)
      (by
        intro kv h v w1 hr
        simp only [modelledPlaceHolders, List.mem_cons, List.mem_singleton, List.not_mem_nil,
          or_false] at h
        rcases h with rfl | rfl | rfl
        · have e : (playStoreGetVersion (fixedEnv (okResponse [])) (ascii "$version")
              [ascii "org.x"]
              (worldWithDoc (ascii "org.x") (storeDoc (ascii "1.0") (ascii "10+")))).1 =
              some (ascii "1.0", none) := by decide
          have hr1 := congrArg Prod.fst hr
          rw [e] at hr1
          simp only [Option.some.injEq, Prod.mk.injEq, and_true] at hr1
          rw [← hr1]
          decide
        · have e : (playStoreGetInstalls (fixedEnv (okResponse [])) (ascii "$installs")
              [ascii "org.x"]
              (worldWithDoc (ascii "org.x") (storeDoc (ascii "1.0") (ascii "10+")))).1 =
              some (ascii "10+", none) := by decide
          have hr1 := congrArg Prod.fst hr
          rw [e] at hr1
          simp only [Option.some.injEq, Prod.mk.injEq, and_true] at hr1
          rw [← hr1]
          decide
        · have e : (playStoreGetTargetSdk (fixedEnv (okResponse [])) (ascii "$targetsdk")
              [ascii "org.x"]
              (worldWithDoc (ascii "org.x") (storeDoc (ascii "1.0") (ascii "10+")))).1 =
              some (ascii "0", none) := by decide
          have hr1 := congrArg Prod.fst hr
          rw [e] at hr1
          simp only [Option.some.injEq, Prod.mk.injEq, and_true] at hr1
          rw [← hr1]
          decide)
      [ascii "v", ascii "$version", ascii " (", ascii "$installs", ascii ")", escapeDollar]
      (by decide)
      (by
        intro p h
        simp only [List.mem_cons, List.mem_singleton, List.not_mem_nil, or_false] at h
        rcases h with rfl | rfl | rfl | rfl | rfl | rfl
        · exact Or.inr (by decide)
        · exact Or.inl ⟨_, List.mem_cons_self _ _, rfl⟩
        · exact Or.inr (by decide)
        · exact Or.inl ⟨_, List.mem_cons_of_mem _ (List.mem_cons_self _ _), rfl⟩
        · exact Or.inr (by decide)
        · exact Or.inr (by decide))).1⟩

end playshields
/-! ### The fetchers and the resolvers -/

namespace playshields

section fetchContract
variable {ν : Type}

/-- C13. If `cachedGetBody(u)` on a miss returns an error or a content `r` (a transport error,
the text of a status that is not accepted, the error of the read, a body), then `htmlCache`
holds `r` under `u` right after the call, and every later `cachedGetBody(u)`, made after any
calls of `cachedGetBody` through which `u` has stayed in `htmlCache`, returns the same `r` (the
same failure text, the stored body) and leaves the state of the network as it is, so it makes no
network call.  The capacity of `htmlCache` is not negative: it is 500. -/
theorem cached_result_served_without_network (env : Env ν) (u : GoString) (w0 w1 : World ν)
    (r : Except GoString GoString) (hI : lru.Inv w0.htmlCache) (hmax : 0 ≤ w0.htmlCache.max)
    (hm : (w0.htmlCache.Get u).2.2 = false) (h : cachedGetBody env u w0 = (some r, w1)) :
    (w1.htmlCache.Get u).2 = (some (stored r), true) ∧
      ∀ urls : List GoString,
        (∀ i, 0 < i → u ∈ lru.keys (runBody env (urls.take i) w1).htmlCache) →
        (cachedGetBody env u (runBody env urls w1)).1 = some r ∧
          (cachedGetBody env u (runBody env urls w1)).2.net = (runBody env urls w1).net := by
  have hI1 : lru.Inv w1.htmlCache := by
    have := Inv_cachedGetBody env u w0 hI
    rw [h] at this
    exact this
  have hx : (u, stored r) ∈ lru.entries w1.htmlCache :=
    stored_after_miss env u w0 w1 r hI hmax hm h
  refine ⟨lru.Get_of_mem_entries _ hI1 u _ hx, ?_⟩
  intro urls hk
  have hk0 : ∀ i, u ∈ lru.keys (runBody env (urls.take i) w1).htmlCache := by
    intro i
    rcases Nat.eq_zero_or_pos i with e | e
    · rw [e]
      simp only [List.take_zero, runBody, List.foldl_nil]
      exact (lru.mem_keys_iff_entries _ u).2 ⟨_, hx⟩
    · exact hk i e
  have hx2 := entry_kept_runBody env u (stored r) urls w1 hI1 hx hk0
  rw [cachedGetBody_hit env u _ (Inv_runBody env urls w1 hI1) (stored r) hx2, served_stored]
  exact ⟨rfl, rfl⟩

/-- C14, as the code has it.  On a miss `cachedGetBody` fails exactly when `http.Get` errs, the
status code is not 200, or reading the body errs: it caches and returns the error text of
`http.Get`, the status text for every status code other than 200, the error text of the read;
for status code 200 and a body that contains `</head>` it caches and returns as success the part
of the body after the first `</head>`. -/
theorem cachedGetBody_on_miss (env : Env ν) (u : GoString) (w : World ν)
    (hm : (w.htmlCache.Get u).2.2 = false) :
    (∀ err n1, env.httpGet u w.net = (Except.error err, n1) →
      cachedGetBody env u w =
        (some (Except.error err),
          { htmlCache := w.htmlCache.Set u { errorStr := err, ok := false, content := [] },
            jsCache := w.jsCache, net := n1 })) ∧
    (∀ resp n1, env.httpGet u w.net = (Except.ok resp, n1) → resp.StatusCode ≠ 200 →
      cachedGetBody env u w =
        (some (Except.error resp.Status),
          { htmlCache := w.htmlCache.Set u { errorStr := resp.Status, ok := false, content := [] },
            jsCache := w.jsCache, net := n1 })) ∧
    (∀ resp n1 data err, env.httpGet u w.net = (Except.ok resp, n1) → resp.StatusCode = 200 →
      resp.Body = (data, some err) →
      cachedGetBody env u w =
        (some (Except.error err),
          { htmlCache := w.htmlCache.Set u { errorStr := err, ok := false, content := [] },
            jsCache := w.jsCache, net := n1 })) ∧
    (∀ resp n1 data, env.httpGet u w.net = (Except.ok resp, n1) → resp.StatusCode = 200 →
      resp.Body = (data, none) → ascii "</head>" <:+: data →
      ∃ a b, data = a ++ (ascii "</head>" ++ b) ∧
        ¬ ascii "</head>" <:+: a ++ (ascii "</head>").dropLast ∧
        cachedGetBody env u w =
          (some (Except.ok b),
            { htmlCache := w.htmlCache.Set u { content := b, ok := true, errorStr := [] },
              jsCache := w.jsCache, net := n1 })) := by
  have h2 := lru.Get_not_ok w.htmlCache u hm
  refine ⟨?_, ?_, ?_, ?_⟩
  · intro err n1 he
    unfold cachedGetBody
    rw [h2]
    simp only [he]
  · intro resp n1 he hs
    unfold cachedGetBody
    rw [h2]
    simp only [he, hs, ne_eq, not_false_eq_true, if_true]
  · intro resp n1 data err he hs hb
    unfold cachedGetBody
    rw [h2]
    simp only [he, hs, hb, ne_eq, not_true_eq_false, if_false]
  · intro resp n1 data he hs hb hin
    have hne : ascii "</head>" ≠ [] := by decide
    obtain ⟨r, hr⟩ := Cut_of_infix (ascii "</head>") data hin
    obtain ⟨h3, h4⟩ := Cut_some (ascii "</head>") hne data r.1 r.2 hr
    refine ⟨r.1, r.2, h3, h4, ?_⟩
    unfold cachedGetBody
    rw [h2]
    simp only [he, hs, hb, ne_eq, not_true_eq_false, if_false, SplitN2, hr]
    rfl

/-- C17. When `cachedGetJson` returns an error, `jsCache` is what it was before the call: the
same entries in the same order.  When it succeeds on a miss, `jsCache` is the cache before the
call after `Set(appid, js)` for the document `js` returned, and `Get(appid)` finds this
document. -/
theorem cachedGetJson_caches_only_success (env : Env ν) (params : List GoString)
    (w w1 : World ν) :
    (∀ err, cachedGetJson env params w = (some (Except.error err), w1) →
      w1.jsCache = w.jsCache) ∧
    (∀ appid rest js, params = appid :: rest → lru.Inv w.jsCache → 0 ≤ w.jsCache.max →
      (w.jsCache.Get appid).2.2 = false →
      cachedGetJson env params w = (some (Except.ok js), w1) →
      w1.jsCache = w.jsCache.Set appid js ∧ (w1.jsCache.Get appid).2 = (some js, true)) := by
  constructor
  · intro err h
    unfold cachedGetJson at h
    split at h
    · cases h
    · rename_i appid rest
      split at h
      · cases h
      · cases h
      · rename_i c1 o hg
        have hg2 : (w.jsCache.Get appid).2.2 = false := by rw [hg]
        have hg3 := lru.Get_not_ok w.jsCache appid hg2
        rw [hg] at hg3
        have hc1 : c1 = w.jsCache := by
          have := congrArg Prod.fst hg3
          exact this
        have hb := jsCache_cachedGetBody env (playstoreAppURL ++ QueryEscape appid)
          { w with jsCache := c1 }
        split at h
        · cases h
        · rename_i err2 w2 hcb
          rw [hcb] at hb
          simp only [Prod.mk.injEq, Option.some.injEq, Except.error.injEq] at h
          rw [← h.2, hb, hc1]
        · rename_i content w2 hcb
          rw [hcb] at hb
          split at h
          · cases h
          · split at h
            · simp only [Prod.mk.injEq, Option.some.injEq, Except.error.injEq] at h
              rw [← h.2, hb, hc1]
            · cases h
  · intro appid rest js hp hI hmax hm h
    subst hp
    have hg3 := lru.Get_not_ok w.jsCache appid hm
    unfold cachedGetJson at h
    dsimp only at h
    rw [hg3] at h
    dsimp only at h
    have hb := jsCache_cachedGetBody env (playstoreAppURL ++ QueryEscape appid)
      { w with jsCache := w.jsCache }
    have hset : w1.jsCache = w.jsCache.Set appid js := by
      split at h
      · cases h
      · cases h
      · rename_i content w2 hcb
        rw [hcb] at hb
        split at h
        · cases h
        · split at h
          · cases h
          · simp only [Prod.mk.injEq, Option.some.injEq, Except.ok.injEq] at h
            have hb2 : w2.jsCache = w.jsCache := hb
            rw [← h.2, ← h.1]
            simp only [hb2]
    exact ⟨hset, by rw [hset]; exact lru.Get_after_Set _ hI hmax appid js⟩

/-- C16, as the code has it.  When `cachedGetJson` returns a document in which the index path of
a resolver runs out of range or ends at a leaf of the wrong type (the path does not lead to a
string, for `playStoreGetTargetSdk` to a number), the resolver does not panic and returns its
fallback text with a nil error: the empty string for `playStoreGetInstalls`,
`Varies with device` for `playStoreGetVersion`, `0` for `playStoreGetTargetSdk`.  When the path
leads to a string, or for `playStoreGetTargetSdk` to a number, the resolver returns the text of
the leaf with a nil error (`Varies with device` for a version of white space only).  A resolver
returns a non-nil error only when `cachedGetJson` returns an error, and then the error is
`app unavailable: ` followed by the text of that error, whatever the name of the placeholder;
and it panics only when `cachedGetJson` panics. -/
theorem resolvers_fall_back_without_error (env : Env ν) (name : GoString)
    (params : List GoString) (w w1 : World ν) :
    (∀ js, cachedGetJson env params w = (some (Except.ok js), w1) →
      ((∀ s, getPath js [1, 2, 13, 3] ≠ Json.string s) →
        playStoreGetInstalls env name params w = (some ([], none), w1)) ∧
      ((∀ s, getPath js [1, 2, 140, 0, 0, 0] ≠ Json.string s) →
        playStoreGetVersion env name params w = (some (ascii "Varies with device", none), w1)) ∧
      ((∀ l, getPath js [1, 2, 140, 1, 0, 0, 0] ≠ Json.number l) →
        playStoreGetTargetSdk env name params w = (some (ascii "0", none), w1)) ∧
      (∀ s, getPath js [1, 2, 13, 3] = Json.string s →
        playStoreGetInstalls env name params w = (some (s, none), w1)) ∧
      (∀ s, getPath js [1, 2, 140, 0, 0, 0] = Json.string s →
        playStoreGetVersion env name params w =
          (some (if TrimSpace s = [] then ascii "Varies with device" else s, none), w1)) ∧
      (∀ l, getPath js [1, 2, 140, 1, 0, 0, 0] = Json.number l →
        playStoreGetTargetSdk env name params w =
          (some (Sprint ((ParseInt l).getD 0), none), w1))) ∧
    (∀ err, cachedGetJson env params w = (some (Except.error err), w1) →
      playStoreGetInstalls env name params w =
          (some ([], some (ascii "app unavailable: " ++ err)), w1) ∧
        playStoreGetVersion env name params w =
          (some ([], some (ascii "app unavailable: " ++ err)), w1) ∧
        playStoreGetTargetSdk env name params w =
          (some ([], some (ascii "app unavailable: " ++ err)), w1)) ∧
    (∀ text e,
      playStoreGetInstalls env name params w = (some (text, some e), w1) ∨
        playStoreGetVersion env name params w = (some (text, some e), w1) ∨
        playStoreGetTargetSdk env name params w = (some (text, some e), w1) →
      ∃ err, cachedGetJson env params w = (some (Except.error err), w1) ∧
        e = ascii "app unavailable: " ++ err) ∧
    (((playStoreGetInstalls env name params w).1 = none ↔
        (cachedGetJson env params w).1 = none) ∧
      ((playStoreGetVersion env name params w).1 = none ↔
        (cachedGetJson env params w).1 = none) ∧
      ((playStoreGetTargetSdk env name params w).1 = none ↔
        (cachedGetJson env params w).1 = none)) := by
  refine ⟨?_, ?_, ?_, ?_⟩
  · intro js h
    refine ⟨?_, ?_, ?_, ?_, ?_, ?_⟩
    · intro hs
      simp only [playStoreGetInstalls, h, MustString_of_not_string _ hs]
    · intro hs
      simp only [playStoreGetVersion, h, MustString_of_not_string _ hs, TrimSpace_nil, if_true]
    · intro hs
      simp only [playStoreGetTargetSdk, h, MustInt_of_not_number _ hs, Sprint_zero]
    · intro s hs
      simp only [playStoreGetInstalls, h, hs, MustString]
    · intro s hs
      simp only [playStoreGetVersion, h, hs, MustString]
      split <;> rfl
    · intro l hl
      simp only [playStoreGetTargetSdk, h, hl, MustInt]
  · intro err h
    refine ⟨?_, ?_, ?_⟩
    · simp only [playStoreGetInstalls, h]
    · simp only [playStoreGetVersion, h]
    · simp only [playStoreGetTargetSdk, h]
  · intro text e h
    unfold playStoreGetInstalls playStoreGetVersion playStoreGetTargetSdk at h
    cases hc : cachedGetJson env params w with
    | mk o w2 =>
      rw [hc] at h
      cases o with
      | none => simp at h
      | some x =>
        cases x with
        | error err =>
          simp only [Prod.mk.injEq, Option.some.injEq, or_self] at h
          exact ⟨err, by rw [h.2], h.1.2.symm⟩
        | ok js =>
          simp only [Prod.mk.injEq, Option.some.injEq] at h
          rcases h with h | h | h
          · cases h.1.2
          · split at h
            · simp only [Prod.mk.injEq, Option.some.injEq] at h
              cases h.1.2
            · simp only [Prod.mk.injEq, Option.some.injEq] at h
              cases h.1.2
          · cases h.1.2
  · unfold playStoreGetInstalls playStoreGetVersion playStoreGetTargetSdk
    cases hc : cachedGetJson env params w with
    | mk o w2 =>
      cases o with
      | none => simp
      | some x =>
        cases x with
        | error err => simp
        | ok js =>
          refine ⟨by simp, ?_, by simp⟩
          simp only
          split <;> simp

end fetchContract

set_option maxRecDepth 16384 in
/-- C13 for the status `404 Not Found`, for a transport error `timeout` and for a body, each on
the URL `u` and followed by a call for the URL `v` and the call for `u` again. -/
theorem cached_result_served_without_network_witness :
    (((cachedGetBody
          (fixedEnv (Except.ok { StatusCode := 404, Status := ascii "404 Not Found",
                                 Body := ([], none) }))
          (ascii "u") freshWorld).2.htmlCache.Get (ascii "u")).2 =
        (some (stored (Except.error (ascii "404 Not Found"))), true) ∧
      (cachedGetBody
          (fixedEnv (Except.ok { StatusCode := 404, Status := ascii "404 Not Found",
                                 Body := ([], none) }))
          (ascii "u")
          (runBody
            (fixedEnv (Except.ok { StatusCode := 404, Status := ascii "404 Not Found",
                                   Body := ([], none) }))
            [ascii "v"]
            (cachedGetBody
              (fixedEnv (Except.ok { StatusCode := 404, Status := ascii "404 Not Found",
                                     Body := ([], none) }))
              (ascii "u") freshWorld).2)).1 = some (Except.error (ascii "404 Not Found"))) ∧
    (cachedGetBody (fixedEnv (Except.error (ascii "timeout"))) (ascii "u")
        (runBody (fixedEnv (Except.error (ascii "timeout"))) [ascii "v"]
          (cachedGetBody (fixedEnv (Except.error (ascii "timeout"))) (ascii "u")
            freshWorld).2)).1 = some (Except.error (ascii "timeout")) ∧
    (cachedGetBody (fixedEnv (okResponse (ascii "<head></head>x"))) (ascii "u")
        (runBody (fixedEnv (okResponse (ascii "<head></head>x"))) [ascii "v"]
          (cachedGetBody (fixedEnv (okResponse (ascii "<head></head>x"))) (ascii "u")
            freshWorld).2)).2.net =
      (runBody (fixedEnv (okResponse (ascii "<head></head>x"))) [ascii "v"]
        (cachedGetBody (fixedEnv (okResponse (ascii "<head></head>x"))) (ascii "u")
          freshWorld).2).net :=
  have hm : (freshWorld.htmlCache.Get (ascii "u")).2.2 = false := by decide
  have hmax : 0 ≤ freshWorld.htmlCache.max := by decide
  have a := cached_result_served_without_network
    (fixedEnv (Except.ok { StatusCode := 404, Status := ascii "404 Not Found",
                           Body := ([], none) }))
    (ascii "u") freshWorld _ (Except.error (ascii "404 Not Found")) (lru.Inv_New 500) hmax hm
    (Prod.ext (by rfl) rfl)
  have b := cached_result_served_without_network
    (fixedEnv (Except.error (ascii "timeout"))) (ascii "u") freshWorld _
    (Except.error (ascii "timeout")) (lru.Inv_New 500) hmax hm (Prod.ext (by rfl) rfl)
  have c := cached_result_served_without_network
    (fixedEnv (okResponse (ascii "<head></head>x"))) (ascii "u") freshWorld _
    (Except.ok (ascii "x")) (lru.Inv_New 500) hmax hm (Prod.ext (by rfl) rfl)
  ⟨⟨a.1,
      (a.2 [ascii "v"] (by
        intro i hi
        rw [List.take_of_length_le (by simpa using hi)]
        decide)).1⟩,
    (b.2 [ascii "v"] (by
      intro i hi
      rw [List.take_of_length_le (by simpa using hi)]
      decide)).1,
    (c.2 [ascii "v"] (by
      intro i hi
      rw [List.take_of_length_le (by simpa using hi)]
      decide)).2⟩

set_option maxRecDepth 16384 in
/-- C14 as stated fails: the status `204 No Content` is a 2xx status and the body holds
`</head>`, yet the call returns the status text as an error and caches it as a failure. -/
theorem status_204_cached_as_failure :
    ((200 : Int) ≤ 204 ∧ (204 : Int) < 300) ∧
    ascii "</head>" <:+: ascii "<head></head>x" ∧
    (cachedGetBody
      (fixedEnv (Except.ok { StatusCode := 204, Status := ascii "204 No Content",
                             Body := (ascii "<head></head>x", none) }))
      (ascii "u") freshWorld).1 = some (Except.error (ascii "204 No Content")) ∧
    ((cachedGetBody
      (fixedEnv (Except.ok { StatusCode := 204, Status := ascii "204 No Content",
                             Body := (ascii "<head></head>x", none) }))
      (ascii "u") freshWorld).2.htmlCache.Get (ascii "u")).2 =
      (some { content := [], ok := false, errorStr := ascii "204 No Content" }, true) := by
  refine ⟨by decide, by decide, by rfl, by rfl⟩

/-- C14 (amended) for the status `404 Not Found`. -/
theorem cachedGetBody_on_miss_witness :
    (freshWorld.htmlCache.Get (ascii "u")).2.2 = false ∧
    (404 : Int) ≠ 200 ∧
    cachedGetBody
        (fixedEnv (Except.ok { StatusCode := 404, Status := ascii "404 Not Found",
                               Body := ([], none) }))
        (ascii "u") freshWorld =
      (some (Except.error (ascii "404 Not Found")),
        { htmlCache := freshWorld.htmlCache.Set (ascii "u")
            { errorStr := ascii "404 Not Found", ok := false, content := [] },
          jsCache := freshWorld.jsCache, net := 1 }) :=
  ⟨by decide, by decide,
    (cachedGetBody_on_miss
      (fixedEnv (Except.ok { StatusCode := 404, Status := ascii "404 Not Found",
                             Body := ([], none) }))
      (ascii "u") freshWorld (by decide)).2.1
      { StatusCode := 404, Status := ascii "404 Not Found", Body := ([], none) } 1 rfl
      (by decide)⟩

set_option maxRecDepth 16384 in
/-- C15 fails on the code.  A response with status 200 whose body has no `</head>` makes
`cachedGetBody` panic (index 1 of a slice of length 1); a matching `AF_initDataCallback` block
without `data:` and one with an empty payload make `cachedGetJson` panic (index 1 of a slice of
length 1, slice bound -1). -/
theorem missing_delimiters_panic :
    (cachedGetBody (fixedEnv (okResponse (ascii "<html></html>")))
      (ascii "u") freshWorld).1.isNone = true ∧
    (cachedGetJson
      (fixedEnv (okResponse
        (ascii "<head></head>AF_initDataCallback(\x7bkey: [\"org.x\"], \x7d);</script>")))
      [ascii "org.x"] freshWorld).1.isNone = true ∧
    (cachedGetJson
      (fixedEnv (okResponse (ascii
        "<head></head>AF_initDataCallback(\x7b[\"org.x\"], data: sideChannel: \x7d);</script>")))
      [ascii "org.x"] freshWorld).1.isNone = true := by
  refine ⟨by decide, by decide, by decide⟩

set_option maxRecDepth 16384 in
/-- C17 for a body without a block for the app id: the parser fails on the empty payload. -/
theorem cachedGetJson_caches_only_success_witness :
    cachedGetJson (fixedEnv (okResponse (ascii "<head></head>x"))) [ascii "org.x"] freshWorld =
      (some (Except.error (ascii "EOF")),
        (cachedGetJson (fixedEnv (okResponse (ascii "<head></head>x"))) [ascii "org.x"]
          freshWorld).2) ∧
    (cachedGetJson (fixedEnv (okResponse (ascii "<head></head>x"))) [ascii "org.x"]
      freshWorld).2.jsCache = freshWorld.jsCache :=
  have h : cachedGetJson (fixedEnv (okResponse (ascii "<head></head>x"))) [ascii "org.x"]
      freshWorld =
    (some (Except.error (ascii "EOF")),
      (cachedGetJson (fixedEnv (okResponse (ascii "<head></head>x"))) [ascii "org.x"]
        freshWorld).2) := Prod.ext (by rfl) rfl
  ⟨h, (cachedGetJson_caches_only_success _ _ _ _).1 (ascii "EOF") h⟩

set_option maxRecDepth 16384 in
/-- C16 as stated fails.  For the parsed document `[]` every index path runs out of range at its
first step, yet the resolvers return a text with a nil error: the empty string,
`Varies with device`, `0`.  And when the document is unavailable the error of
`playStoreGetInstalls` called for `$installs` is `app unavailable: timeout`, which does not name
the placeholder. -/
theorem resolvers_return_text_for_short_document :
    ((worldWithDoc (ascii "org.x") (Json.array [])).jsCache.Get (ascii "org.x")).2.2 = true ∧
    (playStoreGetInstalls (fixedEnv (okResponse [])) (ascii "$installs") [ascii "org.x"]
      (worldWithDoc (ascii "org.x") (Json.array []))).1 = some ([], none) ∧
    (playStoreGetVersion (fixedEnv (okResponse [])) (ascii "$version") [ascii "org.x"]
      (worldWithDoc (ascii "org.x") (Json.array []))).1 =
      some (ascii "Varies with device", none) ∧
    (playStoreGetTargetSdk (fixedEnv (okResponse [])) (ascii "$targetsdk") [ascii "org.x"]
      (worldWithDoc (ascii "org.x") (Json.array []))).1 = some (ascii "0", none) ∧
    (playStoreGetInstalls (fixedEnv (Except.error (ascii "timeout"))) (ascii "$installs")
      [ascii "org.x"] freshWorld).1 = some ([], some (ascii "app unavailable: timeout")) ∧
    ¬ ascii "$installs" <:+: ascii "app unavailable: timeout" := by
  refine ⟨by decide, by decide, by decide, by decide, by decide, by decide⟩

set_option maxRecDepth 16384 in
/-- C16 (amended) for `playStoreGetInstalls` on the document `[]`, and on a document with the
installs `10+` at the end of its path. -/
theorem resolvers_fall_back_without_error_witness :
    playStoreGetInstalls (fixedEnv (okResponse [])) (ascii "$installs") [ascii "org.x"]
        (worldWithDoc (ascii "org.x") (Json.array [])) =
      (some ([], none),
        (cachedGetJson (fixedEnv (okResponse [])) [ascii "org.x"]
          (worldWithDoc (ascii "org.x") (Json.array []))).2) ∧
    playStoreGetInstalls (fixedEnv (okResponse [])) (ascii "$installs") [ascii "org.x"]
        (worldWithDoc (ascii "org.x") (storeDoc (ascii "1.0") (ascii "10+"))) =
      (some (ascii "10+", none),
        (cachedGetJson (fixedEnv (okResponse [])) [ascii "org.x"]
          (worldWithDoc (ascii "org.x") (storeDoc (ascii "1.0") (ascii "10+")))).2) :=
  have h : cachedGetJson (fixedEnv (okResponse [])) [ascii "org.x"]
      (worldWithDoc (ascii "org.x") (Json.array [])) =
    (some (Except.ok (Json.array [])),
      (cachedGetJson (fixedEnv (okResponse [])) [ascii "org.x"]
        (worldWithDoc (ascii "org.x") (Json.array []))).2) := Prod.ext (by rfl) rfl
  have hs : ∀ s, getPath (Json.array []) [1, 2, 13, 3] ≠ Json.string s := by
    intro s e
    cases e
  have h1 : cachedGetJson (fixedEnv (okResponse [])) [ascii "org.x"]
      (worldWithDoc (ascii "org.x") (storeDoc (ascii "1.0") (ascii "10+"))) =
    (some (Except.ok (storeDoc (ascii "1.0") (ascii "10+"))),
      (cachedGetJson (fixedEnv (okResponse [])) [ascii "org.x"]
        (worldWithDoc (ascii "org.x") (storeDoc (ascii "1.0") (ascii "10+")))).2) :=
    Prod.ext (by rfl) rfl
  ⟨((resolvers_fall_back_without_error (fixedEnv (okResponse [])) (ascii "$installs")
      [ascii "org.x"] (worldWithDoc (ascii "org.x") (Json.array [])) _).1 (Json.array []) h).1 hs,
    ((resolvers_fall_back_without_error (fixedEnv (okResponse [])) (ascii "$installs")
      [ascii "org.x"] (worldWithDoc (ascii "org.x") (storeDoc (ascii "1.0") (ascii "10+"))) _).1
      (storeDoc (ascii "1.0") (ascii "10+")) h1).2.2.2.1 (ascii "10+") (by rfl)⟩

end playshields

namespace playshields

/-- C12: a `/play` request that misses `jsonCache` goes through the substitution pipeline
(lines 385-408) when its app id is not empty and `appIDPattern` matches it from its first to its
last byte, and only then: an empty id is answered with the error `missing app id` and an id that
the pattern does not match from end to end with `invalid app id format`, with `jsonCache` and the
state behind the resolvers (the other two caches and the network) left as they were, whatever
the registry and the orders of its loops.  The test of the handler on the indices of the
unanchored leftmost search is equivalent to the match anchored at both ends. -/
theorem play_validates_app_id {σ : Type}
    (orderMessage orderLabel : List (GoString × placeHolderOrPanic σ)) (req : Request)
    (jsonCache : lru.cache GoString H) (w : σ)
    (hmiss : (jsonCache.Get (req.Path ++ req.RawQuery)).2.2 = false) :
    ((req.DefaultQuery (ascii "i") (req.DefaultQuery (ascii "id") []) ≠ [] ∧
        Matches regExpAppID (req.DefaultQuery (ascii "i") (req.DefaultQuery (ascii "id") [])) →
      playHandler orderMessage orderLabel req jsonCache w =
        renderBadge orderMessage orderLabel req (req.Path ++ req.RawQuery)
          (req.DefaultQuery (ascii "i") (req.DefaultQuery (ascii "id") [])) jsonCache w) ∧
    (req.DefaultQuery (ascii "i") (req.DefaultQuery (ascii "id") []) = [] →
      playHandler orderMessage orderLabel req jsonCache w =
        (some (errorJSON (ascii "missing app id")), jsonCache, w)) ∧
    (req.DefaultQuery (ascii "i") (req.DefaultQuery (ascii "id") []) ≠ [] ∧
        ¬ Matches regExpAppID (req.DefaultQuery (ascii "i") (req.DefaultQuery (ascii "id") [])) →
      playHandler orderMessage orderLabel req jsonCache w =
        (some (errorJSON (ascii "invalid app id format")), jsonCache, w))) ∧
    ((∃ indices,
        FindStringIndex regExpAppID
            (req.DefaultQuery (ascii "i") (req.DefaultQuery (ascii "id") [])) = some indices ∧
          ¬ (indices.1 > 0 ∨ indices.2 <
            (req.DefaultQuery (ascii "i") (req.DefaultQuery (ascii "id") [])).length)) ↔
      Matches regExpAppID (req.DefaultQuery (ascii "i") (req.DefaultQuery (ascii "id") []))) :=
  ⟨⟨fun h => playHandler_valid orderMessage orderLabel req jsonCache w hmiss h.1 h.2,
      fun h => playHandler_missing orderMessage orderLabel req jsonCache w hmiss h,
      fun h => playHandler_malformed orderMessage orderLabel req jsonCache w hmiss h.1 h.2⟩,
    FindStringIndex_regExpAppID _⟩

/-- An id with a space is turned away, an empty one too, and `org.x` is rendered, each on an
empty `jsonCache` and with the resolvers of `main.go`. -/
theorem play_validates_app_id_witness :
    playHandler (modelledPlaceHolders (fixedEnv (okResponse [])))
        (modelledPlaceHolders (fixedEnv (okResponse []))).reverse (playRequest (ascii "org x"))
        (lru.New 10000) freshWorld =
      (some (errorJSON (ascii "invalid app id format")), lru.New 10000, freshWorld) ∧
    playHandler (modelledPlaceHolders (fixedEnv (okResponse [])))
        (modelledPlaceHolders (fixedEnv (okResponse []))).reverse (playRequest [])
        (lru.New 10000) freshWorld =
      (some (errorJSON (ascii "missing app id")), lru.New 10000, freshWorld) ∧
    playHandler (modelledPlaceHolders (fixedEnv (okResponse [])))
        (modelledPlaceHolders (fixedEnv (okResponse []))).reverse (playRequest (ascii "org.x"))
        (lru.New 10000) freshWorld =
      renderBadge (modelledPlaceHolders (fixedEnv (okResponse [])))
        (modelledPlaceHolders (fixedEnv (okResponse []))).reverse (playRequest (ascii "org.x"))
        (ascii "/playi=org.x") (ascii "org.x") (lru.New 10000) freshWorld :=
  ⟨(play_validates_app_id (modelledPlaceHolders (fixedEnv (okResponse [])))
      (modelledPlaceHolders (fixedEnv (okResponse []))).reverse
      (playRequest (ascii "org x")) (lru.New 10000) freshWorld rfl).1.2.2
      ⟨by decide, fun h => by
        obtain ⟨idx, hf, -⟩ := (FindStringIndex_regExpAppID _).2 h
        have hn : FindStringIndex regExpAppID (ascii "org x") = none := by decide
        exact absurd (hn ▸ hf : (none : Option (Nat × Nat)) = some idx) (by simp)⟩,
    (play_validates_app_id (modelledPlaceHolders (fixedEnv (okResponse [])))
      (modelledPlaceHolders (fixedEnv (okResponse []))).reverse
      (playRequest []) (lru.New 10000) freshWorld rfl).1.2.1 rfl,
    (play_validates_app_id (modelledPlaceHolders (fixedEnv (okResponse [])))
      (modelledPlaceHolders (fixedEnv (okResponse []))).reverse
      (playRequest (ascii "org.x")) (lru.New 10000) freshWorld rfl).1.1
      ⟨by decide, (FindStringIndex_regExpAppID _).1 ⟨(0, 5), by decide, by decide⟩⟩⟩

/-- C18: every response of the `/play` handler, over any sequence of requests served from the
empty `jsonCache`, each with its own two orders of the loops over the registry, has status 200
and a JSON object as body that is either the body of a successful render (`schemaVersion` 1,
`label`, `message`, `cacheSeconds` 3600 and nothing else) or the body of a failure
(`schemaVersion` 1, `label` `error`, `message`, `isError` true and nothing else).  On a miss of
`jsonCache` the failures are: `missing app id` for an empty id, `invalid app id format` for an
id that the pattern does not match from end to end, and the text of the error of
`replacePlaceHolders` for the message, else for the label; with no error the body carries the
two rendered texts.  The handler gives no response only when a resolver of the registry
panics. -/
theorem play_answers_with_badges {σ : Type} (xs : List (Served σ)) (w : σ) :
    (∀ o ∈ (servePlay xs (lru.New 10000) w).1, ∀ r, o = some r →
      r.status = 200 ∧ ∃ h, r.body = some h ∧ (isSuccessBody h ∨ isFailureBody h)) ∧
    (∀ (orderMessage orderLabel : List (GoString × placeHolderOrPanic σ)) (req : Request)
        (jsonCache : lru.cache GoString H) (w0 : σ),
      (jsonCache.Get (req.Path ++ req.RawQuery)).2.2 = false →
      (req.DefaultQuery (ascii "i") (req.DefaultQuery (ascii "id") []) = [] →
        (playHandler orderMessage orderLabel req jsonCache w0).1 =
          some (errorJSON (ascii "missing app id"))) ∧
      (req.DefaultQuery (ascii "i") (req.DefaultQuery (ascii "id") []) ≠ [] →
        ¬ Matches regExpAppID (req.DefaultQuery (ascii "i") (req.DefaultQuery (ascii "id") [])) →
        (playHandler orderMessage orderLabel req jsonCache w0).1 =
          some (errorJSON (ascii "invalid app id format"))) ∧
      (req.DefaultQuery (ascii "i") (req.DefaultQuery (ascii "id") []) ≠ [] →
        Matches regExpAppID (req.DefaultQuery (ascii "i") (req.DefaultQuery (ascii "id") [])) →
        (playHandler orderMessage orderLabel req jsonCache w0).1 =
          match replacePlaceHoldersOrPanic (messageTemplate req) orderMessage
              [req.DefaultQuery (ascii "i") (req.DefaultQuery (ascii "id") [])] w0 with
          | (none, _) => none
          | (some (_, some err), _) => some (errorJSON err)
          | (some (message, none), w1) =>
            match replacePlaceHoldersOrPanic (labelTemplate req) orderLabel
                [req.DefaultQuery (ascii "i") (req.DefaultQuery (ascii "id") [])] w1 with
            | (none, _) => none
            | (some (_, some err), _) => some (errorJSON err)
            | (some (label, none), _) => some (badgeJSON label message))) ∧
    (∀ (orderMessage orderLabel : List (GoString × placeHolderOrPanic σ)) (req : Request)
        (jsonCache : lru.cache GoString H) (w0 : σ),
      (playHandler orderMessage orderLabel req jsonCache w0).1 = none →
      ∃ kv ∈ orderMessage ++ orderLabel, ∃ w1,
        (kv.2.placeHolderGetter kv.1
          [req.DefaultQuery (ascii "i") (req.DefaultQuery (ascii "id") [])] w1).1 = none) := by
  refine ⟨servePlay_shape xs _ w (SuccessCache_New _), ?_, ?_⟩
  · intro om ol req c w0 hmiss
    refine ⟨fun he => ?_, fun hne hm => ?_, fun hne hm => ?_⟩
    · rw [playHandler_missing om ol req c w0 hmiss he]
    · rw [playHandler_malformed om ol req c w0 hmiss hne hm]
    · rw [playHandler_valid om ol req c w0 hmiss hne hm]
      unfold renderBadge
      split
      · rfl
      · rfl
      · split
        · rfl
        · rfl
        · rfl
  · intro om ol req c w0 h
    exact playHandler_none om ol req c w0 h

set_option maxRecDepth 16384 in
/-- Three requests in a row, with the resolvers of `main.go` and the document of the app in
`jsCache`: a render, a malformed id, the render again out of `jsonCache`.  And a store that does
not answer gives the error badge with the error text, and a store page without `</head>` no
response, from a resolver that panics. -/
theorem play_answers_with_badges_witness :
    (badgeJSON (ascii "play") (ascii "1.0")).status = 200 ∧
    (errorJSON (ascii "invalid app id format")).status = 200 ∧
    (playHandler (modelledPlaceHolders (fixedEnv (Except.error (ascii "timeout"))))
        (modelledPlaceHolders (fixedEnv (Except.error (ascii "timeout")))).reverse
        (playRequest (ascii "org.x")) (lru.New 10000) freshWorld).1 =
      some (errorJSON (ascii "app unavailable: timeout")) ∧
    ∃ kv ∈ modelledPlaceHolders (fixedEnv (okResponse (ascii "<html></html>"))) ++
        (modelledPlaceHolders (fixedEnv (okResponse (ascii "<html></html>")))).reverse,
      ∃ w1, (kv.2.placeHolderGetter kv.1 [ascii "org.x"] w1).1 = none :=
  ⟨((play_answers_with_badges
      [{ request := playRequest (ascii "org.x"),
         orderMessage := modelledPlaceHolders (fixedEnv (okResponse [])),
         orderLabel := (modelledPlaceHolders (fixedEnv (okResponse []))).reverse },
       { request := playRequest (ascii "org x"),
         orderMessage := modelledPlaceHolders (fixedEnv (okResponse [])),
         orderLabel := (modelledPlaceHolders (fixedEnv (okResponse []))).reverse },
       { request := playRequest (ascii "org.x"),
         orderMessage := (modelledPlaceHolders (fixedEnv (okResponse []))).reverse,
         orderLabel := modelledPlaceHolders (fixedEnv (okResponse [])) }]
      (worldWithDoc (ascii "org.x") (storeDoc (ascii "1.0") (ascii "10+")))).1
      (some (badgeJSON (ascii "play") (ascii "1.0"))) (by decide) _ rfl).1,
    ((play_answers_with_badges
      [{ request := playRequest (ascii "org.x"),
         orderMessage := modelledPlaceHolders (fixedEnv (okResponse [])),
         orderLabel := (modelledPlaceHolders (fixedEnv (okResponse []))).reverse },
       { request := playRequest (ascii "org x"),
         orderMessage := modelledPlaceHolders (fixedEnv (okResponse [])),
         orderLabel := (modelledPlaceHolders (fixedEnv (okResponse []))).reverse },
       { request := playRequest (ascii "org.x"),
         orderMessage := (modelledPlaceHolders (fixedEnv (okResponse []))).reverse,
         orderLabel := modelledPlaceHolders (fixedEnv (okResponse [])) }]
      (worldWithDoc (ascii "org.x") (storeDoc (ascii "1.0") (ascii "10+")))).1
      (some (errorJSON (ascii "invalid app id format"))) (by decide) _ rfl).1,
    (((play_answers_with_badges [] freshWorld).2.1
      (modelledPlaceHolders (fixedEnv (Except.error (ascii "timeout"))))
      (modelledPlaceHolders (fixedEnv (Except.error (ascii "timeout")))).reverse
      (playRequest (ascii "org.x")) (lru.New 10000) freshWorld rfl).2.2 (by decide)
      ((FindStringIndex_regExpAppID _).1 ⟨(0, 5), by decide, by decide⟩)).trans (by decide),
    (play_answers_with_badges [] freshWorld).2.2
      (modelledPlaceHolders (fixedEnv (okResponse (ascii "<html></html>"))))
      (modelledPlaceHolders (fixedEnv (okResponse (ascii "<html></html>")))).reverse
      (playRequest (ascii "org.x")) (lru.New 10000) freshWorld (by decide)⟩

end playshields
